import Mathlib

/-!
Verification of the git-identity synchronization core of the `zzk` command-line
tool.  The definitions below are a shallow embedding of the Go sources under
`internal/git/` (`sync.go`, `identity.go`, `config.go`, `backup.go`) and the
identity-detection file (`DetectIdentity` / `MatchingFolder`).

Modelling conventions:
* The filesystem is an association list from path strings to file entries
  (contents plus a modification time).  `os.WriteFile`/`os.Create` replace the
  entry, `os.Remove` deletes it.  Directories are tracked as a set of paths.
* Go map iteration order is nondeterministic; maps are modelled as association
  lists and iteration follows list order.  `os.ReadDir` and `filepath.Glob`
  sort by name, which the scanners reproduce.
* External processes (`ssh-keygen`, `ssh-add`, `ssh -T`) are oracles supplied
  by an `Env` record: the same argument list always yields the same exit
  status and output, which models two back-to-back runs with no external
  interference.
* Machine integers do not occur in the modelled code; timestamps are `Nat`.
-/

namespace ZZK

/-! ## Character-list string utilities (mirroring `strings.HasPrefix`,
`strings.HasSuffix`, `strings.Contains`, `strings.TrimSuffix`) -/

/-- `strings.HasPrefix s pre` : `pre.data.isPrefixOf s.data`. -/
def goHasPrefix (s pre : String) : Bool :=
  pre.data.isPrefixOf s.data

/-- `strings.HasSuffix s suf`. -/
def goHasSuffix (s suf : String) : Bool :=
  suf.data.isSuffixOf s.data

/-- Substring test on character lists (semantics of `strings.Contains`). -/
def containsSubList (needle : List Char) : List Char → Bool
  | [] => needle.isPrefixOf []
  | c :: rest => needle.isPrefixOf (c :: rest) || containsSubList needle rest

/-- `strings.Contains hay needle`. -/
def goContains (hay needle : String) : Bool :=
  containsSubList needle.data hay.data

/-- Strip a prefix from a character list, or fail. -/
def stripPre : List Char → List Char → Option (List Char)
  | [], s => some s
  | _ :: _, [] => none
  | p :: ps, c :: cs => if p = c then stripPre ps cs else none

/-- `strings.TrimSuffix s suf`. -/
def goTrimSuffix (s suf : String) : String :=
  if goHasSuffix s suf then ⟨s.data.take (s.data.length - suf.data.length)⟩ else s

/-! ## Paths (`path/filepath`: `Clean`, `Join`, `Abs`, `Base`)

`filepath.Clean` processes the slash-separated components of a path with a
stack: empty and `.` components are dropped, `..` pops a component (and is
kept, resp. dropped, when the stack is empty on a relative, resp. rooted,
path).  `filepath.Join(a, b)` is `Clean(a + "/" + b)` and `filepath.Abs(p)`
is `p` cleaned when rooted, else `Join(cwd, p)`. -/

/-- Split a character list at every `'/'` (semantics of `strings.Split`). -/
def splitSlash : List Char → List (List Char)
  | [] => [[]]
  | c :: cs =>
    if c = '/' then [] :: splitSlash cs
    else
      match splitSlash cs with
      | [] => [[c]]
      | g :: gs => (c :: g) :: gs

/-- Rejoin components with `'/'` (inverse of `splitSlash`). -/
def joinSlash : List (List Char) → List Char
  | [] => []
  | [g] => g
  | g :: gs => g ++ '/' :: joinSlash gs

/-- One step of `filepath.Clean`'s component stack (stack kept reversed). -/
def cleanStep (rooted : Bool) (acc : List (List Char)) (comp : List Char) :
    List (List Char) :=
  if comp = [] ∨ comp = ['.'] then acc
  else if comp = ['.', '.'] then
    match acc with
    | [] => if rooted then [] else [['.', '.']]
    | a :: rest => if a = ['.', '.'] then ['.', '.'] :: a :: rest else rest
  else comp :: acc

/-- `filepath.Clean`. -/
def cleanPath (p : String) : String :=
  match p.data with
  | [] => "."
  | '/' :: cs =>
    ⟨'/' :: joinSlash ((splitSlash ('/' :: cs)).foldl (cleanStep true) []).reverse⟩
  | c :: cs =>
    let body := joinSlash ((splitSlash (c :: cs)).foldl (cleanStep false) []).reverse
    if body = [] then "." else ⟨body⟩

/-- `filepath.Join(a, b)` (two components). -/
def joinPath (a b : String) : String :=
  cleanPath ⟨a.data ++ '/' :: b.data⟩

/-- `filepath.Abs` relative to a working directory `cwd`. -/
def absPath (cwd p : String) : String :=
  if goHasPrefix p "/" then cleanPath p else joinPath cwd p

/-- `ExpandPath` (identity.go): expand a leading `~/` against the home
directory via `filepath.Join`. -/
def expandPath (home p : String) : String :=
  match p.data with
  | '~' :: '/' :: rest => joinPath home ⟨rest⟩
  | _ => p

/-- `filepath.Base` (for the slash-free, non-empty paths the tool builds). -/
def baseName (p : String) : String :=
  ⟨((splitSlash p.data).getLast? ).getD []⟩

/-! ### Clean-stable paths

Paths whose components are all plain (nonempty, not `.` or `..`, slash-free)
are fixed points of `cleanPath`; the tool's generated paths have this shape
whenever the home directory is well-formed and identity names are plain. -/

/-- A plain path component: nonempty, slash-free, and not `.` or `..`. -/
def PlainComp (g : List Char) : Prop :=
  g ≠ [] ∧ g ≠ ['.'] ∧ g ≠ ['.', '.'] ∧ '/' ∉ g

/-- A rooted path whose components are all plain. -/
def NicePath (p : String) : Prop :=
  ∃ rest, p.data = '/' :: rest ∧ ∀ g ∈ splitSlash rest, PlainComp g

/-! ## Data model (identity.go, config.go, state file) -/

/-- An identity record (identity.go).  `name` is injected from the map key by
`LoadConfig`; the JSON value does not carry it. -/
structure Identity where
  name : String
  user : String
  email : String
  domain : String
  folders : List String
  deriving DecidableEq, Repr

/-- The `~/.git-identities.json` configuration (config.go).  Go stores the
identities in a map with nondeterministic iteration order; the model fixes an
iteration order by using an association list from name to record. -/
structure Config where
  identities : List (String × Identity)
  deriving DecidableEq, Repr

/-- `Config.HasIdentity` (config.go). -/
def Config.hasIdentity (c : Config) (name : String) : Bool :=
  c.identities.any (fun e => e.1 == name)

/-- Character class of the local part of the email regexp
`[a-zA-Z0-9._%+-]`. -/
def emailLocalChar (c : Char) : Bool :=
  c.isAlpha || c.isDigit || c = '.' || c = '_' || c = '%' || c = '+' || c = '-'

/-- Character class of the domain part `[a-zA-Z0-9.-]`. -/
def emailDomainChar (c : Char) : Bool :=
  c.isAlpha || c.isDigit || c = '.' || c = '-'

/-- Split a character list at the first occurrence of `sep`; `none` when
`sep` does not occur. -/
def splitFirst (sep : Char) : List Char → Option (List Char × List Char)
  | [] => none
  | c :: cs =>
    if c = sep then some ([], cs)
    else (splitFirst sep cs).map (fun p => (c :: p.1, p.2))

/-- Split a character list at the last occurrence of `sep`. -/
def splitLast (sep : Char) (l : List Char) : Option (List Char × List Char) :=
  (splitFirst sep l.reverse).map (fun p => (p.2.reverse, p.1.reverse))

/-- The email regexp of `Identity.Validate` (identity.go):
`^[a-zA-Z0-9._%+-]+@[a-zA-Z0-9.-]+\.[a-zA-Z]{2,}$`.  Because `@` belongs to
no character class the match splits at the unique `@`, and because the
trailing `[a-zA-Z]{2,}` is dot-free the `\.` of the pattern is the last dot
of the domain part; the matcher below implements exactly that shape. -/
def emailMatch (s : String) : Bool :=
  match splitFirst '@' s.data with
  | none => false
  | some (localPart, rest) =>
    localPart ≠ [] && localPart.all emailLocalChar &&
    match splitLast '.' rest with
    | none => false
    | some (dom, tld) =>
      dom ≠ [] && dom.all emailDomainChar && 2 ≤ tld.length && tld.all Char.isAlpha

/-- `Identity.Validate` (identity.go): the first failing check's message, or
`none` when the record is valid. -/
def validate (i : Identity) : Option String :=
  if i.user = "" then some "user must not be empty"
  else if i.email = "" then some "email must not be empty"
  else if i.domain = "" then some "domain must not be empty"
  else if i.folders = [] then some "at least one folder must be specified"
  else if !emailMatch i.email then some ("invalid email address: " ++ i.email)
  else if i.folders.contains "" then some "folder path must not be empty"
  else none

/-- `Identity.SSHKeyPath` (identity.go). -/
def sshKeyPathOf (i : Identity) : String := "~/.ssh/" ++ i.name ++ "_key"

/-- `Identity.SSHPubKeyPath` (identity.go). -/
def sshPubKeyPathOf (i : Identity) : String := "~/.ssh/" ++ i.name ++ "_key.pub"

/-- `Identity.GitConfigPath` (identity.go). -/
def gitConfigPathOf (i : Identity) : String := "~/.gitconfig-" ++ i.name

/-- `Identity.SSHKeyComment` (identity.go): the ownership marker embedded in
the generated public key's comment. -/
def sshKeyComment (i : Identity) : String :=
  i.email ++ " [zzk:" ++ i.name ++ "]"

/-! ## Ownership marker parsing (`IsZZKManagedKey`, identity.go)

The Go code checks `strings.Contains(content, "[zzk:")` and then applies the
regexp `\[zzk:([^\]]+)\]`, taking the leftmost match: the first occurrence of
`[zzk:` that is followed by at least one non-`]` character and a closing
`]`. -/

/-- Characters up to (excluding) the first `]`; `none` when there is no
`]`. -/
def takeToBracket : List Char → Option (List Char)
  | [] => none
  | c :: rest =>
    if c = ']' then some []
    else (takeToBracket rest).map (c :: ·)

/-- The marker pattern `[zzk:` as characters. -/
def zzkPat : List Char := "[zzk:".data

/-- Leftmost match of `\[zzk:([^\]]+)\]`: scan for an occurrence of `[zzk:`
whose capture group is nonempty and closed. -/
def findMarker : List Char → Option (List Char)
  | [] => none
  | c :: rest =>
    if zzkPat.isPrefixOf (c :: rest) then
      match takeToBracket ((c :: rest).drop 5) with
      | some cap => if cap = [] then findMarker rest else some cap
      | none => findMarker rest
    else findMarker rest

/-- `IsZZKManagedKey` applied to file contents: `(isManaged, identityName)`. -/
def isZZKManagedContent (content : String) : Bool × String :=
  if !goContains content "[zzk:" then (false, "")
  else
    match findMarker content.data with
    | some cap => (true, ⟨cap⟩)
    | none => (false, "")

/-! ## Filesystem, events, environment -/

/-- Contents of a file: plain text, or a flattened tar archive of
`(basename, byteContents)` entries (backup.go stores each file under its
base name; the archived bytes are kept as text, which covers every file the
tool backs up). -/
inductive FileData where
  | text (s : String)
  | archive (entries : List (String × String))
  deriving DecidableEq, Repr

/-- A file entry: contents and modification time (used by backup
rotation). -/
structure FileEntry where
  data : FileData
  mtime : Nat
  deriving DecidableEq, Repr

/-- The filesystem: an association list from path to file entry, plus the set
of directories. -/
structure FS where
  files : List (String × FileEntry)
  dirs : List String
  deriving DecidableEq, Repr

def FS.lookup (fs : FS) (p : String) : Option FileEntry :=
  (fs.files.find? (fun e => e.1 == p)).map (fun e => e.2)

/-- `os.ReadFile`. -/
def FS.read (fs : FS) (p : String) : Option FileData :=
  (fs.lookup p).map (fun e => e.data)

/-- `os.Stat` succeeding on a file. -/
def FS.fileExists (fs : FS) (p : String) : Bool :=
  (fs.lookup p).isSome

/-- `os.Stat` succeeding on a file or a directory. -/
def FS.statOk (fs : FS) (p : String) : Bool :=
  fs.fileExists p || fs.dirs.contains p

/-- `os.WriteFile` / `os.Create`: replace the entry for `p`. -/
def FS.write (fs : FS) (p : String) (d : FileData) (now : Nat) : FS :=
  { fs with files := (p, ⟨d, now⟩) :: fs.files.filter (fun e => !(e.1 == p)) }

/-- `os.Remove` on a file (the success case; failures are OS interference,
which the analyzed runs exclude). -/
def FS.remove (fs : FS) (p : String) : FS :=
  { fs with files := fs.files.filter (fun e => !(e.1 == p)) }

/-- `os.MkdirAll` (modelled at the granularity of the requested directory). -/
def FS.mkdir (fs : FS) (p : String) : FS :=
  if fs.dirs.contains p then fs else { fs with dirs := p :: fs.dirs }

/-- Observable actions of a sync run, in chronological order: an invocation
of `ssh-keygen`, a successfully created backup archive (with the list of
archived file paths), and an attempted `os.Remove` of a file. -/
inductive Event where
  | keygen (name : String)
  | backup (path : String) (files : List String)
  | fremove (path : String)
  deriving DecidableEq, Repr

/-- Per-identity entry of the run-state file `git-state.json` (state.go). -/
structure IdState where
  lastSync : Nat
  fingerprint : String
  deriving DecidableEq, Repr

/-- World state threaded through a sync run: the filesystem, the parsed
run-state file, its global timestamp, and the event log (grown at the
end). -/
structure World where
  fs : FS
  state : List (String × IdState)
  stateLast : Nat
  log : List Event
  deriving Repr

/-- Deterministic oracles for the external collaborators.  `keygen` returns
the private/public key contents `ssh-keygen` would write for an identity
name, or `none` when generation fails; determinism models two back-to-back
runs with no external interference. -/
structure Env where
  home : String
  cwd : String
  now : Nat
  keygen : String → Option (String × String)
  mkdirOk : String → Bool
  sshOut : String → String
  sshExitOk : String → Bool
  dirEmpty : String → Bool

/-- Raw bytes of a file as fed to `tar` (the tool only ever backs up the
text files it manages). -/
def FileData.bytes : FileData → String
  | .text s => s
  | .archive _ => ""

/-! ## Small list utilities mirroring Go library behaviour -/

/-- Insertion into a Go map, modelled with first-key-wins position and value
replacement. -/
def insertReplace (l : List (String × α)) (k : String) (v : α) :
    List (String × α) :=
  match l with
  | [] => [(k, v)]
  | (k0, v0) :: rest =>
    if k0 = k then (k0, v) :: rest else (k0, v0) :: insertReplace rest k v

/-- `delete(m, k)` on a Go map. -/
def eraseKey (l : List (String × α)) (k : String) : List (String × α) :=
  l.filter (fun e => !(e.1 == k))

def lookupKey (l : List (String × α)) (k : String) : Option α :=
  (l.find? (fun e => e.1 == k)).map (fun e => e.2)

/-- Byte-wise lexicographic order on names (the order of `os.ReadDir` and
`filepath.Glob`; the managed names are ASCII, where byte order and
character order agree). -/
def strLexLt : List Char → List Char → Bool
  | [], [] => false
  | [], _ :: _ => true
  | _ :: _, [] => false
  | a :: as, b :: bs =>
    if a.toNat < b.toNat then true
    else if b.toNat < a.toNat then false
    else strLexLt as bs

def strLt (a b : String) : Bool := strLexLt a.data b.data

/-- Insertion sort on strings (lexicographic), the order in which
`os.ReadDir` and `filepath.Glob` return names. -/
def insertSorted (x : String) : List String → List String
  | [] => [x]
  | y :: ys => if strLt x y then x :: y :: ys else y :: insertSorted x ys

def sortStrings (l : List String) : List String :=
  l.foldr insertSorted []

/-! ## Filesystem scanner (identity.go: `FindZZKManagedKeys`;
the git-config scan is modelled from the spec, see below) -/

/-- The entry name of a direct child of `dir`, when `p` lies in `dir`. -/
def childOf (dir p : String) : Option String :=
  match stripPre (dir.data ++ ['/']) p.data with
  | some rest => if rest ≠ [] ∧ '/' ∉ rest then some ⟨rest⟩ else none
  | none => none

/-- `IsZZKManagedKey` (identity.go): read the file and look for the
ownership marker; unreadable files yield `(false, "")`. -/
def isZZKManagedKey (fs : FS) (pubKeyPath : String) : Bool × String :=
  match fs.read pubKeyPath with
  | some (.text content) => isZZKManagedContent content
  | _ => (false, "")

/-- `FindZZKManagedKeys` (identity.go): scan `~/.ssh` for `*.pub` files
carrying the marker; map each found identity name to the key path with the
`.pub` suffix stripped.  `os.ReadDir` returns entries sorted by name. -/
def findZZKManagedKeys (home : String) (fs : FS) : List (String × String) :=
  let sshDir := home ++ "/.ssh"
  let bases := sortStrings ((fs.files.filterMap (fun e => childOf sshDir e.1)).filter
    (fun b => goHasSuffix b ".pub"))
  bases.foldl (fun acc base =>
    let pubKeyPath := sshDir ++ "/" ++ base
    match isZZKManagedKey fs pubKeyPath with
    | (true, identityName) => insertReplace acc identityName (goTrimSuffix pubKeyPath ".pub")
    | (false, _) => acc) []

/-- Modelled from the spec: `FindZZKManagedGitConfigs` is referenced by
sync.go but its source file is not in the repository snapshot.  Spec §4.2:
"Scans the home directory for files matching the per-identity git-config
naming convention; extracts the identity name from the filename", the
convention being `.gitconfig-<name>` (sync.go, `Identity.GitConfigPath`).
Nonexistent directories yield an empty mapping. -/
def findZZKManagedGitConfigs (home : String) (fs : FS) : List (String × String) :=
  let bases := sortStrings ((fs.files.filterMap (fun e => childOf home e.1)).filter
    (fun b => goHasPrefix b ".gitconfig-" && b != ".gitconfig-"))
  bases.foldl (fun acc base =>
    match stripPre ".gitconfig-".data base.data with
    | some nm => insertReplace acc ⟨nm⟩ (home ++ "/" ++ base)
    | none => acc) []

/-! ## Orphan detector (sync.go: `detectOrphans`) -/

/-- `detectOrphans` (sync.go): names found by either scan that are not in
the config; the second loop skips names already collected
(`slices.Contains`). -/
def detectOrphans (home : String) (config : Config) (fs : FS) : List String :=
  let managedKeys := findZZKManagedKeys home fs
  let orphans := managedKeys.foldl (fun acc e =>
    if config.hasIdentity e.1 then acc else acc ++ [e.1]) []
  let managedConfigs := findZZKManagedGitConfigs home fs
  managedConfigs.foldl (fun acc e =>
    if config.hasIdentity e.1 then acc
    else if acc.contains e.1 then acc else acc ++ [e.1]) orphans

/-! ## Identity store load (config.go: `LoadConfig`)

`LoadConfig` reads and JSON-decodes `~/.git-identities.json`; the read and
decode are external collaborators, so the model starts from the decoded
association list.  The Go function performs no write: the only filesystem
action before any `return` is `os.ReadFile`, hence a failing load has no
side effect, which the embedding reflects by being a pure function. -/

/-- Validation pass of `LoadConfig` (config.go): inject each map key into
the record's `name` field, validate, and fail on the first invalid record
with an error naming it. -/
def loadConfigFrom : List (String × Identity) → Except String (List (String × Identity))
  | [] => .ok []
  | (name, rec0) :: rest =>
    let recNamed := { rec0 with name := name }
    match validate recNamed with
    | some msg => .error ("invalid identity " ++ name ++ ": " ++ msg)
    | none =>
      match loadConfigFrom rest with
      | .error e => .error e
      | .ok out => .ok ((name, recNamed) :: out)

/-! ## Identity detection (DetectIdentity / MatchingFolder) -/

/-- One folder pattern check of `DetectIdentity`:
`strings.HasPrefix(absDir, absFolder)` on cleaned absolute paths. -/
def folderMatches (home cwd absDir : String) (folder : String) : Bool :=
  goHasPrefix absDir (absPath cwd (expandPath home folder))

/-- `DetectIdentity`: first identity (map iteration order, modelled as list
order) with a folder whose cleaned absolute path is a string prefix of the
cleaned absolute directory. -/
def detectIdentity (home cwd : String) (config : Config) (dir : String) :
    Except String Identity :=
  let absDir := absPath cwd dir
  match config.identities.find? (fun e =>
    e.2.folders.any (folderMatches home cwd absDir)) with
  | some e => .ok e.2
  | none => .error ("no identity found for directory: " ++ dir)

/-- `MatchingFolder`: the first configured folder pattern that matches, or
`""`. -/
def matchingFolder (home cwd : String) (i : Identity) (dir : String) : String :=
  let absDir := absPath cwd dir
  match i.folders.find? (folderMatches home cwd absDir) with
  | some f => f
  | none => ""

/-! ## Backup (backup.go: `BackupFiles`, `RotateBackups`) -/

/-- Fixed backup directory `~/.config/zzk/backups`. -/
def backupDirOf (home : String) : String := home ++ "/.config/zzk/backups"

/-- Sequentially add files to the tar archive (`addFileToTar`): each file is
stored under its base name; a missing file aborts with an error after the
earlier entries were already written. -/
def buildArchive (fs : FS) : List String → List (String × String) × Bool
  | [] => ([], true)
  | f :: rest =>
    match fs.read f with
    | none => ([], false)
    | some d =>
      let (es, ok) := buildArchive fs rest
      ((baseName f, d.bytes) :: es, ok)

/-- `BackupFiles` (backup.go): empty list is an error; otherwise create
`git-orphans-<timestamp>.tar.gz` in the backup directory with every given
file under its base name.  Returns the updated filesystem, the archive path
and whether creation succeeded. -/
def backupFiles (env : Env) (files : List String) (fs : FS) :
    FS × String × Bool :=
  if files = [] then (fs, "", false)
  else
    let dir := backupDirOf env.home
    let fs := fs.mkdir dir
    let path := dir ++ "/git-orphans-" ++ toString env.now ++ ".tar.gz"
    let (entries, ok) := buildArchive fs files
    (fs.write path (.archive entries) env.now, path, ok)

/-- Paths in `dir` matching the glob `git-orphans-*.tar.gz` (the `*` spans
no path separator); `filepath.Glob` returns them sorted. -/
def globBackups (dir : String) (fs : FS) : List String :=
  sortStrings (fs.files.filterMap (fun e =>
    match stripPre (dir.data ++ "/git-orphans-".data) e.1.data with
    | some rest =>
      if goHasSuffix ⟨rest⟩ ".tar.gz" ∧ '/' ∉ rest then some e.1 else none
    | none => none))

def mtimeOf (fs : FS) (p : String) : Nat :=
  ((fs.lookup p).map (fun e => e.mtime)).getD 0

/-- Insertion sort, newest first (`sort.Slice` with
`ModTime().After`; ties keep the insertion-stable order — Go leaves the tie
order unspecified and no proved statement depends on it). -/
def insertByMtime (fs : FS) (x : String) : List String → List String
  | [] => [x]
  | y :: ys =>
    if mtimeOf fs y < mtimeOf fs x then x :: y :: ys else y :: insertByMtime fs x ys

def sortByMtimeDesc (fs : FS) (l : List String) : List String :=
  l.foldr (insertByMtime fs) []

/-- The deletion loop of `RotateBackups`: delete each path in order, and
abort with an error on the first failed removal (`return err`).  Returns the
filesystem, the list of attempted removals in order, and the error if
any. -/
def deleteBackups (removeOk : String → Bool) (fs : FS) :
    List String → FS × List String × Option String
  | [] => (fs, [], none)
  | p :: rest =>
    if removeOk p then
      let (fs2, att, e) := deleteBackups removeOk (fs.remove p) rest
      (fs2, p :: att, e)
    else (fs, [p], some ("failed to remove " ++ p))

/-- `RotateBackups` (backup.go): keep the `keep` most-recently-modified
archives matching `git-orphans-*.tar.gz` and delete the rest, aborting on
the first deletion error.  `removeOk` is the `os.Remove` success oracle. -/
def rotateBackups (removeOk : String → Bool) (dir : String) (keep : Nat)
    (fs : FS) : FS × List String × Option String :=
  let backups := globBackups dir fs
  if backups.length ≤ keep then (fs, [], none)
  else deleteBackups removeOk fs ((sortByMtimeDesc fs backups).drop keep)

/-! ## Reconciler (sync.go: `Sync` and helpers) -/

/-- `SyncResult` (sync.go). -/
structure SyncResult where
  orphansRemoved : List String
  created : List String
  updated : List String
  verified : List String
  failed : List (String × String)
  deriving DecidableEq, Repr

/-- `filepath.Join` with three components. -/
def join3 (a b c : String) : String :=
  cleanPath ⟨a.data ++ '/' :: b.data ++ '/' :: c.data⟩

/-- `filepath.Dir`. -/
def dirName (p : String) : String :=
  ⟨joinSlash (splitSlash p.data).dropLast⟩

/-- `SSHKeyExists` (identity.go): both expanded key files present. -/
def sshKeyExists (env : Env) (fs : FS) (i : Identity) : Bool :=
  fs.fileExists (expandPath env.home (sshKeyPathOf i)) &&
  fs.fileExists (expandPath env.home (sshPubKeyPathOf i))

/-- `GenerateSSHKey` (identity.go): remove any stale key files, ensure the
`.ssh` directory, then run `ssh-keygen -t ed25519 -C <comment> -N ""`.  The
oracle result contains the full private/public file contents `ssh-keygen`
writes (the public one carrying the `-C` comment).  Returns the new world
and whether generation succeeded. -/
def generateSSHKey (env : Env) (i : Identity) (w : World) : World × Bool :=
  let keyPath := expandPath env.home (sshKeyPathOf i)
  let pubKeyPath := expandPath env.home (sshPubKeyPathOf i)
  let fs := (w.fs.remove keyPath).remove pubKeyPath
  let fs := fs.mkdir (dirName keyPath)
  let log := w.log ++ [.fremove keyPath, .fremove pubKeyPath, .keygen i.name]
  match env.keygen i.name with
  | none => ({ w with fs := fs, log := log }, false)
  | some (priv, pub) =>
    ({ w with
        fs := (fs.write keyPath (.text priv) env.now).write pubKeyPath (.text pub) env.now
        log := log }, true)

/-- `CopyPublicKeyToHome` (identity.go): copy the public key to
`~/<name>_key.pub`, skipping the write when an identical copy exists. -/
def copyPublicKeyToHome (env : Env) (i : Identity) (w : World) : World :=
  let pubKeyPath := expandPath env.home (sshPubKeyPathOf i)
  let destPath := joinPath env.home (i.name ++ "_key.pub")
  match w.fs.read pubKeyPath with
  | none => w
  | some d =>
    match w.fs.read destPath with
    | some d2 =>
      if d2.bytes = d.bytes then w
      else { w with fs := w.fs.write destPath (.text d.bytes) env.now }
    | none => { w with fs := w.fs.write destPath (.text d.bytes) env.now }

/-- Modelled from the spec: `CreateIdentityGitConfig`'s source file is not
in the repository snapshot.  Spec §3 ("Managed Git Config File"): a
per-identity file containing `user.name`, `user.email`, and SSH-signing
directives pointing at the managed keypair, rewritten every sync as a pure
function of the identity. -/
def renderIdentityGitConfig (i : Identity) : String :=
  "[user]\n\tname = " ++ i.user ++ "\n\temail = " ++ i.email ++
  "\n\tsigningkey = " ++ sshPubKeyPathOf i ++ "\n[gpg]\n\tformat = ssh\n"

/-- Modelled from the spec (write step of the per-identity git config). -/
def createIdentityGitConfig (env : Env) (i : Identity) (w : World) : World :=
  { w with
      fs := w.fs.write (expandPath env.home (gitConfigPathOf i))
        (.text (renderIdentityGitConfig i)) env.now }

/-- ASCII apostrophe. -/
def apos : Char := Char.ofNat 39

/-- The success substrings of `TestSSHConnection` (identity.go). -/
def sshSuccessPatterns : List String :=
  ["successfully authenticated",
   "You" ++ ⟨[apos]⟩ ++ "ve successfully authenticated",
   "Hi ", "Welcome to "]

/-- `TestSSHConnection` (identity.go): substring classification of the
`ssh -T git@domain` output; a success pattern wins regardless of exit code,
`Permission denied` and nonzero exit are failures. -/
def testSSHConnection (env : Env) (i : Identity) : Bool :=
  let out := env.sshOut i.domain
  if sshSuccessPatterns.any (fun p => goContains out p) then true
  else if goContains out "Permission denied" then false
  else if !env.sshExitOk i.domain then false
  else true

/-- `getSSHKeyFingerprint` (sync.go): note the Go code stats the
*unexpanded* `~/…` path, so the lookup is performed verbatim on that
string. -/
def getSSHKeyFingerprint (fs : FS) (i : Identity) : String :=
  let keyPath := sshKeyPathOf i
  if !fs.fileExists keyPath then ""
  else
    match fs.read (keyPath ++ ".pub") with
    | some d => ⟨d.bytes.data.take 16⟩
    | none => ""

/-- `cases.Title(language.English)` for the single-word ASCII names the tool
manages: first character upper-cased, the rest lower-cased. -/
def titleCase (s : String) : String :=
  match s.data with
  | [] => s
  | c :: cs => ⟨c.toUpper :: cs.map Char.toLower⟩

/-- `cleanupIdentity` (sync.go): best-effort removal of the orphan's key
pair, home public-key copy, git config, and (only if empty) the title-cased
service folder; individual failures are ignored. -/
def cleanupIdentity (env : Env) (name : String) (w : World) : World :=
  let home := env.home
  let sshKeyPath := join3 home ".ssh" (name ++ "_key")
  let sshPubKeyPath := sshKeyPath ++ ".pub"
  let homePubKey := joinPath home (name ++ "_key.pub")
  let gitConfigPath := joinPath home (".gitconfig-" ++ name)
  let serviceFolder := joinPath home (titleCase name)
  let fs := (((w.fs.remove sshKeyPath).remove sshPubKeyPath).remove homePubKey).remove gitConfigPath
  let fs := if env.dirEmpty serviceFolder
    then { fs with dirs := fs.dirs.filter (fun d => !(d == serviceFolder)) }
    else fs
  let log := w.log ++ [Event.fremove sshKeyPath, Event.fremove sshPubKeyPath,
    Event.fremove homePubKey, Event.fremove gitConfigPath, Event.fremove serviceFolder]
  { w with fs := fs, log := log }

/-- The backup-candidate collection of `Sync` (sync.go lines 51-68): for
each orphan, its key pair and git config path, keeping those `os.Stat`
finds. -/
def collectBackupFiles (env : Env) (orphans : List String) (fs : FS) :
    List String :=
  orphans.foldl (fun acc orphan =>
    let keyPath := join3 env.home ".ssh" (orphan ++ "_key")
    let pubKeyPath := keyPath ++ ".pub"
    let configPath := joinPath env.home (".gitconfig-" ++ orphan)
    let acc := if fs.statOk keyPath then acc ++ [keyPath] else acc
    let acc := if fs.statOk pubKeyPath then acc ++ [pubKeyPath] else acc
    if fs.statOk configPath then acc ++ [configPath] else acc) []

/-- The orphan branch of `Sync` (sync.go lines 48-95): back up the existing
orphan files (rotating old archives on success), then remove each orphan's
artifacts and state entry.  Returns the world and the `OrphansRemoved`
list. -/
def orphanPhase (env : Env) (orphans : List String) (w : World) :
    World × List String :=
  if orphans = [] then (w, [])
  else
    let filesToBackup := collectBackupFiles env orphans w.fs
    let w :=
      if filesToBackup = [] then w
      else
        let (fs2, path, ok) := backupFiles env filesToBackup w.fs
        if ok then
          let w2 := { w with fs := fs2, log := w.log ++ [Event.backup path filesToBackup] }
          let (fs3, _, _) := rotateBackups (fun _ => true) (backupDirOf env.home) 10 w2.fs
          { w2 with fs := fs3 }
        else { w with fs := fs2 }
    orphans.foldl (fun acc o =>
      let w2 := cleanupIdentity env o acc.1
      let w2 := { w2 with state := eraseKey w2.state o }
      (w2, acc.2 ++ [o])) (w, [])

/-- Folder-creation step of the per-identity loop (warn-and-continue on
`MkdirAll` failure, modelled by the `mkdirOk` oracle). -/
def processFolders (env : Env) (i : Identity) (w : World) : World :=
  i.folders.foldl (fun w folder =>
    let expanded := expandPath env.home folder
    if env.mkdirOk expanded then { w with fs := w.fs.mkdir expanded } else w) w

/-- `testFromDir` selection (sync.go): the first configured folder that
exists on disk. -/
def firstExistingFolder (env : Env) (fs : FS) (i : Identity) : Option String :=
  (i.folders.map (expandPath env.home)).find? (fun d => fs.statOk d)

/-- The per-identity body of `Sync`'s main loop (sync.go lines 101-180):
ensure folders, ensure the keypair (hard-stop on generation failure),
publish the public-key copy for fresh keys, rewrite the per-identity git
config, register with the agent (external, no filesystem effect), and run
the connectivity test from the first existing folder. -/
def processIdentity (env : Env) (acc : World × SyncResult) (i : Identity) :
    World × SyncResult :=
  let w := processFolders env i acc.1
  let res := acc.2
  if sshKeyExists env w.fs i then
    let w := createIdentityGitConfig env i w
    let verified := match firstExistingFolder env w.fs i with
      | some _ => testSSHConnection env i
      | none => false
    (w, if verified then { res with verified := res.verified ++ [i.name] } else res)
  else
    let (w, ok) := generateSSHKey env i w
    if !ok then
      (w, { res with failed := res.failed ++ [(i.name, "failed to generate SSH key")] })
    else
      let res := { res with created := res.created ++ [i.name] }
      let w := copyPublicKeyToHome env i w
      let w := createIdentityGitConfig env i w
      let verified := match firstExistingFolder env w.fs i with
        | some _ => testSSHConnection env i
        | none => false
      (w, if verified then { res with verified := res.verified ++ [i.name] } else res)

/-- Modelled from the spec: `UpdateGlobalGitConfig`'s source is not in the
snapshot.  Spec §3/§4.6: one conditional-include directive per identity per
folder, pointing at the per-identity config; regenerated wholesale as a pure
function of the identity set. -/
def renderGlobalGitConfig (config : Config) : String :=
  config.identities.foldl (fun s e =>
    e.2.folders.foldl (fun s f =>
      s ++ "[includeIf \"gitdir:" ++ f ++ "/\"]\n\tpath = " ++
        gitConfigPathOf e.2 ++ "\n") s) ""

/-- Modelled from the spec: `UpdateSSHConfig`'s source is not in the
snapshot.  Spec §3: one host-alias block per identity mapping `domain` to
the managed private key path. -/
def renderSSHConfig (config : Config) : String :=
  config.identities.foldl (fun s e =>
    s ++ "Host " ++ e.2.domain ++ "\n\tIdentityFile " ++ sshKeyPathOf e.2 ++
      "\n\tUser git\n") ""

/-- Modelled from the spec: `UpdateAllowedSigners`'s source is not in the
snapshot.  Spec §3: one line per identity mapping `email` to the managed
public key. -/
def renderAllowedSigners (config : Config) : String :=
  config.identities.foldl (fun s e =>
    s ++ e.2.email ++ " " ++ sshPubKeyPathOf e.2 ++ "\n") ""

/-- The three wholesale global rewrites at the end of `Sync` (sync.go lines
182-197). -/
def globalPhase (env : Env) (config : Config) (w : World) : World :=
  let fs1 := w.fs.write (env.home ++ "/.gitconfig") (.text (renderGlobalGitConfig config)) env.now
  let fs2 := fs1.write (env.home ++ "/.ssh/config") (.text (renderSSHConfig config)) env.now
  let fs3 := fs2.write (env.home ++ "/.ssh/allowed_signers") (.text (renderAllowedSigners config)) env.now
  { w with fs := fs3 }

/-- The state-file update at the end of `Sync` (sync.go lines 199-212). -/
def statePhase (env : Env) (config : Config) (w : World) : World :=
  let st := config.identities.foldl (fun st e =>
    insertReplace st e.2.name ⟨env.now, getSSHKeyFingerprint w.fs e.2⟩) w.state
  { w with state := st, stateLast := env.now }

/-- `Sync` (sync.go): detect orphans, back up and remove them, reconcile
each configured identity, rewrite the global configs, and update the run
state.  The state file load and the global writes can only fail on OS-level
errors, which the analyzed runs exclude, so the modelled run always returns
a result. -/
def sync (env : Env) (config : Config) (w0 : World) : World × SyncResult :=
  let orphans := detectOrphans env.home config w0.fs
  let (w1, removed) := orphanPhase env orphans w0
  let res0 : SyncResult := ⟨removed, [], [], [], []⟩
  let (w2, res) := config.identities.foldl (fun acc e => processIdentity env acc e.2)
    (w1, res0)
  let w3 := globalPhase env config w2
  let w4 := statePhase env config w3
  (w4, res)

/-! ## Path disequality toolkit

Every path the reconciler touches lives under the home directory; under the
well-formedness hypotheses (home a `NicePath`, identity names plain) the
`filepath.Join`/`Clean` calls reduce to plain concatenations, and path
disequalities reduce to character comparisons after the shared home prefix. -/

/-- A plain identity-name character: letters, digits, `-`, `_`. -/
def plainChar (c : Char) : Bool := c.isAlphanum || c == '-' || c == '_'

/-- A plain identity name: nonempty and made of plain characters.  The names
the tool itself embeds in markers and paths have this shape. -/
def PlainName (n : String) : Prop :=
  n.data ≠ [] ∧ ∀ c ∈ n.data, plainChar c = true

instance : DecidablePred PlainName := fun n => by
  unfold PlainName; infer_instance

/-! ## C5: load validation is all-or-nothing -/

/-- The failure conditions enumerated by the spec for an identity record
(config.go / identity.go `Validate`): a missing `user`, `email`, `domain`,
or `folders`, a malformed email, or an empty folder string.  Validation does
not inspect the injected `name`, so the conditions are over the raw
record. -/
def RecordInvalid (rec0 : Identity) : Prop :=
  rec0.user = "" ∨ rec0.email = "" ∨ rec0.domain = "" ∨ rec0.folders = [] ∨
    ¬ emailMatch rec0.email = true ∨ "" ∈ rec0.folders

/-- Fixture: a record with an empty user (invalid). -/
def badRecord : Identity := ⟨"", "", "bad@example.com", "example.com", ["~/Bad"]⟩

/-- Fixture: a valid record. -/
def goodRecord : Identity := ⟨"", "Good User", "good@example.com", "example.com", ["~/Good"]⟩

/-- No `[zzk:` occurrence starts inside `pre`, also accounting for
occurrences straddling the end of `pre` (the next four characters suffice:
an occurrence cannot reach further while starting inside `pre`). -/
def NoMarkerIn (pre : List Char) : Prop :=
  containsSubList zzkPat (pre ++ zzkPat.take 4) = false

instance : DecidablePred NoMarkerIn := fun pre => by
  unfold NoMarkerIn; infer_instance

/-- Fixtures for the overlapping-folders scenario: both folder patterns are
prefix matches of the queried directory. -/
def idPersonal : Identity := ⟨"personal", "P", "p@example.com", "github.com", ["~/Work"]⟩

def idTeam : Identity := ⟨"team", "T", "t@example.com", "github.com", ["~/Work/Team"]⟩

def overlapConfig : Config := ⟨[("personal", idPersonal), ("team", idTeam)]⟩

/-- C6 counterexample.  With three archives (newest kept, two to delete) and
`os.Remove` failing on the first deletable archive, `RotateBackups` aborts:
the second deletable archive is never attempted and survives, refuting "a
failure to delete one old archive does not abort rotation of the others". -/
def rotBk (t : String) : String := "/h/.config/zzk/backups/git-orphans-" ++ t ++ ".tar.gz"

def rotFS : FS :=
  ⟨[(rotBk "1", ⟨.archive [], 1⟩), (rotBk "2", ⟨.archive [], 2⟩),
    (rotBk "3", ⟨.archive [], 3⟩)], []⟩

def rotOracle : String → Bool := fun p => !(p == rotBk "2")

/-- The archive path `BackupFiles` creates for this run. -/
def backupPathOf (env : Env) : String :=
  backupDirOf env.home ++ "/git-orphans-" ++ toString env.now ++ ".tar.gz"

/-- The five removal events `cleanupIdentity` logs for an orphan. -/
def cleanupEventsOf (env : Env) (name : String) : List Event :=
  [Event.fremove (join3 env.home ".ssh" (name ++ "_key")),
   Event.fremove (join3 env.home ".ssh" (name ++ "_key") ++ ".pub"),
   Event.fremove (joinPath env.home (name ++ "_key.pub")),
   Event.fremove (joinPath env.home (".gitconfig-" ++ name)),
   Event.fremove (joinPath env.home (titleCase name))]

/-- Fixture: identity `a` with one folder. -/
def idA : Identity := ⟨"a", "UserA", "a@ex.com", "github.com", ["~/Work"]⟩

def cfgA : Config := ⟨[("a", idA)]⟩

/-- Fixture: deterministic environment whose `ssh-keygen` embeds identity
`a`'s marker. -/
def envA : Env :=
  ⟨"/h", "/", 5, fun _ => some ("P", "ssh-ed25519 BBB a@ex.com [zzk:a]"),
    fun _ => true, fun _ => "Hi a!", fun _ => false, fun _ => true⟩

/-- Fixture: a world containing the artifacts of a removed identity
`old`. -/
def wOrphan : World :=
  ⟨⟨[("/h/.ssh/old_key.pub", ⟨.text "ssh-ed25519 AAA o@e.io [zzk:old]", 1⟩),
     ("/h/.ssh/old_key", ⟨.text "PRIV", 1⟩),
     ("/h/.gitconfig-old", ⟨.text "cfg", 1⟩)], []⟩,
   [("old", ⟨1, "f"⟩)], 1, []⟩

/-! ## Canonical managed paths

Under a well-formed home directory (`NicePath`) and plain identity names,
every `filepath.Join`/`Clean`/`ExpandPath` call in the reconciler reduces to
a plain concatenation.  The `...Rest` lists are the path tails after
`home ++ "/"`. -/

def locOf (home : String) (rest : List Char) : String := ⟨home.data ++ '/' :: rest⟩

def sshKeyRest (n : String) : List Char := ".ssh".data ++ '/' :: (n.data ++ "_key".data)

def sshPubRest (n : String) : List Char :=
  ".ssh".data ++ '/' :: (n.data ++ "_key.pub".data)

def homePubRest (n : String) : List Char := n.data ++ "_key.pub".data

def gitCfgRest (n : String) : List Char := ".gitconfig-".data ++ n.data

def sshKeyLoc (home n : String) : String := locOf home (sshKeyRest n)

def sshPubLoc (home n : String) : String := locOf home (sshPubRest n)

def homePubLoc (home n : String) : String := locOf home (homePubRest n)

def gitCfgLoc (home n : String) : String := locOf home (gitCfgRest n)

def globalGitRest : List Char := ".gitconfig".data

def sshCfgRest : List Char := ".ssh".data ++ '/' :: "config".data

def signersRest : List Char := ".ssh".data ++ '/' :: "allowed_signers".data

def archiveRest (ts : String) : List Char :=
  ".config/zzk/backups/git-orphans-".data ++ ts.data ++ ".tar.gz".data

/-! ### Frame lemmas for the sync phases -/

/-- The four file paths `cleanupIdentity` removes for a name. -/
def CleanupPath (home o q : String) : Prop :=
  q = sshKeyLoc home o ∨ q = sshPubLoc home o ∨ q = homePubLoc home o ∨
    q = gitCfgLoc home o

instance (home o q : String) : Decidable (CleanupPath home o q) := by
  unfold CleanupPath; infer_instance

instance : DecidablePred PlainComp := fun g => by
  unfold PlainComp
  infer_instance

/-- Fixture: a world already carrying identity `a`'s key pair. -/
def wKeys : World :=
  ⟨⟨[("/h/.ssh/a_key", ⟨.text "PRIV", 1⟩),
     ("/h/.ssh/a_key.pub", ⟨.text "ssh-ed25519 BBB a@ex.com [zzk:a]", 1⟩)], []⟩,
   [("a", ⟨1, "f"⟩)], 1, []⟩

/-- Fixture: a deterministic environment whose key generation always
fails. -/
def envNone : Env :=
  ⟨"/h", "/", 5, fun _ => none, fun _ => true, fun _ => "Hi a!", fun _ => false,
    fun _ => true⟩

/-- Fixture: an empty starting world. -/
def wEmpty : World := ⟨⟨[], []⟩, [], 0, []⟩

/-! ## Theorems -/

theorem stripPre_append (a b : List Char) : stripPre a (a ++ b) = some b := by
  induction a with
  | nil => rfl
  | cons c cs ih => simp [stripPre, ih]

theorem stripPre_some {a s b : List Char} (h : stripPre a s = some b) : s = a ++ b := by
  induction a generalizing s with
  | nil => simpa [stripPre, eq_comm] using h.symm
  | cons c cs ih =>
    cases s with
    | nil => simp [stripPre] at h
    | cons d ds =>
      by_cases hc : c = d
      · subst hc
        simp only [stripPre, if_pos rfl] at h
        simpa using ih h
      · simp [stripPre, hc] at h

theorem isPrefixOf_append_self (a b : List Char) : a.isPrefixOf (a ++ b) = true := by
  induction a with
  | nil => simp [List.isPrefixOf]
  | cons c cs ih => simp [List.isPrefixOf, ih]

theorem goHasSuffix_append (a b : String) : goHasSuffix ⟨a.data ++ b.data⟩ b = true := by
  simp [goHasSuffix, List.isSuffixOf_iff_suffix]

theorem goTrimSuffix_append (a b : String) : goTrimSuffix ⟨a.data ++ b.data⟩ b = a := by
  simp [goTrimSuffix, goHasSuffix_append, List.take_append]

theorem splitSlash_ne_nil (l : List Char) : splitSlash l ≠ [] := by
  cases l with
  | nil => simp [splitSlash]
  | cons c cs =>
    by_cases h : c = '/'
    · simp [splitSlash, h]
    · simp only [splitSlash, if_neg h]
      cases splitSlash cs <;> simp

theorem splitSlash_append (a b : List Char) :
    splitSlash (a ++ '/' :: b) = splitSlash a ++ splitSlash b := by
  induction a with
  | nil => simp [splitSlash]
  | cons c cs ih =>
    by_cases h : c = '/'
    · simp [splitSlash, h, ih]
    · simp only [List.cons_append, splitSlash, if_neg h]
      rcases hs : splitSlash cs with _ | ⟨g, gs⟩
      · exact absurd hs (splitSlash_ne_nil cs)
      · rw [show cs.append ('/' :: b) = cs ++ '/' :: b from rfl, ih, hs]
        rfl

theorem splitSlash_no_slash {l : List Char} (h : '/' ∉ l) : splitSlash l = [l] := by
  induction l with
  | nil => rfl
  | cons c cs ih =>
    simp only [List.mem_cons, not_or] at h
    have hc : ¬ c = '/' := fun hcc => h.1 hcc.symm
    simp [splitSlash, hc, ih h.2]

theorem joinSlash_splitSlash (l : List Char) : joinSlash (splitSlash l) = l := by
  induction l with
  | nil => rfl
  | cons c cs ih =>
    by_cases h : c = '/'
    · subst h
      simp only [splitSlash, if_pos rfl]
      rcases hs : splitSlash cs with _ | ⟨g, gs⟩
      · exact absurd hs (splitSlash_ne_nil cs)
      · rw [hs] at ih; simp [joinSlash, ih]
    · simp only [splitSlash, if_neg h]
      rcases hs : splitSlash cs with _ | ⟨g, gs⟩
      · exact absurd hs (splitSlash_ne_nil cs)
      · rw [hs] at ih
        cases gs with
        | nil => simp_all [joinSlash]
        | cons g2 gs2 => simp_all [joinSlash]

theorem cleanStep_plain (rooted : Bool) (acc : List (List Char)) {g : List Char}
    (hg : PlainComp g) : cleanStep rooted acc g = g :: acc := by
  obtain ⟨h1, h2, h3, _⟩ := hg
  simp [cleanStep, h1, h2, h3]

theorem foldl_cleanStep_plain (rooted : Bool) (gs : List (List Char))
    (h : ∀ g ∈ gs, PlainComp g) (acc : List (List Char)) :
    gs.foldl (cleanStep rooted) acc = gs.reverse ++ acc := by
  induction gs generalizing acc with
  | nil => rfl
  | cons g gs ih =>
    have hg : PlainComp g := h g (by simp)
    rw [List.foldl_cons, cleanStep_plain rooted acc hg,
      ih (fun x hx => h x (by simp [hx]))]
    simp

theorem cleanPath_rooted (rest : List Char)
    (hcomps : ∀ g ∈ splitSlash rest, PlainComp g) :
    cleanPath ⟨'/' :: rest⟩ = ⟨'/' :: rest⟩ := by
  have h1 : splitSlash ('/' :: rest) = [] :: splitSlash rest := by simp [splitSlash]
  show (⟨'/' :: joinSlash ((splitSlash ('/' :: rest)).foldl (cleanStep true)
    []).reverse⟩ : String) = _
  rw [h1, List.foldl_cons, show cleanStep true [] [] = [] from rfl,
    foldl_cleanStep_plain true _ hcomps []]
  simp only [List.append_nil, List.reverse_reverse]
  rw [joinSlash_splitSlash]

theorem strMk_inj {a b : List Char} : (⟨a⟩ : String) = ⟨b⟩ ↔ a = b := by
  constructor
  · intro h; cases h; rfl
  · intro h; rw [h]

theorem cleanPath_nice {p : String} (h : NicePath p) : cleanPath p = p := by
  obtain ⟨rest, hdata, hcomps⟩ := h
  have hp : p = ⟨'/' :: rest⟩ := by
    cases p with
    | mk d => exact congrArg String.mk hdata
  rw [hp]
  exact cleanPath_rooted rest hcomps

/-! ## Association list and filesystem lemmas -/

theorem find?_filter_ne {α : Type} (l : List (String × α)) (p q : String)
    (h : ¬ q = p) :
    (l.filter (fun e => !(e.1 == p))).find? (fun e => e.1 == q) =
      l.find? (fun e => e.1 == q) := by
  induction l with
  | nil => rfl
  | cons e rest ih =>
    by_cases hp : e.1 = p
    · have h1 : (e.1 == p) = true := beq_iff_eq.mpr hp
      have h2 : (e.1 == q) = false := by
        rw [beq_eq_false_iff_ne]; exact fun hq => h (hq.symm.trans hp)
      simp [List.filter_cons, h1, List.find?_cons, h2, ih]
    · have h1 : (e.1 == p) = false := by rw [beq_eq_false_iff_ne]; exact hp
      by_cases hq : e.1 = q
      · have h2 : (e.1 == q) = true := beq_iff_eq.mpr hq
        simp [List.filter_cons, h1, List.find?_cons, h2]
      · have h2 : (e.1 == q) = false := by rw [beq_eq_false_iff_ne]; exact hq
        simp [List.filter_cons, h1, List.find?_cons, h2, ih]

theorem find?_filter_self {α : Type} (l : List (String × α)) (p : String) :
    (l.filter (fun e => !(e.1 == p))).find? (fun e => e.1 == p) = none := by
  induction l with
  | nil => rfl
  | cons e rest ih =>
    by_cases hp : e.1 = p
    · have h1 : (e.1 == p) = true := beq_iff_eq.mpr hp
      simp [List.filter_cons, h1, ih]
    · have h1 : (e.1 == p) = false := by rw [beq_eq_false_iff_ne]; exact hp
      simp [List.filter_cons, h1, List.find?_cons, ih]

theorem FS.lookup_write (fs : FS) (p : String) (d : FileData) (t : Nat) (q : String) :
    (fs.write p d t).lookup q = if q = p then some ⟨d, t⟩ else fs.lookup q := by
  by_cases h : q = p
  · subst h
    simp [FS.write, FS.lookup, List.find?_cons]
  · have hb : (p == q) = false := by rw [beq_eq_false_iff_ne]; exact fun hpq => h hpq.symm
    simp [FS.write, FS.lookup, List.find?_cons, hb, find?_filter_ne _ _ _ h, h]

theorem FS.lookup_remove (fs : FS) (p q : String) :
    (fs.remove p).lookup q = if q = p then none else fs.lookup q := by
  by_cases h : q = p
  · subst h
    simp [FS.remove, FS.lookup, find?_filter_self]
  · simp [FS.remove, FS.lookup, find?_filter_ne _ _ _ h, h]

theorem FS.lookup_mkdir (fs : FS) (p q : String) :
    (fs.mkdir p).lookup q = fs.lookup q := by
  simp only [FS.mkdir]
  split <;> rfl

theorem FS.read_write (fs : FS) (p : String) (d : FileData) (t : Nat) (q : String) :
    (fs.write p d t).read q = if q = p then some d else fs.read q := by
  simp [FS.read, FS.lookup_write]
  split <;> rfl

theorem FS.read_remove (fs : FS) (p q : String) :
    (fs.remove p).read q = if q = p then none else fs.read q := by
  simp [FS.read, FS.lookup_remove]
  split <;> rfl

theorem FS.fileExists_write (fs : FS) (p : String) (d : FileData) (t : Nat) (q : String) :
    (fs.write p d t).fileExists q = if q = p then true else fs.fileExists q := by
  rw [FS.fileExists, FS.lookup_write]
  by_cases h : q = p <;> simp [h, FS.fileExists]

theorem FS.fileExists_remove (fs : FS) (p q : String) :
    (fs.remove p).fileExists q = if q = p then false else fs.fileExists q := by
  rw [FS.fileExists, FS.lookup_remove]
  by_cases h : q = p <;> simp [h, FS.fileExists]

theorem lookupKey_insertReplace {α : Type} (l : List (String × α)) (k : String)
    (v : α) (q : String) :
    lookupKey (insertReplace l k v) q = if q = k then some v else lookupKey l q := by
  induction l with
  | nil =>
    by_cases h : q = k
    · subst h; simp [insertReplace, lookupKey, List.find?_cons]
    · have hb : (k == q) = false := by rw [beq_eq_false_iff_ne]; exact fun hkq => h hkq.symm
      simp [insertReplace, lookupKey, List.find?_cons, hb, h]
  | cons e rest ih =>
    by_cases he : e.1 = k
    · by_cases h : q = k
      · subst h
        have hb : (e.1 == q) = true := beq_iff_eq.mpr he
        simp [insertReplace, he, lookupKey, List.find?_cons, hb]
      · have hb : (e.1 == q) = false := by
          rw [beq_eq_false_iff_ne]; exact fun hq => h (hq ▸ he)
        have hkq : (k == q) = false := by
          rw [beq_eq_false_iff_ne]; exact fun hk => h hk.symm
        simp [insertReplace, he, lookupKey, List.find?_cons, hb, h, hkq]
    · by_cases hq : e.1 = q
      · have hb : (e.1 == q) = true := beq_iff_eq.mpr hq
        have h : ¬ q = k := fun hqk => he (hq ▸ hqk)
        simp [insertReplace, he, lookupKey, List.find?_cons, hb, h]
      · have hb : (e.1 == q) = false := by rw [beq_eq_false_iff_ne]; exact hq
        simp only [insertReplace, if_neg he]
        simp [lookupKey, List.find?_cons, hb] at ih ⊢
        exact ih

theorem lookupKey_eraseKey {α : Type} (l : List (String × α)) (k q : String) :
    lookupKey (eraseKey l k) q = if q = k then none else lookupKey l q := by
  by_cases h : q = k
  · subst h; simp [eraseKey, lookupKey, find?_filter_self]
  · simp [eraseKey, lookupKey, find?_filter_ne _ _ _ h, h]

theorem dataEq_ext {s t : String} (h : s.data = t.data) : s = t := String.ext h

theorem locEq (home : String) (r1 r2 : List Char) :
    (⟨home.data ++ r1⟩ : String) = ⟨home.data ++ r2⟩ ↔ r1 = r2 := by
  rw [strMk_inj]
  exact ⟨fun h => List.append_cancel_left h, fun h => h ▸ rfl⟩

theorem ne_of_getElem? {r1 r2 : List Char} (i : Nat) (h : r1[i]? ≠ r2[i]?) :
    r1 ≠ r2 := fun he => h (he ▸ rfl)

theorem ne_of_getLast? {r1 r2 : List Char} (h : r1.getLast? ≠ r2.getLast?) :
    r1 ≠ r2 := fun he => h (he ▸ rfl)

theorem getLast?_append_lit (a : List Char) (c : Char) (b : List Char) :
    (a ++ (b ++ [c])).getLast? = some c := by
  rw [List.getLast?_append, List.getLast?_append]
  simp

theorem plainChar_ne_dot {c : Char} (h : plainChar c = true) : c ≠ '.' := by
  intro he; subst he
  exact absurd h (by decide)

theorem plainChar_ne_slash {c : Char} (h : plainChar c = true) : c ≠ '/' := by
  intro he; subst he
  exact absurd h (by decide)

theorem plainName_no_slash {n : String} (h : PlainName n) : '/' ∉ n.data := by
  intro hc
  exact plainChar_ne_slash (h.2 _ hc) rfl

theorem plainName_head {n : String} (h : PlainName n) :
    ∃ c rest, n.data = c :: rest ∧ plainChar c = true := by
  rcases hn : n.data with _ | ⟨c, rest⟩
  · exact absurd hn h.1
  · exact ⟨c, rest, rfl, h.2 c (hn ▸ List.mem_cons_self c rest)⟩

theorem validate_eq_none_iff (i : Identity) :
    validate i = none ↔ ¬ RecordInvalid i := by
  unfold validate RecordInvalid
  split_ifs with h1 h2 h3 h4 h5 h6 <;> simp_all

theorem validate_name_irrelevant (rec0 : Identity) (name : String) :
    validate { rec0 with name := name } = none ↔ ¬ RecordInvalid rec0 := by
  rw [validate_eq_none_iff]
  unfold RecordInvalid
  simp

/-- C5.  Load validation is all-or-nothing: a collection containing a record
that misses `user`, `email`, `domain`, or `folders`, has a malformed email,
or an empty folder string makes `loadConfigFrom` fail with an error naming
an offending identity (the model being a pure function of the decoded
document, the failing load performs no write — the Go code only executes
`os.ReadFile` before returning); a collection in which every record passes
validation loads completely, with each record's `name` set to its map
key. -/
theorem loadConfig_all_or_nothing (entries : List (String × Identity)) :
    ((∃ e ∈ entries, RecordInvalid e.2) →
      ∃ name rec0 msg, (name, rec0) ∈ entries ∧ RecordInvalid rec0 ∧
        loadConfigFrom entries = .error ("invalid identity " ++ name ++ ": " ++ msg)) ∧
    ((∀ e ∈ entries, ¬ RecordInvalid e.2) →
      loadConfigFrom entries =
        .ok (entries.map (fun e => (e.1, { e.2 with name := e.1 })))) := by
  induction entries with
  | nil =>
    refine ⟨fun h => ?_, fun _ => rfl⟩
    simp at h
  | cons e rest ih =>
    constructor
    · intro hex
      by_cases hinv : RecordInvalid e.2
      · have hv : validate { e.2 with name := e.1 } ≠ none := by
          rw [Ne, validate_name_irrelevant]; simpa using hinv
        obtain ⟨msg, hmsg⟩ := Option.ne_none_iff_exists'.mp hv
        refine ⟨e.1, e.2, msg, by simp, hinv, ?_⟩
        simp only [loadConfigFrom]
        rw [hmsg]
      · have hv : validate { e.2 with name := e.1 } = none :=
          (validate_name_irrelevant e.2 e.1).mpr hinv
        have hex2 : ∃ x ∈ rest, RecordInvalid x.2 := by
          rcases hex with ⟨x, hx, hxinv⟩
          rcases List.mem_cons.mp hx with hx | hx
          · exact absurd (hx ▸ hxinv) hinv
          · exact ⟨x, hx, hxinv⟩
        obtain ⟨name, rec0, msg, hmem, hrinv, herr⟩ := ih.1 hex2
        refine ⟨name, rec0, msg, by simp [hmem], hrinv, ?_⟩
        simp only [loadConfigFrom]
        rw [hv, herr]
    · intro hall
      have hv : validate { e.2 with name := e.1 } = none :=
        (validate_name_irrelevant e.2 e.1).mpr (hall e (by simp))
      have hok := ih.2 (fun x hx => hall x (by simp [hx]))
      simp only [loadConfigFrom]
      rw [hv, hok]
      simp

theorem loadConfig_all_or_nothing_witness :
    (∃ name rec0 msg, (name, rec0) ∈ [("good", goodRecord), ("bad", badRecord)] ∧
      RecordInvalid rec0 ∧
      loadConfigFrom [("good", goodRecord), ("bad", badRecord)] =
        .error ("invalid identity " ++ name ++ ": " ++ msg)) ∧
    loadConfigFrom [("good", goodRecord)] =
      .ok [("good", { goodRecord with name := "good" })] := by
  constructor
  · exact (loadConfig_all_or_nothing _).1 ⟨("bad", badRecord), by decide, by
      unfold RecordInvalid badRecord; left; rfl⟩
  · exact (loadConfig_all_or_nothing _).2 (by
      intro e he
      rcases List.mem_singleton.mp he with rfl
      unfold RecordInvalid goodRecord
      simp; decide)

/-! ## C8: ownership-marker round trip -/

theorem containsSubList_of_prefix {p l : List Char} (h : p.isPrefixOf l = true) :
    containsSubList p l = true := by
  cases l with
  | nil => simpa [containsSubList] using h
  | cons c cs => simp [containsSubList, h]

theorem containsSubList_append_marker (a b : List Char) (p : List Char) :
    containsSubList p (a ++ p ++ b) = true := by
  induction a with
  | nil => exact containsSubList_of_prefix (by simpa using isPrefixOf_append_self p b)
  | cons c cs ih =>
    show (p.isPrefixOf (c :: (cs ++ p ++ b)) || containsSubList p (cs ++ p ++ b)) = true
    rw [ih, Bool.or_true]

theorem prefix_of_append_of_le {p A B : List Char} (h : p.isPrefixOf (A ++ B) = true)
    (hl : p.length ≤ A.length) : p.isPrefixOf A = true := by
  rw [List.isPrefixOf_iff_prefix] at h ⊢
  exact List.prefix_of_prefix_length_le h (A.prefix_append B) hl

theorem takeToBracket_closed (name suf : List Char) (h : ']' ∉ name) :
    takeToBracket (name ++ ']' :: suf) = some name := by
  induction name with
  | nil => simp [takeToBracket]
  | cons c cs ih =>
    simp only [List.mem_cons, not_or] at h
    have hc : ¬ c = ']' := fun hcc => h.1 hcc.symm
    simp [takeToBracket, hc, ih h.2]

theorem findMarker_head (name suf : List Char) (hname : name ≠ [])
    (hnb : ']' ∉ name) :
    findMarker (zzkPat ++ name ++ ']' :: suf) = some name := by
  have hpre : zzkPat.isPrefixOf (zzkPat ++ (name ++ ']' :: suf)) = true :=
    isPrefixOf_append_self zzkPat (name ++ ']' :: suf)
  show findMarker ('[' :: 'z' :: 'z' :: 'k' :: ':' :: (name ++ ']' :: suf)) = some name
  rw [findMarker]
  have : ('[' :: 'z' :: 'z' :: 'k' :: ':' :: (name ++ ']' :: suf)) =
      zzkPat ++ (name ++ ']' :: suf) := rfl
  rw [if_pos (by rw [this]; exact hpre)]
  have hdrop : (('[' :: 'z' :: 'z' :: 'k' :: ':' :: (name ++ ']' :: suf)).drop 5) =
      name ++ ']' :: suf := rfl
  rw [hdrop, takeToBracket_closed name suf hnb]
  simp [hname]

theorem findMarker_after (pre name suf : List Char) (hname : name ≠ [])
    (hnb : ']' ∉ name) (hno : NoMarkerIn pre) :
    findMarker (pre ++ zzkPat ++ name ++ ']' :: suf) = some name := by
  induction pre with
  | nil => simpa using findMarker_head name suf hname hnb
  | cons c cs ih =>
    unfold NoMarkerIn at hno ih
    have hno2 : (zzkPat.isPrefixOf (c :: (cs ++ zzkPat.take 4)) ||
        containsSubList zzkPat (cs ++ zzkPat.take 4)) = false := hno
    rw [Bool.or_eq_false_iff] at hno2
    have hnopre : ¬ zzkPat.isPrefixOf (c :: (cs ++ zzkPat ++ name ++ ']' :: suf)) = true := by
      intro habs
      have hsplit : c :: (cs ++ zzkPat ++ name ++ ']' :: suf) =
          (c :: (cs ++ zzkPat.take 4)) ++ (zzkPat.drop 4 ++ name ++ ']' :: suf) := by
        simp [zzkPat, List.append_assoc]
      rw [hsplit] at habs
      have hlen : zzkPat.length ≤ (c :: (cs ++ zzkPat.take 4)).length := by
        simp [zzkPat]
      have hcont := containsSubList_of_prefix (prefix_of_append_of_le habs hlen)
      have hcont2 : (zzkPat.isPrefixOf (c :: (cs ++ zzkPat.take 4)) ||
          containsSubList zzkPat (cs ++ zzkPat.take 4)) = true := hcont
      rcases Bool.or_eq_true_iff.mp hcont2 with h | h
      · exact Bool.false_ne_true (hno2.1.symm.trans h)
      · exact Bool.false_ne_true (hno2.2.symm.trans h)
    have hstep : findMarker (c :: (cs ++ zzkPat ++ name ++ ']' :: suf)) =
        findMarker (cs ++ zzkPat ++ name ++ ']' :: suf) := by
      rw [findMarker, if_neg hnopre]
    have hgoal : findMarker ((c :: cs) ++ zzkPat ++ name ++ ']' :: suf) =
        findMarker (c :: (cs ++ zzkPat ++ name ++ ']' :: suf)) := rfl
    rw [hgoal, hstep]
    exact ih hno2.2

theorem sshKeyComment_data (i : Identity) :
    (sshKeyComment i).data = (i.email.data ++ [' ']) ++ zzkPat ++ i.name.data ++ [']'] := by
  simp [sshKeyComment, String.data_append, zzkPat, List.append_assoc]

/-- C8 counterexample.  The claim quantifies over *any* public-key text
containing the identity's comment; the regexp takes the leftmost marker, so
a text with an earlier foreign marker is recognized but yields the other
name.  Here the text contains the full comment of identity `b`
(`"u@v.wx [zzk:b]"`) yet parsing recovers `"a"`. -/
theorem marker_roundtrip_counterexample :
    goContains "[zzk:a] u@v.wx [zzk:b]"
        (sshKeyComment ⟨"b", "", "u@v.wx", "", []⟩) = true ∧
    isZZKManagedContent "[zzk:a] u@v.wx [zzk:b]" = (true, "a") ∧
    ("a" : String) ≠ "b" := by
  refine ⟨by decide, by decide, by decide⟩

/-- C8 (amended).  For an identity with a non-empty, `]`-free name, any
text that embeds the comment produced by `SSHKeyComment` *whose marker is
the leftmost `[zzk:` occurrence* (no occurrence starts before it — in
particular none inside the email) parses as managed with exactly that
identity's name; and text containing no `[zzk:` is never recognized as
managed. -/
theorem marker_roundtrip_amended :
    (∀ (i : Identity) (pre suf : String), i.name.data ≠ [] → ']' ∉ i.name.data →
      NoMarkerIn (pre.data ++ i.email.data ++ [' ']) →
      isZZKManagedContent (pre ++ sshKeyComment i ++ suf) = (true, i.name)) ∧
    (∀ text : String, goContains text "[zzk:" = false →
      isZZKManagedContent text = (false, "")) := by
  constructor
  · intro i pre suf hname hnb hno
    have hdata : (pre ++ sshKeyComment i ++ suf).data =
        (pre.data ++ i.email.data ++ [' ']) ++ zzkPat ++ i.name.data ++ ']' :: suf.data := by
      rw [String.data_append, String.data_append, sshKeyComment_data]
      simp [List.append_assoc]
    have hfind : findMarker (pre ++ sshKeyComment i ++ suf).data = some i.name.data := by
      rw [hdata]
      exact findMarker_after _ _ _ hname hnb (by simpa [List.append_assoc] using hno)
    have hcont : goContains (pre ++ sshKeyComment i ++ suf) "[zzk:" = true := by
      unfold goContains
      rw [hdata]
      have : (pre.data ++ i.email.data ++ [' ']) ++ zzkPat ++ i.name.data ++ ']' :: suf.data =
          (pre.data ++ i.email.data ++ [' ']) ++ zzkPat ++ (i.name.data ++ ']' :: suf.data) := by
        simp [List.append_assoc]
      rw [this]
      exact containsSubList_append_marker _ _ _
    unfold isZZKManagedContent
    rw [hcont, hfind]
    rfl
  · intro text hno
    unfold isZZKManagedContent
    rw [hno]
    rfl

theorem marker_roundtrip_amended_witness :
    isZZKManagedContent ("ssh-ed25519 AAAC3 " ++
        sshKeyComment ⟨"work", "W", "w@example.com", "github.com", []⟩ ++ "\n") =
      (true, "work") ∧
    isZZKManagedContent "ssh-ed25519 AAAC3 nobody@example.com" = (false, "") := by
  constructor
  · exact marker_roundtrip_amended.1 ⟨"work", "W", "w@example.com", "github.com", []⟩
      "ssh-ed25519 AAAC3 " "\n" (by decide) (by decide) (by decide)
  · exact marker_roundtrip_amended.2 _ (by decide)

/-! ## C9, C10: identity detection for a directory -/

theorem goHasPrefix_append_self (x s : String) : goHasPrefix (x ++ s) x = true := by
  unfold goHasPrefix
  rw [String.data_append]
  exact isPrefixOf_append_self x.data s.data

theorem find?_of_getElem {α : Type} (l : List α) (f : α → Bool) (k : Nat) (x : α)
    (hk : l[k]? = some x) (hx : f x = true)
    (hprev : ∀ j y, j < k → l[j]? = some y → f y = false) :
    l.find? f = some x := by
  induction l generalizing k with
  | nil => simp at hk
  | cons a rest ih =>
    cases k with
    | zero =>
      simp at hk
      subst hk
      simp [List.find?_cons, hx]
    | succ k =>
      have ha : f a = false := hprev 0 a (Nat.succ_pos k) (by simp)
      simp only [List.find?_cons, ha]
      exact ih k (by simpa using hk) (fun j y hj hy =>
        hprev (j + 1) y (Nat.succ_lt_succ hj) (by simpa using hy))

/-- C9.  The "where" query returns the first identity in iteration order (Go
map iteration, modelled as the declaration order of the association list)
with a folder pattern that is a prefix match of the queried directory, even
when several identities' patterns match; when no identity's folder pattern
matches it returns an error. -/
theorem detectIdentity_first_match (home cwd dir : String) :
    (∀ (config : Config) (k : Nat) (e : String × Identity),
      config.identities[k]? = some e →
      e.2.folders.any (folderMatches home cwd (absPath cwd dir)) = true →
      (∀ j ej, j < k → config.identities[j]? = some ej →
        ej.2.folders.any (folderMatches home cwd (absPath cwd dir)) = false) →
      detectIdentity home cwd config dir = .ok e.2) ∧
    (∀ config : Config,
      (∀ e ∈ config.identities,
        e.2.folders.any (folderMatches home cwd (absPath cwd dir)) = false) →
      detectIdentity home cwd config dir =
        .error ("no identity found for directory: " ++ dir)) := by
  constructor
  · intro config k e hk hx hprev
    have hfind := find?_of_getElem config.identities
      (fun e => e.2.folders.any (folderMatches home cwd (absPath cwd dir))) k e hk hx hprev
    simp only [detectIdentity]
    rw [hfind]
  · intro config hall
    have hfind : config.identities.find?
        (fun e => e.2.folders.any (folderMatches home cwd (absPath cwd dir))) = none :=
      List.find?_eq_none.mpr (fun e he => by simp [hall e he])
    simp only [detectIdentity]
    rw [hfind]

theorem detectIdentity_first_match_witness :
    detectIdentity "/h" "/" overlapConfig "/h/Work/Team" = .ok idPersonal ∧
    detectIdentity "/h" "/" (⟨[]⟩ : Config) "/elsewhere" =
      .error ("no identity found for directory: " ++ "/elsewhere") := by
  constructor
  · exact (detectIdentity_first_match "/h" "/" "/h/Work/Team").1 overlapConfig 0
      ("personal", idPersonal) (by decide) (by decide)
      (fun j ej hj hje => absurd (hj.trans_le (Nat.zero_le j)) (lt_irrefl j))
  · exact (detectIdentity_first_match "/h" "/" "/elsewhere").2 ⟨[]⟩ (by simp)

/-- C10.  Folder matching is a character-wise string prefix test on cleaned
absolute paths, not a path-component test: whenever the cleaned absolute
directory extends the cleaned absolute folder as a plain string (no path
separator required at the boundary, e.g. folder `~/Work` and directory
`~/Workspace`), `DetectIdentity` classifies the directory as governed by
that identity and `MatchingFolder` returns that folder pattern. -/
theorem folder_match_charwise (home cwd n : String) (i : Identity) (F D s : String)
    (hf : i.folders = [F])
    (hext : absPath cwd D = absPath cwd (expandPath home F) ++ s) :
    detectIdentity home cwd ⟨[(n, i)]⟩ D = .ok i ∧
    matchingFolder home cwd i D = F := by
  have hm : folderMatches home cwd (absPath cwd D) F = true := by
    unfold folderMatches
    rw [hext]
    exact goHasPrefix_append_self _ _
  have hany : i.folders.any (folderMatches home cwd (absPath cwd D)) = true := by
    rw [hf]
    simp [hm]
  constructor
  · have hfind : List.find? (fun e : String × Identity =>
        e.2.folders.any (folderMatches home cwd (absPath cwd D))) [(n, i)] = some (n, i) := by
      simp [List.find?_cons, hany]
    simp only [detectIdentity]
    rw [hfind]
  · have hfind : i.folders.find? (folderMatches home cwd (absPath cwd D)) = some F := by
      rw [hf]
      simp [List.find?_cons, hm]
    simp only [matchingFolder]
    rw [hfind]

theorem folder_match_charwise_witness :
    detectIdentity "/h" "/" ⟨[("personal", idPersonal)]⟩ "/h/Workspace" = .ok idPersonal ∧
    matchingFolder "/h" "/" idPersonal "/h/Workspace" = "~/Work" := by
  exact folder_match_charwise "/h" "/" "personal" idPersonal "~/Work" "/h/Workspace"
    "space" (by decide) (by decide)

/-! ## C3: orphan detection is a set difference -/

theorem mem_keys_insertReplace {β : Type} (l : List (String × β)) (k : String)
    (v : β) (m : String) :
    m ∈ (insertReplace l k v).map Prod.fst ↔ m = k ∨ m ∈ l.map Prod.fst := by
  induction l with
  | nil => simp [insertReplace]
  | cons e rest ih =>
    by_cases he : e.1 = k
    · subst he
      simp [insertReplace]
    · simp [insertReplace, he, ih]
      tauto

theorem nodup_keys_insertReplace {β : Type} (l : List (String × β)) (k : String)
    (v : β) (h : (l.map Prod.fst).Nodup) :
    ((insertReplace l k v).map Prod.fst).Nodup := by
  induction l with
  | nil => simp [insertReplace]
  | cons e rest ih =>
    simp only [List.map_cons, List.nodup_cons] at h
    by_cases he : e.1 = k
    · subst he
      simpa [insertReplace] using h
    · simp only [insertReplace, if_neg he, List.map_cons, List.nodup_cons]
      refine ⟨fun hmem => ?_, ih h.2⟩
      rcases (mem_keys_insertReplace rest k v e.1).mp hmem with h1 | h1
      · exact he h1
      · exact h.1 h1

theorem findZZKManagedKeys_keys_nodup (home : String) (fs : FS) :
    ((findZZKManagedKeys home fs).map Prod.fst).Nodup := by
  simp only [findZZKManagedKeys]
  have main : ∀ (bases : List String) (acc : List (String × String)),
      (acc.map Prod.fst).Nodup →
      ((bases.foldl (fun acc base =>
        match isZZKManagedKey fs (home ++ "/.ssh" ++ "/" ++ base) with
        | (true, identityName) =>
          insertReplace acc identityName
            (goTrimSuffix (home ++ "/.ssh" ++ "/" ++ base) ".pub")
        | (false, _) => acc) acc).map Prod.fst).Nodup := by
    intro bases
    induction bases with
    | nil => exact fun acc h => h
    | cons b bs ih =>
      intro acc h
      simp only [List.foldl_cons]
      rcases hk : isZZKManagedKey fs (home ++ "/.ssh" ++ "/" ++ b) with ⟨tf, nm⟩
      cases tf
      · exact ih acc h
      · exact ih _ (nodup_keys_insertReplace acc nm _ h)
  exact main _ [] List.nodup_nil

theorem findZZKManagedGitConfigs_keys_nodup (home : String) (fs : FS) :
    ((findZZKManagedGitConfigs home fs).map Prod.fst).Nodup := by
  simp only [findZZKManagedGitConfigs]
  have main : ∀ (bases : List String) (acc : List (String × String)),
      (acc.map Prod.fst).Nodup →
      ((bases.foldl (fun acc base =>
        match stripPre ".gitconfig-".data base.data with
        | some nm => insertReplace acc ⟨nm⟩ (home ++ "/" ++ base)
        | none => acc) acc).map Prod.fst).Nodup := by
    intro bases
    induction bases with
    | nil => exact fun acc h => h
    | cons b bs ih =>
      intro acc h
      simp only [List.foldl_cons]
      rcases hk : stripPre ".gitconfig-".data b.data with _ | nm
      · exact ih acc h
      · exact ih _ (nodup_keys_insertReplace acc _ _ h)
  exact main _ [] List.nodup_nil

theorem orphanLoop1_eq (config : Config) (l : List (String × String))
    (acc : List String) :
    l.foldl (fun acc e => if config.hasIdentity e.1 then acc else acc ++ [e.1]) acc =
      acc ++ (l.map Prod.fst).filter (fun n => !config.hasIdentity n) := by
  induction l generalizing acc with
  | nil => simp
  | cons e rest ih =>
    by_cases h : config.hasIdentity e.1
    · simp [List.foldl_cons, h, ih]
    · simp only [List.foldl_cons, if_neg h, ih]
      simp [List.filter_cons, h]

theorem orphanLoop2_mem (config : Config) (l : List (String × String))
    (acc : List String) (n : String) :
    n ∈ l.foldl (fun acc e => if config.hasIdentity e.1 then acc
      else if acc.contains e.1 then acc else acc ++ [e.1]) acc ↔
    n ∈ acc ∨ (n ∈ l.map Prod.fst ∧ config.hasIdentity n = false) := by
  induction l generalizing acc with
  | nil => simp
  | cons e rest ih =>
    simp only [List.foldl_cons]
    by_cases h : config.hasIdentity e.1
    · rw [if_pos h, ih]
      by_cases he : n = e.1
      · subst he; simp [h]
      · simp [he]
    · rw [if_neg h]
      by_cases hc : acc.contains e.1
      · rw [if_pos hc, ih]
        have hmem : e.1 ∈ acc := by simpa using hc
        by_cases he : n = e.1
        · subst he; simp [h, hmem]
        · simp [he]
      · rw [if_neg hc, ih]
        by_cases he : n = e.1
        · subst he; simp [h]
        · simp [he]

theorem orphanLoop2_nodup (config : Config) (l : List (String × String))
    (acc : List String) (h : acc.Nodup) :
    (l.foldl (fun acc e => if config.hasIdentity e.1 then acc
      else if acc.contains e.1 then acc else acc ++ [e.1]) acc).Nodup := by
  induction l generalizing acc with
  | nil => exact h
  | cons e rest ih =>
    simp only [List.foldl_cons]
    by_cases hh : config.hasIdentity e.1
    · rw [if_pos hh]; exact ih acc h
    · rw [if_neg hh]
      by_cases hc : acc.contains e.1
      · rw [if_pos hc]; exact ih acc h
      · rw [if_neg hc]
        have hnm : e.1 ∉ acc := by simpa using hc
        refine ih _ ?_
        rw [List.nodup_append]
        exact ⟨h, List.nodup_singleton _, by
          intro a ha hae
          exact hnm ((List.mem_singleton.mp hae) ▸ ha)⟩

/-- C3.  `detectOrphans` is a set difference: a name is listed exactly when
it appears in the managed-keys scan or the managed-git-configs scan and is
not a key of the configuration's identity mapping; the result has no
duplicates, and in particular no configured name is ever listed. -/
theorem detectOrphans_set_difference (home : String) (config : Config) (fs : FS) :
    (∀ n, n ∈ detectOrphans home config fs ↔
      ((n ∈ (findZZKManagedKeys home fs).map Prod.fst ∨
        n ∈ (findZZKManagedGitConfigs home fs).map Prod.fst) ∧
       config.hasIdentity n = false)) ∧
    (detectOrphans home config fs).Nodup := by
  simp only [detectOrphans]
  rw [orphanLoop1_eq config _ []]
  constructor
  · intro n
    rw [orphanLoop2_mem]
    simp only [List.nil_append, List.mem_filter]
    constructor
    · rintro (⟨hm, hh⟩ | ⟨hm, hh⟩)
      · exact ⟨Or.inl hm, by simpa using hh⟩
      · exact ⟨Or.inr hm, hh⟩
    · rintro ⟨hm | hm, hh⟩
      · exact Or.inl ⟨hm, by simpa using hh⟩
      · exact Or.inr ⟨hm, hh⟩
  · exact orphanLoop2_nodup config _ _
      (by simpa using ((findZZKManagedKeys_keys_nodup home fs).filter _))

theorem detectOrphans_set_difference_witness :
    "old" ∈ detectOrphans "/h" overlapConfig
      ⟨[("/h/.ssh/old_key.pub", ⟨.text "ssh-ed25519 AAA x@y.zz [zzk:old]", 1⟩)], []⟩ := by
  exact ((detectOrphans_set_difference "/h" overlapConfig _).1 "old").mpr
    ⟨Or.inl (by decide), by decide⟩

/-! ## C6: backup rotation -/

theorem deleteBackups_all_ok (removeOk : String → Bool) (fs : FS) (l : List String)
    (h : ∀ p ∈ l, removeOk p = true) :
    (deleteBackups removeOk fs l).2.1 = l ∧
    (deleteBackups removeOk fs l).2.2 = none ∧
    (∀ q, (deleteBackups removeOk fs l).1.lookup q =
      if q ∈ l then none else fs.lookup q) := by
  induction l generalizing fs with
  | nil => simp [deleteBackups]
  | cons p rest ih =>
    have hp : removeOk p = true := h p (by simp)
    obtain ⟨h1, h2, h3⟩ := ih (fs.remove p) (fun x hx => h x (by simp [hx]))
    refine ⟨?_, ?_, ?_⟩
    · simp [deleteBackups, hp, h1]
    · simp [deleteBackups, hp, h2]
    · intro q
      have : (deleteBackups removeOk fs (p :: rest)).1 =
          (deleteBackups removeOk (fs.remove p) rest).1 := by
        simp [deleteBackups, hp]
      rw [this, h3 q]
      by_cases hq : q ∈ rest
      · simp [hq]
      · by_cases hqp : q = p
        · subst hqp
          simp [hq, FS.lookup_remove]
        · simp [hq, hqp, FS.lookup_remove]

theorem deleteBackups_abort (removeOk : String → Bool) (fs : FS)
    (l1 : List String) (b : String) (l2 : List String)
    (h1 : ∀ p ∈ l1, removeOk p = true) (hb : removeOk b = false) :
    (deleteBackups removeOk fs (l1 ++ b :: l2)).2.1 = l1 ++ [b] ∧
    (deleteBackups removeOk fs (l1 ++ b :: l2)).2.2.isSome = true ∧
    (∀ q, q ∉ l1 →
      (deleteBackups removeOk fs (l1 ++ b :: l2)).1.lookup q = fs.lookup q) := by
  induction l1 generalizing fs with
  | nil =>
    refine ⟨by simp [deleteBackups, hb], by simp [deleteBackups, hb], ?_⟩
    intro q _
    simp [deleteBackups, hb]
  | cons p rest ih =>
    have hp : removeOk p = true := h1 p (by simp)
    obtain ⟨g1, g2, g3⟩ := ih (fs.remove p) (fun x hx => h1 x (by simp [hx]))
    refine ⟨?_, ?_, ?_⟩
    · simp only [List.cons_append, deleteBackups, hp, if_pos]
      simp [g1]
    · simp only [List.cons_append, deleteBackups, hp, if_pos]
      simpa using g2
    · intro q hq
      simp only [List.mem_cons, not_or] at hq
      have : (deleteBackups removeOk fs ((p :: rest) ++ b :: l2)).1 =
          (deleteBackups removeOk (fs.remove p) (rest ++ b :: l2)).1 := by
        simp [deleteBackups, hp]
      rw [this, g3 q hq.2, FS.lookup_remove, if_neg hq.1]

theorem rotateBackups_counterexample :
    (rotateBackups rotOracle "/h/.config/zzk/backups" 1 rotFS).2.1 = [rotBk "2"] ∧
    (rotateBackups rotOracle "/h/.config/zzk/backups" 1 rotFS).2.2.isSome = true ∧
    rotBk "1" ∈ (sortByMtimeDesc rotFS (globBackups "/h/.config/zzk/backups" rotFS)).drop 1 ∧
    rotBk "1" ∉ (rotateBackups rotOracle "/h/.config/zzk/backups" 1 rotFS).2.1 ∧
    (rotateBackups rotOracle "/h/.config/zzk/backups" 1 rotFS).1.lookup (rotBk "1") =
      rotFS.lookup (rotBk "1") := by
  refine ⟨by decide, by decide, by decide, by decide, by decide⟩

/-- C6 (amended).  `RotateBackups` keeps the `keep` most-recently-modified
archives matching the tool's naming pattern and, when every deletion
succeeds, deletes exactly the older ones; but an individual deletion failure
*aborts* rotation (the Go loop returns the error): the failing archive and
every older archive after it in the deletion order are left in place and
the rest are not attempted. -/
theorem rotateBackups_amended :
    (∀ (dir : String) (keep : Nat) (fs : FS),
      (rotateBackups (fun _ => true) dir keep fs).2.1 =
        if (globBackups dir fs).length ≤ keep then []
        else (sortByMtimeDesc fs (globBackups dir fs)).drop keep) ∧
    (∀ (dir : String) (keep : Nat) (fs : FS),
      (rotateBackups (fun _ => true) dir keep fs).2.2 = none ∧
      ∀ q, (rotateBackups (fun _ => true) dir keep fs).1.lookup q =
        if (globBackups dir fs).length ≤ keep then fs.lookup q
        else if q ∈ (sortByMtimeDesc fs (globBackups dir fs)).drop keep then none
        else fs.lookup q) ∧
    (∀ (removeOk : String → Bool) (dir : String) (keep : Nat) (fs : FS)
      (l1 : List String) (b : String) (l2 : List String),
      ¬ (globBackups dir fs).length ≤ keep →
      (sortByMtimeDesc fs (globBackups dir fs)).drop keep = l1 ++ b :: l2 →
      (∀ p ∈ l1, removeOk p = true) → removeOk b = false →
      (rotateBackups removeOk dir keep fs).2.1 = l1 ++ [b] ∧
      (rotateBackups removeOk dir keep fs).2.2.isSome = true ∧
      ∀ q, q ∉ l1 → (rotateBackups removeOk dir keep fs).1.lookup q = fs.lookup q) := by
  refine ⟨?_, ?_, ?_⟩
  · intro dir keep fs
    by_cases h : (globBackups dir fs).length ≤ keep
    · simp [rotateBackups, h]
    · simp only [rotateBackups, if_neg h]
      exact (deleteBackups_all_ok _ fs _ (fun p _ => rfl)).1
  · intro dir keep fs
    by_cases h : (globBackups dir fs).length ≤ keep
    · simp [rotateBackups, h]
    · obtain ⟨h1, h2, h3⟩ := deleteBackups_all_ok (fun _ => true) fs
        ((sortByMtimeDesc fs (globBackups dir fs)).drop keep) (fun p _ => rfl)
      refine ⟨?_, ?_⟩
      · simp only [rotateBackups, if_neg h]
        exact h2
      · intro q
        simp only [rotateBackups, if_neg h]
        rw [h3 q]
  · intro removeOk dir keep fs l1 b l2 h hsplit hl1 hb
    obtain ⟨g1, g2, g3⟩ := deleteBackups_abort removeOk fs l1 b l2 hl1 hb
    refine ⟨?_, ?_, ?_⟩
    · simp only [rotateBackups, if_neg h]
      rw [hsplit]
      exact g1
    · simp only [rotateBackups, if_neg h]
      rw [hsplit]
      exact g2
    · intro q hq
      simp only [rotateBackups, if_neg h]
      rw [hsplit]
      exact g3 q hq

theorem rotateBackups_amended_witness :
    (rotateBackups (fun _ => true) "/h/.config/zzk/backups" 1 rotFS).2.1 =
      [rotBk "2", rotBk "1"] ∧
    (rotateBackups rotOracle "/h/.config/zzk/backups" 1 rotFS).2.1 = [rotBk "2"] := by
  constructor
  · have h := rotateBackups_amended.1 "/h/.config/zzk/backups" 1 rotFS
    rw [h]
    decide
  · have h := rotateBackups_amended.2.2 rotOracle "/h/.config/zzk/backups" 1 rotFS
      [] (rotBk "2") [rotBk "1"] (by decide) (by decide) (by intro p hp; simp at hp)
      (by decide)
    simpa using h.1

/-! ## C2: backup-then-delete ordering -/

theorem FS.read_mkdir (fs : FS) (p q : String) : (fs.mkdir p).read q = fs.read q := by
  simp [FS.read, FS.lookup_mkdir]

theorem buildArchive_ok (fs : FS) (files : List String)
    (h : ∀ f ∈ files, (fs.read f).isSome = true) :
    buildArchive fs files =
      (files.map (fun f => (baseName f, ((fs.read f).getD (.text "")).bytes)), true) := by
  induction files with
  | nil => rfl
  | cons f rest ih =>
    obtain ⟨d, hd⟩ := Option.isSome_iff_exists.mp (h f (by simp))
    simp only [buildArchive, hd, ih (fun x hx => h x (by simp [hx])), List.map_cons]
    simp [hd]

theorem backupFiles_spec (env : Env) (files : List String) (fs : FS)
    (hne : files ≠ []) (h : ∀ f ∈ files, (fs.read f).isSome = true) :
    backupFiles env files fs =
      ((fs.mkdir (backupDirOf env.home)).write (backupPathOf env)
        (.archive (files.map (fun f => (baseName f, ((fs.read f).getD (.text "")).bytes))))
        env.now, backupPathOf env, true) := by
  have h2 : ∀ f ∈ files, ((fs.mkdir (backupDirOf env.home)).read f).isSome = true := by
    intro f hf
    rw [FS.read_mkdir]
    exact h f hf
  have hb := buildArchive_ok (fs.mkdir (backupDirOf env.home)) files h2
  have hmap : files.map (fun f =>
      (baseName f, (((fs.mkdir (backupDirOf env.home)).read f).getD (.text "")).bytes)) =
      files.map (fun f => (baseName f, ((fs.read f).getD (.text "")).bytes)) :=
    List.map_congr_left (fun f _ => by rw [FS.read_mkdir])
  rw [hmap] at hb
  simp only [backupFiles, if_neg hne, hb, backupPathOf]

theorem copyPublicKeyToHome_log (env : Env) (i : Identity) (w : World) :
    (copyPublicKeyToHome env i w).log = w.log := by
  rcases h1 : w.fs.read (expandPath env.home (sshPubKeyPathOf i)) with _ | d
  · simp [copyPublicKeyToHome, h1]
  · rcases h2 : w.fs.read (joinPath env.home (i.name ++ "_key.pub")) with _ | d2
    · simp [copyPublicKeyToHome, h1, h2]
    · by_cases h3 : d2.bytes = d.bytes <;> simp [copyPublicKeyToHome, h1, h2, h3]

theorem createIdentityGitConfig_log (env : Env) (i : Identity) (w : World) :
    (createIdentityGitConfig env i w).log = w.log := rfl

theorem processFolders_log (env : Env) (i : Identity) (w : World) :
    (processFolders env i w).log = w.log := by
  unfold processFolders
  induction i.folders generalizing w with
  | nil => rfl
  | cons f fl ih =>
    simp only [List.foldl_cons]
    by_cases h : env.mkdirOk (expandPath env.home f)
    · rw [if_pos h]; exact ih _
    · rw [if_neg h]; exact ih _

theorem processIdentity_log (env : Env) (w : World) (res : SyncResult) (i : Identity) :
    ∃ t, (processIdentity env (w, res) i).1.log = w.log ++ t := by
  by_cases hk : sshKeyExists env (processFolders env i w).fs i
  · refine ⟨[], ?_⟩
    simp only [processIdentity, if_pos hk]
    rw [createIdentityGitConfig_log, processFolders_log]
    simp
  · rcases hg : env.keygen i.name with _ | ⟨priv, pub⟩
    · have hGen : generateSSHKey env i (processFolders env i w) =
          ({ processFolders env i w with
              fs := (((processFolders env i w).fs.remove
                (expandPath env.home (sshKeyPathOf i))).remove
                  (expandPath env.home (sshPubKeyPathOf i))).mkdir
                    (dirName (expandPath env.home (sshKeyPathOf i)))
              log := (processFolders env i w).log ++
                [.fremove (expandPath env.home (sshKeyPathOf i)),
                 .fremove (expandPath env.home (sshPubKeyPathOf i)), .keygen i.name] },
            false) := by
        simp [generateSSHKey, hg]
      refine ⟨[.fremove (expandPath env.home (sshKeyPathOf i)),
        .fremove (expandPath env.home (sshPubKeyPathOf i)), .keygen i.name], ?_⟩
      simp [processIdentity, if_neg hk, hGen, processFolders_log]
    · have hGen : generateSSHKey env i (processFolders env i w) =
          ({ processFolders env i w with
              fs := (((((processFolders env i w).fs.remove
                (expandPath env.home (sshKeyPathOf i))).remove
                  (expandPath env.home (sshPubKeyPathOf i))).mkdir
                    (dirName (expandPath env.home (sshKeyPathOf i)))).write
                      (expandPath env.home (sshKeyPathOf i)) (.text priv) env.now).write
                        (expandPath env.home (sshPubKeyPathOf i)) (.text pub) env.now
              log := (processFolders env i w).log ++
                [.fremove (expandPath env.home (sshKeyPathOf i)),
                 .fremove (expandPath env.home (sshPubKeyPathOf i)), .keygen i.name] },
            true) := by
        simp [generateSSHKey, hg]
      refine ⟨[.fremove (expandPath env.home (sshKeyPathOf i)),
        .fremove (expandPath env.home (sshPubKeyPathOf i)), .keygen i.name], ?_⟩
      simp [processIdentity, if_neg hk, hGen, createIdentityGitConfig_log,
        copyPublicKeyToHome_log, processFolders_log]

theorem processLoop_log (env : Env) (l : List (String × Identity))
    (w : World) (res : SyncResult) :
    ∃ t, (l.foldl (fun acc e => processIdentity env acc e.2) (w, res)).1.log =
      w.log ++ t := by
  induction l generalizing w res with
  | nil => exact ⟨[], by simp⟩
  | cons e rest ih =>
    rcases hp : processIdentity env (w, res) e.2 with ⟨w2, res2⟩
    obtain ⟨t1, ht1⟩ := processIdentity_log env w res e.2
    obtain ⟨t2, ht2⟩ := ih w2 res2
    rw [hp] at ht1
    refine ⟨t1 ++ t2, ?_⟩
    simp only [List.foldl_cons, hp, ht2]
    rw [show w2.log = w.log ++ t1 from ht1, List.append_assoc]

theorem cleanupLoop_log (env : Env) (orphans : List String) (w : World)
    (acc : List String) :
    ∃ t, (orphans.foldl (fun acc o =>
      let w2 := cleanupIdentity env o acc.1
      let w2 := { w2 with state := eraseKey w2.state o }
      (w2, acc.2 ++ [o])) (w, acc)).1.log = w.log ++ t ∧
      (∀ e ∈ t, ∃ p, e = Event.fremove p) := by
  induction orphans generalizing w acc with
  | nil => exact ⟨[], by simp, by simp⟩
  | cons o rest ih =>
    obtain ⟨t2, ht2, hall⟩ := ih ({ cleanupIdentity env o w with
      state := eraseKey (cleanupIdentity env o w).state o }) (acc ++ [o])
    refine ⟨cleanupEventsOf env o ++ t2, ?_, ?_⟩
    · simp only [List.foldl_cons]
      rw [ht2]
      simp [cleanupIdentity, cleanupEventsOf, List.append_assoc]
    · intro e he
      rcases List.mem_append.mp he with he | he
      · simp only [cleanupEventsOf, List.mem_cons] at he
        rcases he with h | h | h | h | h | h
        all_goals first
          | exact ⟨_, h⟩
          | exact absurd h (by simp)
      · exact hall e he

theorem globalPhase_log (env : Env) (config : Config) (w : World) :
    (globalPhase env config w).log = w.log := rfl

theorem statePhase_log (env : Env) (config : Config) (w : World) :
    (statePhase env config w).log = w.log := rfl

theorem orphanPhase_log (env : Env) (orphans : List String) (w0 : World)
    (horph : orphans ≠ [])
    (hfts : collectBackupFiles env orphans w0.fs ≠ [])
    (hread : ∀ f ∈ collectBackupFiles env orphans w0.fs, (w0.fs.read f).isSome = true) :
    ∃ tc, (orphanPhase env orphans w0).1.log =
      w0.log ++ Event.backup (backupPathOf env) (collectBackupFiles env orphans w0.fs) :: tc ∧
      ∀ e ∈ tc, ∃ p, e = Event.fremove p := by
  have hB := backupFiles_spec env _ w0.fs hfts hread
  rcases hrot : rotateBackups (fun _ => true) (backupDirOf env.home) 10
      ((w0.fs.mkdir (backupDirOf env.home)).write (backupPathOf env)
        (.archive ((collectBackupFiles env orphans w0.fs).map
          (fun f => (baseName f, ((w0.fs.read f).getD (.text "")).bytes)))) env.now)
    with ⟨fs3, att, er⟩
  obtain ⟨tcl, htcl, hall⟩ := cleanupLoop_log env orphans
    ⟨fs3, w0.state, w0.stateLast,
      w0.log ++ [Event.backup (backupPathOf env) (collectBackupFiles env orphans w0.fs)]⟩ []
  refine ⟨tcl, ?_, hall⟩
  simp only [orphanPhase, if_neg horph, if_neg hfts, hB, hrot]
  refine htcl.trans ?_
  simp

theorem sync_log_structure (env : Env) (config : Config) (w0 : World) :
    ∃ t, (sync env config w0).1.log =
      (orphanPhase env (detectOrphans env.home config w0.fs) w0).1.log ++ t := by
  rcases hop : orphanPhase env (detectOrphans env.home config w0.fs) w0 with ⟨w1, removed⟩
  obtain ⟨t2, ht2⟩ := processLoop_log env config.identities w1 ⟨removed, [], [], [], []⟩
  rcases hfold : config.identities.foldl (fun acc e => processIdentity env acc e.2)
    (w1, ⟨removed, [], [], [], []⟩) with ⟨w2, res⟩
  refine ⟨t2, ?_⟩
  simp only [sync, hop, hfold, statePhase_log, globalPhase_log]
  rw [hfold] at ht2
  exact ht2

/-- C2.  In every sync run that detects orphans and collects a non-empty
set of existing files, the backup archive creation is the first observable
event of the run — in particular it precedes every file removal — the
archive contains every collected file under its base name with the bytes
the file had at collection time, and only files that `os.Stat` finds at
collection time are collected. -/
theorem backup_before_delete (env : Env) (config : Config) (w0 : World)
    (hfts : collectBackupFiles env (detectOrphans env.home config w0.fs) w0.fs ≠ [])
    (hfiles : ∀ f ∈ collectBackupFiles env (detectOrphans env.home config w0.fs) w0.fs,
      (w0.fs.read f).isSome = true) :
    (∃ rest, (sync env config w0).1.log = w0.log ++
      Event.backup (backupPathOf env)
        (collectBackupFiles env (detectOrphans env.home config w0.fs) w0.fs) :: rest) ∧
    (∀ f ∈ collectBackupFiles env (detectOrphans env.home config w0.fs) w0.fs,
      w0.fs.statOk f = true) ∧
    ((backupFiles env (collectBackupFiles env (detectOrphans env.home config w0.fs) w0.fs)
        w0.fs).1.read (backupPathOf env) =
      some (.archive ((collectBackupFiles env (detectOrphans env.home config w0.fs) w0.fs).map
        (fun f => (baseName f, ((w0.fs.read f).getD (.text "")).bytes))))) := by
  have horph : detectOrphans env.home config w0.fs ≠ [] := by
    intro h
    apply hfts
    rw [h]
    rfl
  have hB := backupFiles_spec env _ w0.fs hfts hfiles
  refine ⟨?_, ?_, ?_⟩
  · obtain ⟨tc, htc, _⟩ := orphanPhase_log env (detectOrphans env.home config w0.fs)
      w0 horph hfts hfiles
    obtain ⟨t2, ht2⟩ := sync_log_structure env config w0
    refine ⟨tc ++ t2, ?_⟩
    rw [ht2, htc]
    simp [List.append_assoc]
  · intro f hf
    have hr := hfiles f hf
    have hex : w0.fs.fileExists f = true := by
      unfold FS.fileExists
      unfold FS.read at hr
      simpa using hr
    simp [FS.statOk, hex]
  · rw [hB]
    simp [FS.read_write]

theorem backup_before_delete_witness :
    ∃ rest, (sync envA cfgA wOrphan).1.log = wOrphan.log ++
      Event.backup (backupPathOf envA)
        (collectBackupFiles envA (detectOrphans envA.home cfgA wOrphan.fs) wOrphan.fs) :: rest :=
  (backup_before_delete envA cfgA wOrphan (by decide) (by decide)).1

theorem plainComp_of_long {x : List Char} (h3 : '/' ∉ x) (hl : 2 < x.length) :
    PlainComp x := by
  refine ⟨?_, ?_, ?_, h3⟩
  · intro he; rw [he] at hl; simp at hl
  · intro he; rw [he] at hl; simp at hl
  · intro he; rw [he] at hl; simp at hl

theorem plainName_append_no_slash {n : String} (hn : PlainName n)
    {lit : List Char} (hlit : '/' ∉ lit) : '/' ∉ n.data ++ lit := by
  intro h
  rcases List.mem_append.mp h with h | h
  · exact plainName_no_slash hn h
  · exact hlit h

theorem nicePath_extend {home : String} (hh : NicePath home) (rest : List Char)
    (hcomps : ∀ g ∈ splitSlash rest, PlainComp g) :
    NicePath ⟨home.data ++ '/' :: rest⟩ := by
  obtain ⟨hr, hdata, hc⟩ := hh
  refine ⟨hr ++ '/' :: rest, ?_, ?_⟩
  · show home.data ++ '/' :: rest = '/' :: (hr ++ '/' :: rest)
    rw [hdata]
    rfl
  · rw [splitSlash_append]
    intro g hg
    rcases List.mem_append.mp hg with hg | hg
    · exact hc g hg
    · exact hcomps g hg

theorem joinPath_nice (home b : String) (hh : NicePath home)
    (hcomps : ∀ g ∈ splitSlash b.data, PlainComp g) :
    joinPath home b = ⟨home.data ++ '/' :: b.data⟩ := by
  unfold joinPath
  exact cleanPath_nice (nicePath_extend hh b.data hcomps)

theorem splitSlash_sshKeyRest (n : String) (hn : PlainName n) :
    splitSlash (sshKeyRest n) = [".ssh".data, n.data ++ "_key".data] := by
  unfold sshKeyRest
  rw [splitSlash_append]
  rw [splitSlash_no_slash (by decide),
    splitSlash_no_slash (plainName_append_no_slash hn (by decide))]
  rfl

theorem splitSlash_sshPubRest (n : String) (hn : PlainName n) :
    splitSlash (sshPubRest n) = [".ssh".data, n.data ++ "_key.pub".data] := by
  unfold sshPubRest
  rw [splitSlash_append]
  rw [splitSlash_no_slash (by decide),
    splitSlash_no_slash (plainName_append_no_slash hn (by decide))]
  rfl

theorem plainComp_name_suffix {n : String} (hn : PlainName n) {lit : List Char}
    (hlit : '/' ∉ lit) (hl : 2 < lit.length) : PlainComp (n.data ++ lit) := by
  refine plainComp_of_long (plainName_append_no_slash hn hlit) ?_
  rw [List.length_append]
  omega

theorem sshKeyRest_comps {n : String} (hn : PlainName n) :
    ∀ g ∈ splitSlash (sshKeyRest n), PlainComp g := by
  rw [splitSlash_sshKeyRest n hn]
  intro g hg
  rcases List.mem_cons.mp hg with h | h
  · subst h; exact ⟨by decide, by decide, by decide, by decide⟩
  · rcases List.mem_singleton.mp h with rfl
    exact plainComp_name_suffix hn (by decide) (by decide)

theorem sshPubRest_comps {n : String} (hn : PlainName n) :
    ∀ g ∈ splitSlash (sshPubRest n), PlainComp g := by
  rw [splitSlash_sshPubRest n hn]
  intro g hg
  rcases List.mem_cons.mp hg with h | h
  · subst h; exact ⟨by decide, by decide, by decide, by decide⟩
  · rcases List.mem_singleton.mp h with rfl
    exact plainComp_name_suffix hn (by decide) (by decide)

theorem homePubRest_comps {n : String} (hn : PlainName n) :
    ∀ g ∈ splitSlash (homePubRest n), PlainComp g := by
  unfold homePubRest
  rw [splitSlash_no_slash (plainName_append_no_slash hn (by decide))]
  intro g hg
  rcases List.mem_singleton.mp hg with rfl
  exact plainComp_name_suffix hn (by decide) (by decide)

theorem gitCfgRest_comps {n : String} (hn : PlainName n) :
    ∀ g ∈ splitSlash (gitCfgRest n), PlainComp g := by
  unfold gitCfgRest
  have : '/' ∉ ".gitconfig-".data ++ n.data := by
    intro h
    rcases List.mem_append.mp h with h | h
    · exact absurd h (by decide)
    · exact plainName_no_slash hn h
  rw [splitSlash_no_slash this]
  intro g hg
  rcases List.mem_singleton.mp hg with rfl
  refine plainComp_of_long this ?_
  rw [List.length_append]
  have : 0 ≤ n.data.length := Nat.zero_le _
  simp
  omega

theorem expandPath_tilde (home : String) (rest : List Char) :
    expandPath home ⟨'~' :: '/' :: rest⟩ = joinPath home ⟨rest⟩ := rfl

theorem expandPath_sshKey (home : String) (i : Identity) (hh : NicePath home)
    (hn : PlainName i.name) :
    expandPath home (sshKeyPathOf i) = sshKeyLoc home i.name := by
  have hd : sshKeyPathOf i = ⟨'~' :: '/' :: sshKeyRest i.name⟩ := by
    apply String.ext
    show ("~/.ssh/" ++ i.name ++ "_key").data = _
    rw [String.data_append, String.data_append]
    show "~/.ssh/".data ++ i.name.data ++ "_key".data = '~' :: '/' :: sshKeyRest i.name
    rw [show "~/.ssh/".data = '~' :: '/' :: '.' :: 's' :: 's' :: 'h' :: '/' :: [] from rfl]
    simp [sshKeyRest, List.append_assoc]
  rw [hd, expandPath_tilde,
    joinPath_nice home ⟨sshKeyRest i.name⟩ hh (sshKeyRest_comps hn)]
  rfl

theorem expandPath_sshPub (home : String) (i : Identity) (hh : NicePath home)
    (hn : PlainName i.name) :
    expandPath home (sshPubKeyPathOf i) = sshPubLoc home i.name := by
  have hd : sshPubKeyPathOf i = ⟨'~' :: '/' :: sshPubRest i.name⟩ := by
    apply String.ext
    show ("~/.ssh/" ++ i.name ++ "_key.pub").data = _
    rw [String.data_append, String.data_append]
    rw [show "~/.ssh/".data = '~' :: '/' :: '.' :: 's' :: 's' :: 'h' :: '/' :: [] from rfl]
    simp [sshPubRest, List.append_assoc]
  rw [hd, expandPath_tilde,
    joinPath_nice home ⟨sshPubRest i.name⟩ hh (sshPubRest_comps hn)]
  rfl

theorem expandPath_gitCfg (home : String) (i : Identity) (hh : NicePath home)
    (hn : PlainName i.name) :
    expandPath home (gitConfigPathOf i) = gitCfgLoc home i.name := by
  have hd : gitConfigPathOf i = ⟨'~' :: '/' :: gitCfgRest i.name⟩ := by
    apply String.ext
    show ("~/.gitconfig-" ++ i.name).data = _
    rw [String.data_append]
    rw [show "~/.gitconfig-".data =
      '~' :: '/' :: ('.' :: 'g' :: 'i' :: 't' :: 'c' :: 'o' :: 'n' :: 'f' :: 'i' :: 'g' :: '-' :: []) from rfl]
    simp [gitCfgRest]
  rw [hd, expandPath_tilde,
    joinPath_nice home ⟨gitCfgRest i.name⟩ hh (gitCfgRest_comps hn)]
  rfl

theorem joinPath_homePub (home n : String) (hh : NicePath home) (hn : PlainName n) :
    joinPath home (n ++ "_key.pub") = homePubLoc home n := by
  have hb : (n ++ "_key.pub").data = homePubRest n := by
    rw [String.data_append]; rfl
  rw [show homePubLoc home n = ⟨home.data ++ '/' :: (n ++ "_key.pub").data⟩ by
    rw [hb]; rfl]
  exact joinPath_nice home _ hh (by rw [hb]; exact homePubRest_comps hn)

theorem joinPath_gitCfg (home n : String) (hh : NicePath home) (hn : PlainName n) :
    joinPath home (".gitconfig-" ++ n) = gitCfgLoc home n := by
  have hb : (".gitconfig-" ++ n).data = gitCfgRest n := by
    rw [String.data_append]; rfl
  rw [show gitCfgLoc home n = ⟨home.data ++ '/' :: (".gitconfig-" ++ n).data⟩ by
    rw [hb]; rfl]
  exact joinPath_nice home _ hh (by rw [hb]; exact gitCfgRest_comps hn)

theorem join3_sshKey (home n : String) (hh : NicePath home) (hn : PlainName n) :
    join3 home ".ssh" (n ++ "_key") = sshKeyLoc home n := by
  unfold join3
  have h1 : (⟨home.data ++ '/' :: (".ssh" : String).data ++ '/' :: (n ++ "_key").data⟩ : String) =
      ⟨home.data ++ '/' :: sshKeyRest n⟩ := by
    apply String.ext
    show home.data ++ '/' :: (".ssh" : String).data ++ '/' :: (n ++ "_key").data =
      home.data ++ '/' :: sshKeyRest n
    simp [sshKeyRest, String.data_append, List.append_assoc]
  rw [h1]
  exact cleanPath_nice (nicePath_extend hh _ (sshKeyRest_comps hn))

theorem append_pub (home n : String) :
    sshKeyLoc home n ++ ".pub" = sshPubLoc home n := by
  apply String.ext
  rw [String.data_append]
  show (home.data ++ '/' :: sshKeyRest n) ++ ".pub".data = home.data ++ '/' :: sshPubRest n
  simp [sshKeyRest, sshPubRest, List.append_assoc]

theorem backupPath_norm (env : Env) :
    backupPathOf env = locOf env.home (archiveRest (toString env.now)) := by
  apply String.ext
  show (backupDirOf env.home ++ "/git-orphans-" ++ toString env.now ++ ".tar.gz").data = _
  simp only [backupDirOf, String.data_append, locOf, archiveRest]
  simp [List.append_assoc]

theorem globalGit_norm (home : String) :
    home ++ "/.gitconfig" = locOf home globalGitRest := by
  apply String.ext
  rw [String.data_append]
  rfl

theorem sshCfg_norm (home : String) :
    home ++ "/.ssh/config" = locOf home sshCfgRest := by
  apply String.ext
  rw [String.data_append]
  rfl

theorem signers_norm (home : String) :
    home ++ "/.ssh/allowed_signers" = locOf home signersRest := by
  apply String.ext
  rw [String.data_append]
  rfl

/-! ### Distinctness of the managed path families -/

theorem getLast?_eq_of_concat {r X : List Char} {c : Char} (h : r = X ++ [c]) :
    r.getLast? = some c := by
  rw [h]
  exact List.getLast?_concat X

theorem sshKeyRest_last (n : String) : (sshKeyRest n).getLast? = some 'y' :=
  getLast?_eq_of_concat (X := ".ssh".data ++ '/' :: (n.data ++ "_ke".data))
    (by simp [sshKeyRest, List.append_assoc])

theorem sshPubRest_last (n : String) : (sshPubRest n).getLast? = some 'b' :=
  getLast?_eq_of_concat (X := ".ssh".data ++ '/' :: (n.data ++ "_key.pu".data))
    (by simp [sshPubRest, List.append_assoc])

theorem homePubRest_last (n : String) : (homePubRest n).getLast? = some 'b' :=
  getLast?_eq_of_concat (X := n.data ++ "_key.pu".data)
    (by simp [homePubRest, List.append_assoc])

theorem sshCfgRest_last : sshCfgRest.getLast? = some 'g' := by decide

theorem signersRest_last : signersRest.getLast? = some 's' := by decide

theorem globalGitRest_last : globalGitRest.getLast? = some 'g' := by decide

theorem sshKeyRest_idx1 (n : String) : (sshKeyRest n)[1]? = some 's' := by
  unfold sshKeyRest
  rw [List.getElem?_append_left (by decide : 1 < (".ssh".data).length)]
  decide

theorem sshPubRest_idx1 (n : String) : (sshPubRest n)[1]? = some 's' := by
  unfold sshPubRest
  rw [List.getElem?_append_left (by decide : 1 < (".ssh".data).length)]
  decide

theorem gitCfgRest_idx1 (n : String) : (gitCfgRest n)[1]? = some 'g' := by
  unfold gitCfgRest
  rw [List.getElem?_append_left (by decide : 1 < (".gitconfig-".data).length)]
  decide

theorem archiveRest_idx1 (ts : String) : (archiveRest ts)[1]? = some 'c' := by
  unfold archiveRest
  rw [List.append_assoc,
    List.getElem?_append_left (by decide : 1 < (".config/zzk/backups/git-orphans-".data).length)]
  decide

theorem sshKeyRest_idx0 (n : String) : (sshKeyRest n)[0]? = some '.' := by
  unfold sshKeyRest
  rw [List.getElem?_append_left (by decide : 0 < (".ssh".data).length)]
  decide

theorem sshPubRest_idx0 (n : String) : (sshPubRest n)[0]? = some '.' := by
  unfold sshPubRest
  rw [List.getElem?_append_left (by decide : 0 < (".ssh".data).length)]
  decide

theorem gitCfgRest_idx0 (n : String) : (gitCfgRest n)[0]? = some '.' := by
  unfold gitCfgRest
  rw [List.getElem?_append_left (by decide : 0 < (".gitconfig-".data).length)]
  decide

theorem archiveRest_idx0 (ts : String) : (archiveRest ts)[0]? = some '.' := by
  unfold archiveRest
  rw [List.append_assoc,
    List.getElem?_append_left (by decide : 0 < (".config/zzk/backups/git-orphans-".data).length)]
  decide

theorem homePubRest_idx0 {n : String} (hn : PlainName n) :
    ∃ c, (homePubRest n)[0]? = some c ∧ plainChar c = true := by
  obtain ⟨c, rest, hd, hc⟩ := plainName_head hn
  refine ⟨c, ?_, hc⟩
  unfold homePubRest
  rw [List.getElem?_append_left (by rw [hd]; simp), hd]
  simp

theorem gitCfgRest_idx10 (n : String) : (gitCfgRest n)[10]? = some '-' := by
  unfold gitCfgRest
  rw [List.getElem?_append_left (by decide : 10 < (".gitconfig-".data).length)]
  decide

theorem globalGitRest_idx10 : globalGitRest[10]? = none := by decide

theorem locOf_ne (home : String) {r1 r2 : List Char} (h : r1 ≠ r2) :
    locOf home r1 ≠ locOf home r2 := by
  intro he
  have h2 := (locEq home ('/' :: r1) ('/' :: r2)).mp he
  injection h2 with h3 h4
  exact h h4

theorem ne_homePub_of_dotted {r : List Char} {m : String} (hm : PlainName m)
    (h0 : r[0]? = some '.') : r ≠ homePubRest m := by
  obtain ⟨c, hc, hpc⟩ := homePubRest_idx0 hm
  apply ne_of_getElem? 0
  rw [h0, hc]
  intro he
  injection he with he
  exact plainChar_ne_dot hpc he.symm

theorem sshKeyRest_inj {n m : String} (h : sshKeyRest n = sshKeyRest m) : n = m := by
  unfold sshKeyRest at h
  have h2 := List.append_cancel_left h
  have h3 : n.data ++ "_key".data = m.data ++ "_key".data := by
    injection h2
  exact String.ext (List.append_cancel_right h3)

theorem sshPubRest_inj {n m : String} (h : sshPubRest n = sshPubRest m) : n = m := by
  unfold sshPubRest at h
  have h2 := List.append_cancel_left h
  have h3 : n.data ++ "_key.pub".data = m.data ++ "_key.pub".data := by
    injection h2
  exact String.ext (List.append_cancel_right h3)

theorem homePubRest_inj {n m : String} (h : homePubRest n = homePubRest m) : n = m := by
  unfold homePubRest at h
  exact String.ext (List.append_cancel_right h)

theorem gitCfgRest_inj {n m : String} (h : gitCfgRest n = gitCfgRest m) : n = m := by
  unfold gitCfgRest at h
  exact String.ext (List.append_cancel_left h)

theorem ne_of_last {r1 r2 : List Char} {c1 c2 : Char} (h1 : r1.getLast? = some c1)
    (h2 : r2.getLast? = some c2) (hc : c1 ≠ c2) : r1 ≠ r2 := by
  apply ne_of_getLast?
  rw [h1, h2]
  intro he
  injection he with he
  exact hc he

theorem ne_of_idx1 {r1 r2 : List Char} {c1 c2 : Char} (h1 : r1[1]? = some c1)
    (h2 : r2[1]? = some c2) (hc : c1 ≠ c2) : r1 ≠ r2 := by
  apply ne_of_getElem? 1
  rw [h1, h2]
  intro he
  injection he with he
  exact hc he

/-! ### Sorting and glob support lemmas -/

theorem mem_insertSorted (x y : String) (l : List String) :
    y ∈ insertSorted x l ↔ y = x ∨ y ∈ l := by
  induction l with
  | nil => simp [insertSorted]
  | cons a rest ih =>
    unfold insertSorted
    by_cases h : strLt x a
    · simp [h]
    · rw [if_neg h]
      simp [ih]
      tauto

theorem mem_sortStrings (y : String) (l : List String) :
    y ∈ sortStrings l ↔ y ∈ l := by
  induction l with
  | nil => simp [sortStrings]
  | cons a rest ih =>
    unfold sortStrings at ih ⊢
    rw [List.foldr_cons, mem_insertSorted]
    simp [ih]

theorem mem_insertByMtime (fs : FS) (x y : String) (l : List String) :
    y ∈ insertByMtime fs x l ↔ y = x ∨ y ∈ l := by
  induction l with
  | nil => simp [insertByMtime]
  | cons a rest ih =>
    unfold insertByMtime
    by_cases h : mtimeOf fs a < mtimeOf fs x
    · simp [h]
    · rw [if_neg h]
      simp [ih]
      tauto

theorem mem_sortByMtimeDesc (fs : FS) (y : String) (l : List String) :
    y ∈ sortByMtimeDesc fs l ↔ y ∈ l := by
  induction l with
  | nil => simp [sortByMtimeDesc]
  | cons a rest ih =>
    unfold sortByMtimeDesc at ih ⊢
    rw [List.foldr_cons, mem_insertByMtime]
    simp [ih]

theorem count_insertSorted (x y : String) (l : List String) :
    (insertSorted x l).count y = l.count y + (if y = x then 1 else 0) := by
  induction l with
  | nil => by_cases h : y = x <;> simp [insertSorted, List.count_cons, h]
  | cons a rest ih =>
    unfold insertSorted
    by_cases h : strLt x a
    · rw [if_pos h]
      simp only [List.count_cons]
      split_ifs <;> simp_all <;> omega
    · rw [if_neg h]
      simp only [List.count_cons, ih]
      split_ifs <;> simp_all <;> omega

theorem count_sortStrings (y : String) (l : List String) :
    (sortStrings l).count y = l.count y := by
  induction l with
  | nil => rfl
  | cons a rest ih =>
    unfold sortStrings at ih ⊢
    rw [List.foldr_cons, count_insertSorted, ih, List.count_cons]
    by_cases h : y = a
    · simp [h]
    · have h2 : (a == y) = false := by
        rw [beq_eq_false_iff_ne]; exact fun hh => h hh.symm
      simp [h, h2]

theorem sortByMtimeDesc_cons (fs : FS) (a : String) (l : List String) :
    sortByMtimeDesc fs (a :: l) = insertByMtime fs a (sortByMtimeDesc fs l) := rfl

/-- The unique strictly-newest element of a list sorts to the head. -/
theorem sortByMtimeDesc_max (fs : FS) (l : List String) (x : String)
    (hmem : x ∈ l) (hcount : l.count x = 1)
    (hmax : ∀ y ∈ l, y ≠ x → mtimeOf fs y < mtimeOf fs x) :
    ∃ t, sortByMtimeDesc fs l = x :: t ∧ x ∉ t := by
  induction l with
  | nil => simp at hmem
  | cons a rest ih =>
    rw [sortByMtimeDesc_cons]
    by_cases hax : a = x
    · subst hax
      have hnx : a ∉ rest := by
        rw [List.count_cons] at hcount
        simp only [beq_self_eq_true, if_true] at hcount
        have h0 : rest.count a = 0 := by omega
        exact List.count_eq_zero.mp h0
      have hall : ∀ y ∈ sortByMtimeDesc fs rest, mtimeOf fs y < mtimeOf fs a := by
        intro y hy
        rw [mem_sortByMtimeDesc] at hy
        exact hmax y (by simp [hy]) (fun he => hnx (he ▸ hy))
      rcases hs : sortByMtimeDesc fs rest with _ | ⟨b, bs⟩
      · exact ⟨[], rfl, by simp⟩
      · have hb : mtimeOf fs b < mtimeOf fs a := hall b (by rw [hs]; simp)
        refine ⟨b :: bs, by simp [insertByMtime, hb], ?_⟩
        intro hmem2
        have h2 : a ∈ sortByMtimeDesc fs rest := by rw [hs]; exact hmem2
        rw [mem_sortByMtimeDesc] at h2
        exact hnx h2
    · have hx : x ∈ rest := by
        rcases List.mem_cons.mp hmem with h | h
        · exact absurd h.symm hax
        · exact h
      have hcount2 : rest.count x = 1 := by
        rw [List.count_cons] at hcount
        have hxa : (a == x) = false := by
          rw [beq_eq_false_iff_ne]; exact hax
        rw [hxa] at hcount
        simpa using hcount
      obtain ⟨t, ht, hnt⟩ := ih hx hcount2
        (fun y hy hne => hmax y (by simp [hy]) hne)
      rw [ht]
      have hlt : mtimeOf fs a < mtimeOf fs x := hmax a (by simp) hax
      have hnlt : ¬ mtimeOf fs x < mtimeOf fs a := by omega
      refine ⟨insertByMtime fs a t, by simp [insertByMtime, hnlt], ?_⟩
      rw [mem_insertByMtime]
      rintro (h | h)
      · exact hax h.symm
      · exact hnt h

theorem stripPre_append_both (a b c : List Char) :
    stripPre (a ++ b) (a ++ c) = stripPre b c := by
  induction a with
  | nil => rfl
  | cons x xs ih => simp [stripPre, ih]

theorem childOf_under (dir : String) (b : List Char) :
    childOf dir ⟨dir.data ++ '/' :: b⟩ =
      if b ≠ [] ∧ '/' ∉ b then some ⟨b⟩ else none := by
  unfold childOf
  have h1 : stripPre (dir.data ++ ['/']) (dir.data ++ '/' :: b) = some b := by
    rw [show dir.data ++ '/' :: b = dir.data ++ ['/'] ++ b by simp]
    exact stripPre_append (dir.data ++ ['/']) b
  rw [show (⟨dir.data ++ '/' :: b⟩ : String).data = dir.data ++ '/' :: b from rfl, h1]

theorem childOf_some {dir p : String} {base : String}
    (h : childOf dir p = some base) :
    p.data = dir.data ++ '/' :: base.data ∧ base.data ≠ [] ∧ '/' ∉ base.data := by
  unfold childOf at h
  rcases hs : stripPre (dir.data ++ ['/']) p.data with _ | rest
  · rw [hs] at h; simp at h
  · rw [hs] at h
    have h2 : (if rest ≠ [] ∧ '/' ∉ rest then some (⟨rest⟩ : String) else none) =
        some base := h
    by_cases hc : rest ≠ [] ∧ '/' ∉ rest
    · rw [if_pos hc] at h2
      injection h2 with h2
      subst h2
      have h3 := stripPre_some hs
      constructor
      · rw [h3]; simp
      · exact hc
    · rw [if_neg hc] at h2; exact absurd h2 (by simp)

theorem globBackups_shape {dir : String} {fs : FS} {p : String}
    (h : p ∈ globBackups dir fs) :
    ∃ r, p.data = dir.data ++ "/git-orphans-".data ++ r := by
  unfold globBackups at h
  rw [mem_sortStrings] at h
  obtain ⟨e, _, he⟩ := List.mem_filterMap.mp h
  rcases hs : stripPre (dir.data ++ "/git-orphans-".data) e.1.data with _ | rest
  · rw [hs] at he; simp at he
  · rw [hs] at he
    have h2 : (if goHasSuffix ⟨rest⟩ ".tar.gz" = true ∧ '/' ∉ rest then some e.1 else none) =
        some p := he
    by_cases hc : goHasSuffix ⟨rest⟩ ".tar.gz" = true ∧ '/' ∉ rest
    · rw [if_pos hc] at h2
      injection h2 with h2
      subst h2
      exact ⟨rest, stripPre_some hs⟩
    · rw [if_neg hc] at h2; exact absurd h2 (by simp)

theorem FS.lookup_setDirs (files : List (String × FileEntry)) (d1 d2 : List String)
    (q : String) : (FS.mk files d1).lookup q = (FS.mk files d2).lookup q := rfl

theorem cleanupIdentity_lookup (env : Env) (o : String) (w : World) (q : String)
    (hh : NicePath env.home) (ho : PlainName o) :
    (cleanupIdentity env o w).fs.lookup q =
      if CleanupPath env.home o q then none else w.fs.lookup q := by
  simp only [cleanupIdentity, join3_sshKey env.home o hh ho, append_pub,
    joinPath_homePub env.home o hh ho, joinPath_gitCfg env.home o hh ho]
  have hdirs : ∀ fs4 : FS, (if env.dirEmpty (joinPath env.home (titleCase o))
      then { fs4 with dirs := fs4.dirs.filter (fun d => !(d == joinPath env.home (titleCase o))) }
      else fs4).lookup q = fs4.lookup q := by
    intro fs4
    split <;> rfl
  rw [hdirs]
  rw [FS.lookup_remove, FS.lookup_remove, FS.lookup_remove, FS.lookup_remove]
  unfold CleanupPath
  split_ifs <;> first | rfl | tauto

theorem cleanupIdentity_state (env : Env) (o : String) (w : World) :
    (cleanupIdentity env o w).state = w.state := rfl

theorem cleanupLoop_fs (env : Env) (orphans : List String) (w : World)
    (acc : List String) (q : String) (hh : NicePath env.home)
    (hall : ∀ x ∈ orphans, PlainName x) :
    (orphans.foldl (fun acc o =>
      let w2 := cleanupIdentity env o acc.1
      let w2 := { w2 with state := eraseKey w2.state o }
      (w2, acc.2 ++ [o])) (w, acc)).1.fs.lookup q =
    if ∃ o ∈ orphans, CleanupPath env.home o q then none else w.fs.lookup q := by
  induction orphans generalizing w acc with
  | nil => simp
  | cons o rest ih =>
    simp only [List.foldl_cons]
    have hstep : ∀ st, ({ cleanupIdentity env o w with state := st }).fs.lookup q =
        if CleanupPath env.home o q then none else w.fs.lookup q := by
      intro st
      exact cleanupIdentity_lookup env o w q hh (hall o (by simp))
    rw [ih _ _ (fun x hx => hall x (by simp [hx]))]
    by_cases hrest : ∃ x ∈ rest, CleanupPath env.home x q
    · rw [if_pos hrest, if_pos (by rcases hrest with ⟨x, hx, hcx⟩; exact ⟨x, by simp [hx], hcx⟩)]
    · rw [if_neg hrest, hstep]
      by_cases hco : CleanupPath env.home o q
      · rw [if_pos hco, if_pos ⟨o, by simp, hco⟩]
      · rw [if_neg hco, if_neg ?_]
        rintro ⟨x, hx, hcx⟩
        rcases List.mem_cons.mp hx with rfl | hx2
        · exact hco hcx
        · exact hrest ⟨x, hx2, hcx⟩

theorem cleanupLoop_state (env : Env) (orphans : List String) (w : World)
    (acc : List String) (N : String) :
    lookupKey (orphans.foldl (fun acc o =>
      let w2 := cleanupIdentity env o acc.1
      let w2 := { w2 with state := eraseKey w2.state o }
      (w2, acc.2 ++ [o])) (w, acc)).1.state N =
    if N ∈ orphans then none else lookupKey w.state N := by
  induction orphans generalizing w acc with
  | nil => simp
  | cons o rest ih =>
    simp only [List.foldl_cons]
    rw [ih]
    by_cases hrest : N ∈ rest
    · rw [if_pos hrest, if_pos (by simp [hrest])]
    · rw [if_neg hrest]
      have hst : ({ cleanupIdentity env o w with
          state := eraseKey (cleanupIdentity env o w).state o } : World).state =
          eraseKey w.state o := rfl
      rw [hst, lookupKey_eraseKey]
      by_cases hN : N = o
      · rw [if_pos hN, if_pos (by simp [hN])]
      · rw [if_neg hN, if_neg (by simp [hN, hrest])]

theorem processFolders_fs (env : Env) (i : Identity) (w : World) (q : String) :
    (processFolders env i w).fs.lookup q = w.fs.lookup q := by
  unfold processFolders
  induction i.folders generalizing w with
  | nil => rfl
  | cons f fl ih =>
    simp only [List.foldl_cons]
    by_cases h : env.mkdirOk (expandPath env.home f)
    · rw [if_pos h, ih]
      exact FS.lookup_mkdir w.fs _ q
    · rw [if_neg h, ih]

theorem copyPublicKeyToHome_fs (env : Env) (i : Identity) (w : World) (q : String)
    (hq : q ≠ joinPath env.home (i.name ++ "_key.pub")) :
    (copyPublicKeyToHome env i w).fs.lookup q = w.fs.lookup q := by
  rcases h1 : w.fs.read (expandPath env.home (sshPubKeyPathOf i)) with _ | d
  · simp [copyPublicKeyToHome, h1]
  · rcases h2 : w.fs.read (joinPath env.home (i.name ++ "_key.pub")) with _ | d2
    · simp [copyPublicKeyToHome, h1, h2, FS.lookup_write, hq]
    · by_cases h3 : d2.bytes = d.bytes <;>
        simp [copyPublicKeyToHome, h1, h2, h3, FS.lookup_write, hq]

theorem createIdentityGitConfig_fs (env : Env) (i : Identity) (w : World) (q : String) :
    (createIdentityGitConfig env i w).fs.lookup q =
      if q = expandPath env.home (gitConfigPathOf i)
      then some ⟨.text (renderIdentityGitConfig i), env.now⟩
      else w.fs.lookup q := by
  unfold createIdentityGitConfig
  exact FS.lookup_write w.fs _ _ _ q

theorem generateSSHKey_fs (env : Env) (i : Identity) (w : World) (q : String)
    (hq1 : q ≠ expandPath env.home (sshKeyPathOf i))
    (hq2 : q ≠ expandPath env.home (sshPubKeyPathOf i)) :
    (generateSSHKey env i w).1.fs.lookup q = w.fs.lookup q := by
  unfold generateSSHKey
  rcases hg : env.keygen i.name with _ | ⟨priv, pub⟩
  · show ((((w.fs.remove _).remove _).mkdir _)).lookup q = _
    rw [FS.lookup_mkdir, FS.lookup_remove, FS.lookup_remove]
    rw [if_neg hq1, if_neg hq2]
  · show ((((((w.fs.remove _).remove _).mkdir _)).write _ _ _).write _ _ _).lookup q = _
    rw [FS.lookup_write, FS.lookup_write, FS.lookup_mkdir, FS.lookup_remove,
      FS.lookup_remove]
    rw [if_neg hq2, if_neg hq1, if_neg hq1, if_neg hq2]

theorem processIdentity_fs (env : Env) (w : World) (res : SyncResult) (i : Identity)
    (q : String) (hh : NicePath env.home) (hp : PlainName i.name)
    (hq1 : q ≠ sshKeyLoc env.home i.name) (hq2 : q ≠ sshPubLoc env.home i.name)
    (hq3 : q ≠ homePubLoc env.home i.name) (hq4 : q ≠ gitCfgLoc env.home i.name) :
    (processIdentity env (w, res) i).1.fs.lookup q = w.fs.lookup q := by
  have hq1e : q ≠ expandPath env.home (sshKeyPathOf i) := by
    rw [expandPath_sshKey env.home i hh hp]; exact hq1
  have hq2e : q ≠ expandPath env.home (sshPubKeyPathOf i) := by
    rw [expandPath_sshPub env.home i hh hp]; exact hq2
  have hq3e : q ≠ joinPath env.home (i.name ++ "_key.pub") := by
    rw [joinPath_homePub env.home i.name hh hp]; exact hq3
  have hq4e : q ≠ expandPath env.home (gitConfigPathOf i) := by
    rw [expandPath_gitCfg env.home i hh hp]; exact hq4
  unfold processIdentity
  by_cases hk : sshKeyExists env (processFolders env i w).fs i
  · rw [if_pos hk]
    show (createIdentityGitConfig env i (processFolders env i w)).fs.lookup q = _
    rw [createIdentityGitConfig_fs, if_neg hq4e, processFolders_fs]
  · rw [if_neg hk]
    rcases hgen : generateSSHKey env i (processFolders env i w) with ⟨wg, ok⟩
    have hwg : wg.fs.lookup q = w.fs.lookup q := by
      have := generateSSHKey_fs env i (processFolders env i w) q hq1e hq2e
      rw [hgen] at this
      rw [this, processFolders_fs]
    cases ok
    · simp only [Bool.not_false, if_pos]
      exact hwg
    · simp only [Bool.not_true]
      rw [if_neg (by simp)]
      show (createIdentityGitConfig env i (copyPublicKeyToHome env i wg)).fs.lookup q = _
      rw [createIdentityGitConfig_fs, if_neg hq4e, copyPublicKeyToHome_fs env i wg q hq3e,
        hwg]

theorem sshKeyExists_eq (env : Env) (fs : FS) (i : Identity) (hh : NicePath env.home)
    (hp : PlainName i.name) :
    sshKeyExists env fs i =
      ((fs.lookup (sshKeyLoc env.home i.name)).isSome &&
       (fs.lookup (sshPubLoc env.home i.name)).isSome) := by
  unfold sshKeyExists FS.fileExists
  rw [expandPath_sshKey env.home i hh hp, expandPath_sshPub env.home i hh hp]

theorem keyLoc_not_cleanupPath {home n m : String} (hn : PlainName n)
    (hm : PlainName m) (hne : n ≠ m) :
    ¬ CleanupPath home m (sshKeyLoc home n) := by
  rintro (h | h | h | h)
  · apply hne
    have h2 := (locEq home ('/' :: sshKeyRest n) ('/' :: sshKeyRest m)).mp h
    injection h2 with h3 h4
    exact sshKeyRest_inj h4
  · exact locOf_ne home (ne_of_last (sshKeyRest_last n) (sshPubRest_last m) (by decide)) h
  · exact locOf_ne home (ne_homePub_of_dotted hm (sshKeyRest_idx0 n)) h
  · exact locOf_ne home (ne_of_idx1 (sshKeyRest_idx1 n) (gitCfgRest_idx1 m) (by decide)) h

theorem pubLoc_not_cleanupPath {home n m : String} (hn : PlainName n)
    (hm : PlainName m) (hne : n ≠ m) :
    ¬ CleanupPath home m (sshPubLoc home n) := by
  rintro (h | h | h | h)
  · exact locOf_ne home (ne_of_last (sshPubRest_last n) (sshKeyRest_last m) (by decide)) h
  · apply hne
    have h2 := (locEq home ('/' :: sshPubRest n) ('/' :: sshPubRest m)).mp h
    injection h2 with h3 h4
    exact sshPubRest_inj h4
  · exact locOf_ne home (ne_homePub_of_dotted hm (sshPubRest_idx0 n)) h
  · exact locOf_ne home (ne_of_idx1 (sshPubRest_idx1 n) (gitCfgRest_idx1 m) (by decide)) h

theorem gitCfgLoc_not_cleanupPath {home n m : String} (hn : PlainName n)
    (hm : PlainName m) (hne : n ≠ m) :
    ¬ CleanupPath home m (gitCfgLoc home n) := by
  rintro (h | h | h | h)
  · exact locOf_ne home (ne_of_idx1 (gitCfgRest_idx1 n) (sshKeyRest_idx1 m) (by decide)) h
  · exact locOf_ne home (ne_of_idx1 (gitCfgRest_idx1 n) (sshPubRest_idx1 m) (by decide)) h
  · exact locOf_ne home (ne_homePub_of_dotted hm (gitCfgRest_idx0 n)) h
  · apply hne
    have h2 := (locEq home ('/' :: gitCfgRest n) ('/' :: gitCfgRest m)).mp h
    injection h2 with h3 h4
    exact gitCfgRest_inj h4

theorem backupPath_shape (env : Env) :
    (backupPathOf env).data = (backupDirOf env.home).data ++ "/git-orphans-".data ++
      ((toString env.now).data ++ ".tar.gz".data) := by
  simp [backupPathOf, backupDirOf, String.data_append, List.append_assoc]

theorem backupFiles_fs (env : Env) (files : List String) (fs : FS) (q : String)
    (hq : q ≠ backupPathOf env) :
    (backupFiles env files fs).1.lookup q = fs.lookup q := by
  unfold backupFiles
  by_cases hfe : files = []
  · rw [if_pos hfe]
  · rw [if_neg hfe]
    show (((fs.mkdir (backupDirOf env.home)).write
      (backupDirOf env.home ++ "/git-orphans-" ++ toString env.now ++ ".tar.gz") _ env.now)).lookup q = _
    rw [FS.lookup_write,
      show backupDirOf env.home ++ "/git-orphans-" ++ toString env.now ++ ".tar.gz" =
        backupPathOf env from rfl,
      if_neg hq, FS.lookup_mkdir]

theorem rotateBackups_pres_shape (dir : String) (keep : Nat) (fs : FS) (q : String)
    (hq : ∀ r, q.data ≠ dir.data ++ "/git-orphans-".data ++ r) :
    (rotateBackups (fun _ => true) dir keep fs).1.lookup q = fs.lookup q := by
  by_cases h : (globBackups dir fs).length ≤ keep
  · simp [rotateBackups, h]
  · simp only [rotateBackups, if_neg h]
    obtain ⟨_, _, h3⟩ := deleteBackups_all_ok (fun _ => true) fs
      ((sortByMtimeDesc fs (globBackups dir fs)).drop keep) (fun p _ => rfl)
    rw [h3 q, if_neg ?_]
    intro hmem
    have h4 : q ∈ sortByMtimeDesc fs (globBackups dir fs) := List.drop_subset _ _ hmem
    rw [mem_sortByMtimeDesc] at h4
    obtain ⟨r, hr⟩ := globBackups_shape h4
    exact hq r hr

theorem orphanPhase_destruct (env : Env) (orphans : List String) (w0 : World)
    (hne : orphans ≠ []) :
    ∃ w', orphanPhase env orphans w0 = orphans.foldl (fun acc o =>
        let w2 := cleanupIdentity env o acc.1
        let w2 := { w2 with state := eraseKey w2.state o }
        (w2, acc.2 ++ [o])) (w', []) ∧
      w'.state = w0.state ∧
      (∃ t, w'.log = w0.log ++ t ∧ ∀ m, Event.keygen m ∉ t) ∧
      (∀ q, (∀ r, q.data ≠ (backupDirOf env.home).data ++ "/git-orphans-".data ++ r) →
        w'.fs.lookup q = w0.fs.lookup q) := by
  by_cases hft : collectBackupFiles env orphans w0.fs = []
  · refine ⟨w0, ?_, rfl, ⟨[], by simp, by simp⟩, fun q _ => rfl⟩
    simp only [orphanPhase, if_neg hne, if_pos hft]
  · rcases hbf : backupFiles env (collectBackupFiles env orphans w0.fs) w0.fs
      with ⟨fs2, path, ok⟩
    have hfs2 : ∀ q, q ≠ backupPathOf env → fs2.lookup q = w0.fs.lookup q := by
      intro q hq
      have := backupFiles_fs env (collectBackupFiles env orphans w0.fs) w0.fs q hq
      rw [hbf] at this
      exact this
    have hqbp : ∀ q, (∀ r, q.data ≠ (backupDirOf env.home).data ++
        "/git-orphans-".data ++ r) → q ≠ backupPathOf env := by
      intro q hq he
      exact hq ((toString env.now).data ++ ".tar.gz".data) (by rw [he]; exact backupPath_shape env)
    cases ok
    · refine ⟨{ w0 with fs := fs2 }, ?_, rfl, ⟨[], by simp, by simp⟩, ?_⟩
      · simp only [orphanPhase, if_neg hne, if_neg hft, hbf, Bool.false_eq_true, if_false]
      · intro q hq
        exact hfs2 q (hqbp q hq)
    · rcases hrot : rotateBackups (fun _ => true) (backupDirOf env.home) 10 fs2
        with ⟨fs3, att, er⟩
      refine ⟨⟨fs3, w0.state, w0.stateLast,
          w0.log ++ [Event.backup path (collectBackupFiles env orphans w0.fs)]⟩,
        ?_, rfl, ⟨[Event.backup path (collectBackupFiles env orphans w0.fs)], by simp,
          by simp⟩, ?_⟩
      · simp only [orphanPhase, if_neg hne, if_neg hft, hbf, hrot, if_pos]
      · intro q hq
        have h1 := rotateBackups_pres_shape (backupDirOf env.home) 10 fs2 q
          (fun r => hq r)
        rw [hrot] at h1
        show fs3.lookup q = _
        rw [h1]
        exact hfs2 q (hqbp q hq)

theorem globalPhase_fs (env : Env) (config : Config) (w : World) (q : String)
    (h1 : q ≠ env.home ++ "/.gitconfig") (h2 : q ≠ env.home ++ "/.ssh/config")
    (h3 : q ≠ env.home ++ "/.ssh/allowed_signers") :
    (globalPhase env config w).fs.lookup q = w.fs.lookup q := by
  unfold globalPhase
  rw [FS.lookup_write, if_neg h3, FS.lookup_write, if_neg h2, FS.lookup_write, if_neg h1]

theorem statePhase_fs (env : Env) (config : Config) (w : World) :
    (statePhase env config w).fs = w.fs := rfl

theorem stateFold_pres (env : Env) (l : List (String × Identity))
    (st : List (String × IdState)) (N : String) (fsx : FS)
    (hN : ∀ e ∈ l, ¬ e.2.name = N) :
    lookupKey (l.foldl (fun st e =>
      insertReplace st e.2.name ⟨env.now, getSSHKeyFingerprint fsx e.2⟩) st) N =
    lookupKey st N := by
  induction l generalizing st with
  | nil => rfl
  | cons e rest ih =>
    simp only [List.foldl_cons]
    rw [ih _ (fun x hx => hN x (by simp [hx]))]
    rw [lookupKey_insertReplace, if_neg (fun h => hN e (by simp) h.symm)]

theorem statePhase_state (env : Env) (config : Config) (w : World) (N : String)
    (hN : ∀ e ∈ config.identities, ¬ e.2.name = N) :
    lookupKey (statePhase env config w).state N = lookupKey w.state N := by
  unfold statePhase
  exact stateFold_pres env config.identities w.state N w.fs hN

/-! ## C4: no regeneration for identities whose keys already exist -/

theorem globalGitRest_idx1 : globalGitRest[1]? = some 'g' := by decide

theorem detectOrphans_not_hasIdentity {home : String} {config : Config} {fs : FS}
    {o : String} (h : o ∈ detectOrphans home config fs) :
    config.hasIdentity o = false := by
  simp only [detectOrphans] at h
  rw [orphanLoop1_eq config _ []] at h
  rcases (orphanLoop2_mem config _ _ o).mp h with hacc | ⟨_, hfalse⟩
  · simp only [List.nil_append, List.mem_filter] at hacc
    simpa using hacc.2
  · exact hfalse

theorem loc_ne_archive {rest : List Char} (h1 : rest[1]? ≠ some 'c') (home : String)
    (r : List Char) :
    (locOf home rest).data ≠ (backupDirOf home).data ++ "/git-orphans-".data ++ r := by
  have harch : (backupDirOf home).data ++ "/git-orphans-".data ++ r =
      home.data ++ '/' :: (".config/zzk/backups".data ++ ("/git-orphans-".data ++ r)) := by
    show (home ++ "/.config/zzk/backups").data ++ "/git-orphans-".data ++ r = _
    simp only [String.data_append, List.append_assoc,
      show "/.config/zzk/backups".data = '/' :: ".config/zzk/backups".data from rfl,
      List.cons_append]
  rw [harch]
  intro h
  have h0 : home.data ++ '/' :: rest =
      home.data ++ '/' :: (".config/zzk/backups".data ++ ("/git-orphans-".data ++ r)) := h
  have h2 := List.append_cancel_left h0
  injection h2 with h2a h2b
  apply h1
  rw [h2b, List.getElem?_append_left (by decide : 1 < (".config/zzk/backups".data).length)]
  decide

theorem processIdentity_log_keys (env : Env) (w : World) (res : SyncResult)
    (i : Identity) :
    ∃ t, (processIdentity env (w, res) i).1.log = w.log ++ t ∧
      ∀ m, Event.keygen m ∈ t → m = i.name := by
  by_cases hk : sshKeyExists env (processFolders env i w).fs i
  · refine ⟨[], ?_, by simp⟩
    simp only [processIdentity, if_pos hk]
    rw [createIdentityGitConfig_log, processFolders_log]
    simp
  · rcases hg : env.keygen i.name with _ | ⟨priv, pub⟩
    · have hGen : generateSSHKey env i (processFolders env i w) =
          ({ processFolders env i w with
              fs := (((processFolders env i w).fs.remove
                (expandPath env.home (sshKeyPathOf i))).remove
                  (expandPath env.home (sshPubKeyPathOf i))).mkdir
                    (dirName (expandPath env.home (sshKeyPathOf i)))
              log := (processFolders env i w).log ++
                [.fremove (expandPath env.home (sshKeyPathOf i)),
                 .fremove (expandPath env.home (sshPubKeyPathOf i)), .keygen i.name] },
            false) := by
        simp [generateSSHKey, hg]
      refine ⟨[.fremove (expandPath env.home (sshKeyPathOf i)),
        .fremove (expandPath env.home (sshPubKeyPathOf i)), .keygen i.name], ?_, ?_⟩
      · simp [processIdentity, if_neg hk, hGen, processFolders_log]
      · intro m hm
        simp only [List.mem_cons, List.not_mem_nil, or_false] at hm
        rcases hm with h | h | h
        · exact absurd h (by simp)
        · exact absurd h (by simp)
        · injection h
    · have hGen : generateSSHKey env i (processFolders env i w) =
          ({ processFolders env i w with
              fs := (((((processFolders env i w).fs.remove
                (expandPath env.home (sshKeyPathOf i))).remove
                  (expandPath env.home (sshPubKeyPathOf i))).mkdir
                    (dirName (expandPath env.home (sshKeyPathOf i)))).write
                      (expandPath env.home (sshKeyPathOf i)) (.text priv) env.now).write
                        (expandPath env.home (sshPubKeyPathOf i)) (.text pub) env.now
              log := (processFolders env i w).log ++
                [.fremove (expandPath env.home (sshKeyPathOf i)),
                 .fremove (expandPath env.home (sshPubKeyPathOf i)), .keygen i.name] },
            true) := by
        simp [generateSSHKey, hg]
      refine ⟨[.fremove (expandPath env.home (sshKeyPathOf i)),
        .fremove (expandPath env.home (sshPubKeyPathOf i)), .keygen i.name], ?_, ?_⟩
      · simp [processIdentity, if_neg hk, hGen, createIdentityGitConfig_log,
          copyPublicKeyToHome_log, processFolders_log]
      · intro m hm
        simp only [List.mem_cons, List.not_mem_nil, or_false] at hm
        rcases hm with h | h | h
        · exact absurd h (by simp)
        · exact absurd h (by simp)
        · injection h

theorem processIdentity_created (env : Env) (w : World) (res : SyncResult)
    (i : Identity) :
    (processIdentity env (w, res) i).2.created = res.created ∨
    (sshKeyExists env (processFolders env i w).fs i = false ∧
     (processIdentity env (w, res) i).2.created = res.created ++ [i.name]) := by
  by_cases hk : sshKeyExists env (processFolders env i w).fs i
  · left
    simp only [processIdentity, if_pos hk]
    split <;> rfl
  · have hkf : sshKeyExists env (processFolders env i w).fs i = false := by
      simpa using hk
    rcases hg : generateSSHKey env i (processFolders env i w) with ⟨wg, ok⟩
    cases ok
    · left
      simp only [processIdentity, if_neg hk, hg, Bool.not_false, if_true]
    · right
      refine ⟨hkf, ?_⟩
      simp only [processIdentity, if_neg hk, hg, Bool.not_true, Bool.false_eq_true,
        if_false]
      split <;> rfl

theorem processIdentity_keep (env : Env) (w : World) (res : SyncResult) (i : Identity)
    (N : String) (hh : NicePath env.home) (hN : PlainName N) (hpi : PlainName i.name)
    (hex1 : (w.fs.lookup (sshKeyLoc env.home N)).isSome = true)
    (hex2 : (w.fs.lookup (sshPubLoc env.home N)).isSome = true) :
    (processIdentity env (w, res) i).1.fs.lookup (sshKeyLoc env.home N) =
      w.fs.lookup (sshKeyLoc env.home N) ∧
    (processIdentity env (w, res) i).1.fs.lookup (sshPubLoc env.home N) =
      w.fs.lookup (sshPubLoc env.home N) ∧
    (∃ t, (processIdentity env (w, res) i).1.log = w.log ++ t ∧ Event.keygen N ∉ t) ∧
    (N ∉ res.created → N ∉ (processIdentity env (w, res) i).2.created) := by
  by_cases heq : i.name = N
  · have hk : sshKeyExists env (processFolders env i w).fs i = true := by
      rw [sshKeyExists_eq env _ i hh hpi, heq,
        processFolders_fs env i w (sshKeyLoc env.home N),
        processFolders_fs env i w (sshPubLoc env.home N), hex1, hex2]
      rfl
    have hg4 : sshKeyLoc env.home N ≠ expandPath env.home (gitConfigPathOf i) := by
      rw [expandPath_gitCfg env.home i hh hpi, heq]
      exact locOf_ne env.home (ne_of_idx1 (sshKeyRest_idx1 N) (gitCfgRest_idx1 N) (by decide))
    have hg4p : sshPubLoc env.home N ≠ expandPath env.home (gitConfigPathOf i) := by
      rw [expandPath_gitCfg env.home i hh hpi, heq]
      exact locOf_ne env.home (ne_of_idx1 (sshPubRest_idx1 N) (gitCfgRest_idx1 N) (by decide))
    have h1 : (processIdentity env (w, res) i).1.fs.lookup (sshKeyLoc env.home N) =
        w.fs.lookup (sshKeyLoc env.home N) := by
      simp only [processIdentity, if_pos hk]
      show (createIdentityGitConfig env i (processFolders env i w)).fs.lookup _ = _
      rw [createIdentityGitConfig_fs, if_neg hg4, processFolders_fs]
    have h2 : (processIdentity env (w, res) i).1.fs.lookup (sshPubLoc env.home N) =
        w.fs.lookup (sshPubLoc env.home N) := by
      simp only [processIdentity, if_pos hk]
      show (createIdentityGitConfig env i (processFolders env i w)).fs.lookup _ = _
      rw [createIdentityGitConfig_fs, if_neg hg4p, processFolders_fs]
    have h3 : (processIdentity env (w, res) i).1.log = w.log := by
      simp only [processIdentity, if_pos hk]
      show (createIdentityGitConfig env i (processFolders env i w)).log = _
      rw [createIdentityGitConfig_log, processFolders_log]
    have h4 : (processIdentity env (w, res) i).2.created = res.created := by
      rcases processIdentity_created env w res i with hcr | ⟨hkf, _⟩
      · exact hcr
      · rw [hk] at hkf
        exact absurd hkf (by simp)
    refine ⟨h1, h2, ⟨[], by rw [h3]; simp, by simp⟩, ?_⟩
    intro hnc
    rw [h4]
    exact hnc
  · have hNe : N ≠ i.name := fun h => heq h.symm
    have hcp1 : ¬ CleanupPath env.home i.name (sshKeyLoc env.home N) :=
      keyLoc_not_cleanupPath hN hpi hNe
    have hcp2 : ¬ CleanupPath env.home i.name (sshPubLoc env.home N) :=
      pubLoc_not_cleanupPath hN hpi hNe
    refine ⟨?_, ?_, ?_, ?_⟩
    · exact processIdentity_fs env w res i _ hh hpi (fun h => hcp1 (Or.inl h))
        (fun h => hcp1 (Or.inr (Or.inl h))) (fun h => hcp1 (Or.inr (Or.inr (Or.inl h))))
        (fun h => hcp1 (Or.inr (Or.inr (Or.inr h))))
    · exact processIdentity_fs env w res i _ hh hpi (fun h => hcp2 (Or.inl h))
        (fun h => hcp2 (Or.inr (Or.inl h))) (fun h => hcp2 (Or.inr (Or.inr (Or.inl h))))
        (fun h => hcp2 (Or.inr (Or.inr (Or.inr h))))
    · obtain ⟨t, ht, him⟩ := processIdentity_log_keys env w res i
      exact ⟨t, ht, fun hm => heq (him N hm).symm⟩
    · intro hnc
      rcases processIdentity_created env w res i with hcr | ⟨_, hcr⟩
      · rw [hcr]
        exact hnc
      · rw [hcr]
        intro hmem
        rcases List.mem_append.mp hmem with h | h
        · exact hnc h
        · exact hNe (List.mem_singleton.mp h)

theorem processLoop_keep (env : Env) (l : List (String × Identity)) (w : World)
    (res : SyncResult) (N : String) (hh : NicePath env.home) (hN : PlainName N)
    (hpl : ∀ e ∈ l, PlainName e.2.name)
    (hex1 : (w.fs.lookup (sshKeyLoc env.home N)).isSome = true)
    (hex2 : (w.fs.lookup (sshPubLoc env.home N)).isSome = true) :
    (l.foldl (fun acc e => processIdentity env acc e.2) (w, res)).1.fs.lookup
        (sshKeyLoc env.home N) = w.fs.lookup (sshKeyLoc env.home N) ∧
    (l.foldl (fun acc e => processIdentity env acc e.2) (w, res)).1.fs.lookup
        (sshPubLoc env.home N) = w.fs.lookup (sshPubLoc env.home N) ∧
    (∃ t, (l.foldl (fun acc e => processIdentity env acc e.2) (w, res)).1.log =
      w.log ++ t ∧ Event.keygen N ∉ t) ∧
    (N ∉ res.created →
      N ∉ (l.foldl (fun acc e => processIdentity env acc e.2) (w, res)).2.created) := by
  revert hpl hex1 hex2
  induction l generalizing w res with
  | nil =>
    intro hpl hex1 hex2
    exact ⟨rfl, rfl, ⟨[], by simp, by simp⟩, fun h => h⟩
  | cons e rest ih =>
    intro hpl hex1 hex2
    rcases hp : processIdentity env (w, res) e.2 with ⟨w1, res1⟩
    obtain ⟨s1, s2, ⟨t1, ht1, hk1⟩, s4⟩ :=
      processIdentity_keep env w res e.2 N hh hN (hpl e (by simp)) hex1 hex2
    rw [hp] at s1 s2 ht1 s4
    obtain ⟨r1, r2, ⟨t2, ht2, hk2⟩, r4⟩ := ih w1 res1 (fun x hx => hpl x (by simp [hx]))
      (by rw [s1]; exact hex1) (by rw [s2]; exact hex2)
    refine ⟨?_, ?_, ⟨t1 ++ t2, ?_, ?_⟩, ?_⟩
    · simp only [List.foldl_cons, hp]
      rw [r1, s1]
    · simp only [List.foldl_cons, hp]
      rw [r2, s2]
    · simp only [List.foldl_cons, hp]
      rw [ht2, ht1, List.append_assoc]
    · intro hm
      rcases List.mem_append.mp hm with h | h
      · exact hk1 h
      · exact hk2 h
    · intro hnc
      simp only [List.foldl_cons, hp]
      exact r4 (s4 hnc)

theorem orphanPhase_keep (env : Env) (orphans : List String) (w0 : World) (q : String)
    (hh : NicePath env.home) (horph : ∀ o ∈ orphans, PlainName o)
    (hcp : ∀ o ∈ orphans, ¬ CleanupPath env.home o q)
    (hsh : ∀ r, q.data ≠ (backupDirOf env.home).data ++ "/git-orphans-".data ++ r) :
    (orphanPhase env orphans w0).1.fs.lookup q = w0.fs.lookup q := by
  by_cases hne : orphans = []
  · subst hne
    simp [orphanPhase]
  · obtain ⟨w', heq, _, _, hfs⟩ := orphanPhase_destruct env orphans w0 hne
    rw [heq, cleanupLoop_fs env orphans w' [] q hh horph,
      if_neg (by rintro ⟨o, ho, hcpo⟩; exact hcp o ho hcpo), hfs q hsh]

theorem orphanPhase_log_free (env : Env) (orphans : List String) (w0 : World) :
    ∃ t, (orphanPhase env orphans w0).1.log = w0.log ++ t ∧
      ∀ m, Event.keygen m ∉ t := by
  by_cases hne : orphans = []
  · subst hne
    exact ⟨[], by simp [orphanPhase], by simp⟩
  · obtain ⟨w', heq, _, ⟨t0, ht0, hk0⟩, _⟩ := orphanPhase_destruct env orphans w0 hne
    obtain ⟨t1, ht1, hall⟩ := cleanupLoop_log env orphans w' []
    refine ⟨t0 ++ t1, ?_, ?_⟩
    · rw [heq, ht1, ht0, List.append_assoc]
    · intro m hm
      rcases List.mem_append.mp hm with h | h
      · exact hk0 m h
      · obtain ⟨p, hp⟩ := hall _ h
        simp at hp

/-- C4.  An identity whose private and public SSH key files both already
exist on disk is never regenerated by `Sync`: under a well-formed home
directory, plain identity and orphan names, and the map-key/`name`
agreement `LoadConfig` establishes, the run emits no key-generation event
for that identity, both key files (contents and timestamps) are exactly as
before the run, and the identity does not appear in the result's `Created`
list. -/
theorem sync_no_regen (env : Env) (config : Config) (w0 : World) (n : String)
    (i : Identity) (hh : NicePath env.home)
    (hkeys : ∀ e ∈ config.identities, e.1 = e.2.name)
    (hplain : ∀ e ∈ config.identities, PlainName e.2.name)
    (horph : ∀ o ∈ detectOrphans env.home config w0.fs, PlainName o)
    (hmem : (n, i) ∈ config.identities)
    (hex1 : (w0.fs.lookup (sshKeyLoc env.home i.name)).isSome = true)
    (hex2 : (w0.fs.lookup (sshPubLoc env.home i.name)).isSome = true) :
    (sync env config w0).1.fs.lookup (sshKeyLoc env.home i.name) =
      w0.fs.lookup (sshKeyLoc env.home i.name) ∧
    (sync env config w0).1.fs.lookup (sshPubLoc env.home i.name) =
      w0.fs.lookup (sshPubLoc env.home i.name) ∧
    i.name ∉ (sync env config w0).2.created ∧
    (∃ t, (sync env config w0).1.log = w0.log ++ t ∧ Event.keygen i.name ∉ t) := by
  have hni : n = i.name := hkeys (n, i) hmem
  have hN : PlainName i.name := hplain (n, i) hmem
  have hhas : config.hasIdentity i.name = true := by
    unfold Config.hasIdentity
    rw [List.any_eq_true]
    exact ⟨(n, i), hmem, by simp [hni]⟩
  have hneq : ∀ o ∈ detectOrphans env.home config w0.fs, i.name ≠ o := by
    intro o ho he
    have hf := detectOrphans_not_hasIdentity ho
    rw [← he, hhas] at hf
    exact absurd hf (by simp)
  have hcp1 : ∀ o ∈ detectOrphans env.home config w0.fs,
      ¬ CleanupPath env.home o (sshKeyLoc env.home i.name) :=
    fun o ho => keyLoc_not_cleanupPath hN (horph o ho) (hneq o ho)
  have hcp2 : ∀ o ∈ detectOrphans env.home config w0.fs,
      ¬ CleanupPath env.home o (sshPubLoc env.home i.name) :=
    fun o ho => pubLoc_not_cleanupPath hN (horph o ho) (hneq o ho)
  have hsh1 : ∀ r, (sshKeyLoc env.home i.name).data ≠
      (backupDirOf env.home).data ++ "/git-orphans-".data ++ r :=
    loc_ne_archive (by rw [sshKeyRest_idx1]; decide) env.home
  have hsh2 : ∀ r, (sshPubLoc env.home i.name).data ≠
      (backupDirOf env.home).data ++ "/git-orphans-".data ++ r :=
    loc_ne_archive (by rw [sshPubRest_idx1]; decide) env.home
  rcases hop : orphanPhase env (detectOrphans env.home config w0.fs) w0 with ⟨w1, removed⟩
  have hofs1 : w1.fs.lookup (sshKeyLoc env.home i.name) =
      w0.fs.lookup (sshKeyLoc env.home i.name) := by
    have h := orphanPhase_keep env _ w0 _ hh horph hcp1 hsh1
    rw [hop] at h
    exact h
  have hofs2 : w1.fs.lookup (sshPubLoc env.home i.name) =
      w0.fs.lookup (sshPubLoc env.home i.name) := by
    have h := orphanPhase_keep env _ w0 _ hh horph hcp2 hsh2
    rw [hop] at h
    exact h
  have holog : ∃ t, w1.log = w0.log ++ t ∧ ∀ m, Event.keygen m ∉ t := by
    have h := orphanPhase_log_free env (detectOrphans env.home config w0.fs) w0
    rw [hop] at h
    exact h
  rcases hfold : config.identities.foldl (fun acc e => processIdentity env acc e.2)
      (w1, (⟨removed, [], [], [], []⟩ : SyncResult)) with ⟨w2, res⟩
  obtain ⟨hl1, hl2, ⟨t2, ht2, hk2⟩, hlc⟩ := processLoop_keep env config.identities w1
    (⟨removed, [], [], [], []⟩ : SyncResult) i.name hh hN hplain
    (by rw [hofs1]; exact hex1) (by rw [hofs2]; exact hex2)
  rw [hfold] at hl1 hl2 ht2 hlc
  have hg1 : sshKeyLoc env.home i.name ≠ env.home ++ "/.gitconfig" := by
    rw [globalGit_norm]
    exact locOf_ne env.home (ne_of_idx1 (sshKeyRest_idx1 i.name) globalGitRest_idx1 (by decide))
  have hg2 : sshKeyLoc env.home i.name ≠ env.home ++ "/.ssh/config" := by
    rw [sshCfg_norm]
    exact locOf_ne env.home (ne_of_last (sshKeyRest_last i.name) sshCfgRest_last (by decide))
  have hg3 : sshKeyLoc env.home i.name ≠ env.home ++ "/.ssh/allowed_signers" := by
    rw [signers_norm]
    exact locOf_ne env.home (ne_of_last (sshKeyRest_last i.name) signersRest_last (by decide))
  have hp1 : sshPubLoc env.home i.name ≠ env.home ++ "/.gitconfig" := by
    rw [globalGit_norm]
    exact locOf_ne env.home (ne_of_idx1 (sshPubRest_idx1 i.name) globalGitRest_idx1 (by decide))
  have hp2 : sshPubLoc env.home i.name ≠ env.home ++ "/.ssh/config" := by
    rw [sshCfg_norm]
    exact locOf_ne env.home (ne_of_last (sshPubRest_last i.name) sshCfgRest_last (by decide))
  have hp3 : sshPubLoc env.home i.name ≠ env.home ++ "/.ssh/allowed_signers" := by
    rw [signers_norm]
    exact locOf_ne env.home (ne_of_last (sshPubRest_last i.name) signersRest_last (by decide))
  obtain ⟨t1, ht1, hk1t⟩ := holog
  refine ⟨?_, ?_, ?_, ⟨t1 ++ t2, ?_, ?_⟩⟩
  · simp only [sync, hop, hfold]
    show (statePhase env config (globalPhase env config w2)).fs.lookup _ = _
    rw [statePhase_fs, globalPhase_fs env config w2 _ hg1 hg2 hg3, hl1, hofs1]
  · simp only [sync, hop, hfold]
    show (statePhase env config (globalPhase env config w2)).fs.lookup _ = _
    rw [statePhase_fs, globalPhase_fs env config w2 _ hp1 hp2 hp3, hl2, hofs2]
  · simp only [sync, hop, hfold]
    show i.name ∉ res.created
    exact hlc (by simp)
  · simp only [sync, hop, hfold]
    show (statePhase env config (globalPhase env config w2)).log = _
    rw [statePhase_log, globalPhase_log, ht2, ht1, List.append_assoc]
  · intro hm
    rcases List.mem_append.mp hm with h | h
    · exact hk1t i.name h
    · exact hk2 h

theorem sync_no_regen_witness :
    (sync envA cfgA wKeys).1.fs.lookup (sshKeyLoc envA.home idA.name) =
      wKeys.fs.lookup (sshKeyLoc envA.home idA.name) ∧
    (sync envA cfgA wKeys).1.fs.lookup (sshPubLoc envA.home idA.name) =
      wKeys.fs.lookup (sshPubLoc envA.home idA.name) ∧
    idA.name ∉ (sync envA cfgA wKeys).2.created ∧
    (∃ t, (sync envA cfgA wKeys).1.log = wKeys.log ++ t ∧
      Event.keygen idA.name ∉ t) :=
  sync_no_regen envA cfgA wKeys "a" idA ⟨['h'], rfl, by decide⟩ (by decide) (by decide)
    (by decide) (by decide) (by decide) (by decide)

/-! ## C7: orphan cleanup completeness -/

theorem sshCfgRest_idx1 : sshCfgRest[1]? = some 's' := by decide

theorem signersRest_idx1 : signersRest[1]? = some 's' := by decide

theorem FS.files_mkdir (fs : FS) (p : String) : (fs.mkdir p).files = fs.files := by
  unfold FS.mkdir
  split <;> rfl

theorem detectOrphans_complete {home : String} {config : Config} {fs : FS} {N : String}
    (h1 : N ∈ (findZZKManagedKeys home fs).map Prod.fst ∨
      N ∈ (findZZKManagedGitConfigs home fs).map Prod.fst)
    (h2 : config.hasIdentity N = false) :
    N ∈ detectOrphans home config fs := by
  simp only [detectOrphans]
  rw [orphanLoop1_eq config _ [], orphanLoop2_mem]
  rcases h1 with h | h
  · left
    simp only [List.nil_append, List.mem_filter]
    exact ⟨h, by simp [h2]⟩
  · right
    exact ⟨h, h2⟩

theorem length_insertSorted (x : String) (l : List String) :
    (insertSorted x l).length = l.length + 1 := by
  induction l with
  | nil => rfl
  | cons y ys ih =>
    simp only [insertSorted]
    split
    · simp
    · simp [ih]

theorem length_sortStrings (l : List String) : (sortStrings l).length = l.length := by
  unfold sortStrings
  induction l with
  | nil => rfl
  | cons x xs ih => simp [List.foldr_cons, length_insertSorted, ih]

theorem sortStrings_filterMap_write_le (g : String × FileEntry → Option String)
    (files : List (String × FileEntry)) (q : String) (e : FileEntry)
    (h : (files.filterMap g).length = 0) :
    (((q, e) :: files.filter (fun x => !(x.1 == q))).filterMap g).length ≤ 1 := by
  have hs : ((files.filter (fun x => !(x.1 == q))).filterMap g).length ≤
      (files.filterMap g).length :=
    List.Sublist.length_le (List.Sublist.filterMap g (List.filter_sublist files))
  rw [List.filterMap_cons]
  rcases hgq : g (q, e) with _ | y
  · simp only [hgq]
    omega
  · simp only [hgq, List.length_cons]
    omega

theorem globBackups_write_le (dir : String) (fs : FS) (q : String) (d : FileData)
    (t : Nat) (h : globBackups dir fs = []) :
    (globBackups dir ((fs.mkdir dir).write q d t)).length ≤ 1 := by
  unfold globBackups at h ⊢
  rw [length_sortStrings]
  rw [show (((fs.mkdir dir).write q d t)).files =
    (q, (⟨d, t⟩ : FileEntry)) :: (fs.mkdir dir).files.filter (fun x => !(x.1 == q)) from rfl,
    FS.files_mkdir]
  refine sortStrings_filterMap_write_le _ _ _ _ ?_
  have hl := congrArg List.length h
  rw [length_sortStrings] at hl
  simpa using hl

theorem rotateBackups_noop (dir : String) (keep : Nat) (fs : FS)
    (h : (globBackups dir fs).length ≤ keep) :
    rotateBackups (fun _ => true) dir keep fs = (fs, [], none) := by
  simp only [rotateBackups]
  rw [if_pos h]

theorem archive_not_cleanupPath {home m : String} (ts : String) (hm : PlainName m) :
    ¬ CleanupPath home m (locOf home (archiveRest ts)) := by
  rintro (h | h | h | h)
  · exact locOf_ne home (ne_of_idx1 (archiveRest_idx1 ts) (sshKeyRest_idx1 m) (by decide)) h
  · exact locOf_ne home (ne_of_idx1 (archiveRest_idx1 ts) (sshPubRest_idx1 m) (by decide)) h
  · exact locOf_ne home (ne_homePub_of_dotted hm (archiveRest_idx0 ts)) h
  · exact locOf_ne home (ne_of_idx1 (archiveRest_idx1 ts) (gitCfgRest_idx1 m) (by decide)) h

theorem orphanPhase_removes (env : Env) (orphans : List String) (w0 : World)
    (q N : String) (hh : NicePath env.home) (horph : ∀ o ∈ orphans, PlainName o)
    (hN : N ∈ orphans) (hcp : CleanupPath env.home N q) :
    (orphanPhase env orphans w0).1.fs.lookup q = none := by
  have hne : orphans ≠ [] := by
    rintro rfl
    exact absurd hN (List.not_mem_nil N)
  obtain ⟨w', heq, _, _, _⟩ := orphanPhase_destruct env orphans w0 hne
  rw [heq, cleanupLoop_fs env orphans w' [] q hh horph, if_pos ⟨N, hN, hcp⟩]

theorem orphanPhase_state_of_mem (env : Env) (orphans : List String) (w0 : World)
    (N : String) (hN : N ∈ orphans) :
    lookupKey (orphanPhase env orphans w0).1.state N = none := by
  have hne : orphans ≠ [] := by
    rintro rfl
    exact absurd hN (List.not_mem_nil N)
  obtain ⟨w', heq, _, _, _⟩ := orphanPhase_destruct env orphans w0 hne
  rw [heq, cleanupLoop_state env orphans w' [] N, if_pos hN]

theorem orphanPhase_archive (env : Env) (orphans : List String) (w0 : World)
    (hh : NicePath env.home) (horph : ∀ o ∈ orphans, PlainName o)
    (hne : orphans ≠ [])
    (hfts : collectBackupFiles env orphans w0.fs ≠ [])
    (hread : ∀ f ∈ collectBackupFiles env orphans w0.fs, (w0.fs.read f).isSome = true)
    (hclean : globBackups (backupDirOf env.home) w0.fs = []) :
    (orphanPhase env orphans w0).1.fs.lookup (backupPathOf env) =
      some ⟨.archive ((collectBackupFiles env orphans w0.fs).map
        (fun f => (baseName f, ((w0.fs.read f).getD (.text "")).bytes))), env.now⟩ := by
  have hB := backupFiles_spec env _ w0.fs hfts hread
  have hgl : (globBackups (backupDirOf env.home)
      ((w0.fs.mkdir (backupDirOf env.home)).write (backupPathOf env)
        (.archive ((collectBackupFiles env orphans w0.fs).map
          (fun f => (baseName f, ((w0.fs.read f).getD (.text "")).bytes)))) env.now)).length
      ≤ 10 :=
    le_trans (globBackups_write_le (backupDirOf env.home) w0.fs _ _ _ hclean) (by norm_num)
  have hrot := rotateBackups_noop (backupDirOf env.home) 10
    ((w0.fs.mkdir (backupDirOf env.home)).write (backupPathOf env)
      (.archive ((collectBackupFiles env orphans w0.fs).map
        (fun f => (baseName f, ((w0.fs.read f).getD (.text "")).bytes)))) env.now) hgl
  simp only [orphanPhase, if_neg hne, if_neg hfts, hB, hrot]
  rw [cleanupLoop_fs env orphans _ [] (backupPathOf env) hh horph,
    if_neg ?hno]
  case hno =>
    rintro ⟨o, ho, hcp⟩
    rw [backupPath_norm] at hcp
    exact archive_not_cleanupPath _ (horph o ho) hcp
  show ((w0.fs.mkdir (backupDirOf env.home)).write (backupPathOf env)
    (.archive ((collectBackupFiles env orphans w0.fs).map
      (fun f => (baseName f, ((w0.fs.read f).getD (.text "")).bytes)))) env.now).lookup
    (backupPathOf env) = _
  rw [FS.lookup_write, if_pos rfl]

theorem collectLoop_mono (env : Env) (fs : FS) (l : List String) (acc : List String)
    (x : String) (hx : x ∈ acc) :
    x ∈ l.foldl (fun acc orphan =>
      let keyPath := join3 env.home ".ssh" (orphan ++ "_key")
      let pubKeyPath := keyPath ++ ".pub"
      let configPath := joinPath env.home (".gitconfig-" ++ orphan)
      let acc := if fs.statOk keyPath then acc ++ [keyPath] else acc
      let acc := if fs.statOk pubKeyPath then acc ++ [pubKeyPath] else acc
      if fs.statOk configPath then acc ++ [configPath] else acc) acc := by
  induction l generalizing acc with
  | nil => exact hx
  | cons o rest ih =>
    simp only [List.foldl_cons]
    apply ih
    dsimp only
    split_ifs <;> simp [hx]

theorem collectLoop_mem (env : Env) (fs : FS) (l : List String) (acc : List String)
    (N : String) (hN : N ∈ l) :
    (fs.statOk (join3 env.home ".ssh" (N ++ "_key")) = true →
      join3 env.home ".ssh" (N ++ "_key") ∈ l.foldl (fun acc orphan =>
        let keyPath := join3 env.home ".ssh" (orphan ++ "_key")
        let pubKeyPath := keyPath ++ ".pub"
        let configPath := joinPath env.home (".gitconfig-" ++ orphan)
        let acc := if fs.statOk keyPath then acc ++ [keyPath] else acc
        let acc := if fs.statOk pubKeyPath then acc ++ [pubKeyPath] else acc
        if fs.statOk configPath then acc ++ [configPath] else acc) acc) ∧
    (fs.statOk (join3 env.home ".ssh" (N ++ "_key") ++ ".pub") = true →
      join3 env.home ".ssh" (N ++ "_key") ++ ".pub" ∈ l.foldl (fun acc orphan =>
        let keyPath := join3 env.home ".ssh" (orphan ++ "_key")
        let pubKeyPath := keyPath ++ ".pub"
        let configPath := joinPath env.home (".gitconfig-" ++ orphan)
        let acc := if fs.statOk keyPath then acc ++ [keyPath] else acc
        let acc := if fs.statOk pubKeyPath then acc ++ [pubKeyPath] else acc
        if fs.statOk configPath then acc ++ [configPath] else acc) acc) ∧
    (fs.statOk (joinPath env.home (".gitconfig-" ++ N)) = true →
      joinPath env.home (".gitconfig-" ++ N) ∈ l.foldl (fun acc orphan =>
        let keyPath := join3 env.home ".ssh" (orphan ++ "_key")
        let pubKeyPath := keyPath ++ ".pub"
        let configPath := joinPath env.home (".gitconfig-" ++ orphan)
        let acc := if fs.statOk keyPath then acc ++ [keyPath] else acc
        let acc := if fs.statOk pubKeyPath then acc ++ [pubKeyPath] else acc
        if fs.statOk configPath then acc ++ [configPath] else acc) acc) := by
  revert hN
  induction l generalizing acc with
  | nil =>
    intro hN
    cases hN
  | cons o rest ih =>
    intro hN
    rcases List.mem_cons.mp hN with heq | hN2
    · subst heq
      refine ⟨?_, ?_, ?_⟩ <;> intro hst <;>
        simp only [List.foldl_cons] <;> apply collectLoop_mono <;> dsimp only <;>
        split_ifs <;> simp_all
    · obtain ⟨g1, g2, g3⟩ := ih acc hN2
      refine ⟨fun hst => ?_, fun hst => ?_, fun hst => ?_⟩
      · obtain ⟨g1b, _, _⟩ := ih _ hN2
        simp only [List.foldl_cons]
        exact g1b hst
      · obtain ⟨_, g2b, _⟩ := ih _ hN2
        simp only [List.foldl_cons]
        exact g2b hst
      · obtain ⟨_, _, g3b⟩ := ih _ hN2
        simp only [List.foldl_cons]
        exact g3b hst

theorem collectBackupFiles_mem_of (env : Env) (orphans : List String) (fs : FS)
    (N : String) (hN : N ∈ orphans) :
    (fs.statOk (join3 env.home ".ssh" (N ++ "_key")) = true →
      join3 env.home ".ssh" (N ++ "_key") ∈ collectBackupFiles env orphans fs) ∧
    (fs.statOk (join3 env.home ".ssh" (N ++ "_key") ++ ".pub") = true →
      join3 env.home ".ssh" (N ++ "_key") ++ ".pub" ∈
        collectBackupFiles env orphans fs) ∧
    (fs.statOk (joinPath env.home (".gitconfig-" ++ N)) = true →
      joinPath env.home (".gitconfig-" ++ N) ∈ collectBackupFiles env orphans fs) := by
  unfold collectBackupFiles
  exact collectLoop_mem env fs orphans [] N hN

theorem createIdentityGitConfig_state (env : Env) (i : Identity) (w : World) :
    (createIdentityGitConfig env i w).state = w.state := rfl

theorem copyPublicKeyToHome_state (env : Env) (i : Identity) (w : World) :
    (copyPublicKeyToHome env i w).state = w.state := by
  rcases h1 : w.fs.read (expandPath env.home (sshPubKeyPathOf i)) with _ | d
  · simp [copyPublicKeyToHome, h1]
  · rcases h2 : w.fs.read (joinPath env.home (i.name ++ "_key.pub")) with _ | d2
    · simp [copyPublicKeyToHome, h1, h2]
    · by_cases h3 : d2.bytes = d.bytes <;> simp [copyPublicKeyToHome, h1, h2, h3]

theorem processFolders_state (env : Env) (i : Identity) (w : World) :
    (processFolders env i w).state = w.state := by
  unfold processFolders
  induction i.folders generalizing w with
  | nil => rfl
  | cons f fl ih =>
    simp only [List.foldl_cons]
    by_cases h : env.mkdirOk (expandPath env.home f)
    · rw [if_pos h]
      exact ih _
    · rw [if_neg h]
      exact ih _

theorem generateSSHKey_state (env : Env) (i : Identity) (w : World) :
    (generateSSHKey env i w).1.state = w.state := by
  unfold generateSSHKey
  rcases hg : env.keygen i.name with _ | ⟨priv, pub⟩ <;> simp [hg]

theorem processIdentity_state (env : Env) (w : World) (res : SyncResult)
    (i : Identity) :
    (processIdentity env (w, res) i).1.state = w.state := by
  by_cases hk : sshKeyExists env (processFolders env i w).fs i
  · simp only [processIdentity, if_pos hk]
    show (createIdentityGitConfig env i (processFolders env i w)).state = _
    rw [createIdentityGitConfig_state, processFolders_state]
  · rcases hgp : generateSSHKey env i (processFolders env i w) with ⟨wg, ok⟩
    have hwg : wg.state = w.state := by
      have h := generateSSHKey_state env i (processFolders env i w)
      rw [hgp] at h
      rw [h, processFolders_state]
    cases ok
    · simp only [processIdentity, if_neg hk, hgp, Bool.not_false, if_true]
      exact hwg
    · simp only [processIdentity, if_neg hk, hgp, Bool.not_true, Bool.false_eq_true,
        if_false]
      show (createIdentityGitConfig env i (copyPublicKeyToHome env i wg)).state = _
      rw [createIdentityGitConfig_state, copyPublicKeyToHome_state, hwg]

theorem processLoop_state (env : Env) (l : List (String × Identity)) (w : World)
    (res : SyncResult) :
    (l.foldl (fun acc e => processIdentity env acc e.2) (w, res)).1.state = w.state := by
  induction l generalizing w res with
  | nil => rfl
  | cons e rest ih =>
    rcases hp : processIdentity env (w, res) e.2 with ⟨w1, res1⟩
    have h := processIdentity_state env w res e.2
    rw [hp] at h
    simp only [List.foldl_cons, hp]
    rw [ih w1 res1, h]

theorem processLoop_fs (env : Env) (l : List (String × Identity)) (w : World)
    (res : SyncResult) (q : String) (hh : NicePath env.home)
    (hpl : ∀ e ∈ l, PlainName e.2.name)
    (hq : ∀ e ∈ l, ¬ CleanupPath env.home e.2.name q) :
    (l.foldl (fun acc e => processIdentity env acc e.2) (w, res)).1.fs.lookup q =
      w.fs.lookup q := by
  revert hpl hq
  induction l generalizing w res with
  | nil =>
    intro _ _
    rfl
  | cons e rest ih =>
    intro hpl hq
    rcases hp : processIdentity env (w, res) e.2 with ⟨w1, res1⟩
    have hstep := processIdentity_fs env w res e.2 q hh (hpl e (by simp))
      (fun h => hq e (by simp) (Or.inl h)) (fun h => hq e (by simp) (Or.inr (Or.inl h)))
      (fun h => hq e (by simp) (Or.inr (Or.inr (Or.inl h))))
      (fun h => hq e (by simp) (Or.inr (Or.inr (Or.inr h))))
    rw [hp] at hstep
    simp only [List.foldl_cons, hp]
    rw [ih w1 res1 (fun x hx => hpl x (by simp [hx])) (fun x hx => hq x (by simp [hx])),
      hstep]

theorem globalPhase_state (env : Env) (config : Config) (w : World) :
    (globalPhase env config w).state = w.state := rfl

/-- C7.  Orphan cleanup is complete: a name found by either marker scan and
absent from the configuration is listed as an orphan, and after the whole
`Sync` run its private key, public key and per-identity git config are gone
from the filesystem and its run-state entry is gone from the state map,
while the backup archive created by the run still exists afterwards and
holds every collected file (in particular each of the orphan's files that
existed at collection time, all of which are collected) with its original
bytes. -/
theorem sync_cleanup_complete (env : Env) (config : Config) (w0 : World) (N : String)
    (hh : NicePath env.home)
    (hkeys : ∀ e ∈ config.identities, e.1 = e.2.name)
    (hplain : ∀ e ∈ config.identities, PlainName e.2.name)
    (horph : ∀ o ∈ detectOrphans env.home config w0.fs, PlainName o)
    (hN : PlainName N)
    (hfound : N ∈ (findZZKManagedKeys env.home w0.fs).map Prod.fst ∨
      N ∈ (findZZKManagedGitConfigs env.home w0.fs).map Prod.fst)
    (habsent : config.hasIdentity N = false)
    (hread : ∀ f ∈ collectBackupFiles env (detectOrphans env.home config w0.fs) w0.fs,
      (w0.fs.read f).isSome = true)
    (hclean : globBackups (backupDirOf env.home) w0.fs = [])
    (hfts : collectBackupFiles env (detectOrphans env.home config w0.fs) w0.fs ≠ []) :
    N ∈ detectOrphans env.home config w0.fs ∧
    (sync env config w0).1.fs.lookup (sshKeyLoc env.home N) = none ∧
    (sync env config w0).1.fs.lookup (sshPubLoc env.home N) = none ∧
    (sync env config w0).1.fs.lookup (gitCfgLoc env.home N) = none ∧
    lookupKey (sync env config w0).1.state N = none ∧
    (sync env config w0).1.fs.lookup (backupPathOf env) =
      some ⟨.archive ((collectBackupFiles env (detectOrphans env.home config w0.fs)
          w0.fs).map (fun f => (baseName f, ((w0.fs.read f).getD (.text "")).bytes))),
        env.now⟩ ∧
    ((w0.fs.statOk (join3 env.home ".ssh" (N ++ "_key")) = true →
      join3 env.home ".ssh" (N ++ "_key") ∈
        collectBackupFiles env (detectOrphans env.home config w0.fs) w0.fs) ∧
     (w0.fs.statOk (join3 env.home ".ssh" (N ++ "_key") ++ ".pub") = true →
      join3 env.home ".ssh" (N ++ "_key") ++ ".pub" ∈
        collectBackupFiles env (detectOrphans env.home config w0.fs) w0.fs) ∧
     (w0.fs.statOk (joinPath env.home (".gitconfig-" ++ N)) = true →
      joinPath env.home (".gitconfig-" ++ N) ∈
        collectBackupFiles env (detectOrphans env.home config w0.fs) w0.fs)) := by
  have hmemN : N ∈ detectOrphans env.home config w0.fs :=
    detectOrphans_complete hfound habsent
  have hne : detectOrphans env.home config w0.fs ≠ [] := by
    rintro h
    rw [h] at hmemN
    exact absurd hmemN (List.not_mem_nil N)
  have hnames : ∀ e ∈ config.identities, ¬ e.2.name = N := by
    intro e he heq
    have h1 : e.1 = e.2.name := hkeys e he
    have h2 : config.hasIdentity N = true := by
      unfold Config.hasIdentity
      rw [List.any_eq_true]
      exact ⟨e, he, by simp [h1, heq]⟩
    rw [habsent] at h2
    exact absurd h2 (by simp)
  have hNe : ∀ e ∈ config.identities, N ≠ e.2.name :=
    fun e he h => hnames e he h.symm
  rcases hop : orphanPhase env (detectOrphans env.home config w0.fs) w0 with ⟨w1, removed⟩
  rcases hfold : config.identities.foldl (fun acc e => processIdentity env acc e.2)
      (w1, (⟨removed, [], [], [], []⟩ : SyncResult)) with ⟨w2, res⟩
  -- per-path orphan-phase deletions
  have hq1 : w1.fs.lookup (sshKeyLoc env.home N) = none := by
    have h := orphanPhase_removes env _ w0 (sshKeyLoc env.home N) N hh horph hmemN
      (Or.inl rfl)
    rw [hop] at h
    exact h
  have hq2 : w1.fs.lookup (sshPubLoc env.home N) = none := by
    have h := orphanPhase_removes env _ w0 (sshPubLoc env.home N) N hh horph hmemN
      (Or.inr (Or.inl rfl))
    rw [hop] at h
    exact h
  have hq3 : w1.fs.lookup (gitCfgLoc env.home N) = none := by
    have h := orphanPhase_removes env _ w0 (gitCfgLoc env.home N) N hh horph hmemN
      (Or.inr (Or.inr (Or.inr rfl)))
    rw [hop] at h
    exact h
  have hst1 : lookupKey w1.state N = none := by
    have h := orphanPhase_state_of_mem env _ w0 N hmemN
    rw [hop] at h
    exact h
  have harc1 : w1.fs.lookup (backupPathOf env) =
      some ⟨.archive ((collectBackupFiles env (detectOrphans env.home config w0.fs)
        w0.fs).map (fun f => (baseName f, ((w0.fs.read f).getD (.text "")).bytes))),
        env.now⟩ := by
    have h := orphanPhase_archive env _ w0 hh horph hne hfts hread hclean
    rw [hop] at h
    exact h
  -- loop-phase frames
  have hl1 : w2.fs.lookup (sshKeyLoc env.home N) = w1.fs.lookup (sshKeyLoc env.home N) := by
    have h := processLoop_fs env config.identities w1 ⟨removed, [], [], [], []⟩
      (sshKeyLoc env.home N) hh hplain
      (fun e he => keyLoc_not_cleanupPath hN (hplain e he) (hNe e he))
    rw [hfold] at h
    exact h
  have hl2 : w2.fs.lookup (sshPubLoc env.home N) = w1.fs.lookup (sshPubLoc env.home N) := by
    have h := processLoop_fs env config.identities w1 ⟨removed, [], [], [], []⟩
      (sshPubLoc env.home N) hh hplain
      (fun e he => pubLoc_not_cleanupPath hN (hplain e he) (hNe e he))
    rw [hfold] at h
    exact h
  have hl3 : w2.fs.lookup (gitCfgLoc env.home N) = w1.fs.lookup (gitCfgLoc env.home N) := by
    have h := processLoop_fs env config.identities w1 ⟨removed, [], [], [], []⟩
      (gitCfgLoc env.home N) hh hplain
      (fun e he => gitCfgLoc_not_cleanupPath hN (hplain e he) (hNe e he))
    rw [hfold] at h
    exact h
  have hl4 : w2.fs.lookup (backupPathOf env) = w1.fs.lookup (backupPathOf env) := by
    have h := processLoop_fs env config.identities w1 ⟨removed, [], [], [], []⟩
      (backupPathOf env) hh hplain
      (fun e he => by
        rw [backupPath_norm]
        exact archive_not_cleanupPath _ (hplain e he))
    rw [hfold] at h
    exact h
  have hlst : w2.state = w1.state := by
    have h := processLoop_state env config.identities w1 ⟨removed, [], [], [], []⟩
    rw [hfold] at h
    exact h
  -- global-phase disequalities
  have hgk1 : sshKeyLoc env.home N ≠ env.home ++ "/.gitconfig" := by
    rw [globalGit_norm]
    exact locOf_ne env.home (ne_of_idx1 (sshKeyRest_idx1 N) globalGitRest_idx1 (by decide))
  have hgk2 : sshKeyLoc env.home N ≠ env.home ++ "/.ssh/config" := by
    rw [sshCfg_norm]
    exact locOf_ne env.home (ne_of_last (sshKeyRest_last N) sshCfgRest_last (by decide))
  have hgk3 : sshKeyLoc env.home N ≠ env.home ++ "/.ssh/allowed_signers" := by
    rw [signers_norm]
    exact locOf_ne env.home (ne_of_last (sshKeyRest_last N) signersRest_last (by decide))
  have hgp1 : sshPubLoc env.home N ≠ env.home ++ "/.gitconfig" := by
    rw [globalGit_norm]
    exact locOf_ne env.home (ne_of_idx1 (sshPubRest_idx1 N) globalGitRest_idx1 (by decide))
  have hgp2 : sshPubLoc env.home N ≠ env.home ++ "/.ssh/config" := by
    rw [sshCfg_norm]
    exact locOf_ne env.home (ne_of_last (sshPubRest_last N) sshCfgRest_last (by decide))
  have hgp3 : sshPubLoc env.home N ≠ env.home ++ "/.ssh/allowed_signers" := by
    rw [signers_norm]
    exact locOf_ne env.home (ne_of_last (sshPubRest_last N) signersRest_last (by decide))
  have hgc1 : gitCfgLoc env.home N ≠ env.home ++ "/.gitconfig" := by
    rw [globalGit_norm]
    refine locOf_ne env.home (ne_of_getElem? 10 ?_)
    rw [gitCfgRest_idx10, globalGitRest_idx10]
    simp
  have hgc2 : gitCfgLoc env.home N ≠ env.home ++ "/.ssh/config" := by
    rw [sshCfg_norm]
    exact locOf_ne env.home (ne_of_idx1 (gitCfgRest_idx1 N) sshCfgRest_idx1 (by decide))
  have hgc3 : gitCfgLoc env.home N ≠ env.home ++ "/.ssh/allowed_signers" := by
    rw [signers_norm]
    exact locOf_ne env.home (ne_of_idx1 (gitCfgRest_idx1 N) signersRest_idx1 (by decide))
  have hga1 : backupPathOf env ≠ env.home ++ "/.gitconfig" := by
    rw [backupPath_norm, globalGit_norm]
    exact locOf_ne env.home (ne_of_idx1 (archiveRest_idx1 _) globalGitRest_idx1 (by decide))
  have hga2 : backupPathOf env ≠ env.home ++ "/.ssh/config" := by
    rw [backupPath_norm, sshCfg_norm]
    exact locOf_ne env.home (ne_of_idx1 (archiveRest_idx1 _) sshCfgRest_idx1 (by decide))
  have hga3 : backupPathOf env ≠ env.home ++ "/.ssh/allowed_signers" := by
    rw [backupPath_norm, signers_norm]
    exact locOf_ne env.home (ne_of_idx1 (archiveRest_idx1 _) signersRest_idx1 (by decide))
  refine ⟨hmemN, ?_, ?_, ?_, ?_, ?_, collectBackupFiles_mem_of env _ w0.fs N hmemN⟩
  · simp only [sync, hop, hfold]
    show (statePhase env config (globalPhase env config w2)).fs.lookup _ = _
    rw [statePhase_fs, globalPhase_fs env config w2 _ hgk1 hgk2 hgk3, hl1, hq1]
  · simp only [sync, hop, hfold]
    show (statePhase env config (globalPhase env config w2)).fs.lookup _ = _
    rw [statePhase_fs, globalPhase_fs env config w2 _ hgp1 hgp2 hgp3, hl2, hq2]
  · simp only [sync, hop, hfold]
    show (statePhase env config (globalPhase env config w2)).fs.lookup _ = _
    rw [statePhase_fs, globalPhase_fs env config w2 _ hgc1 hgc2 hgc3, hl3, hq3]
  · simp only [sync, hop, hfold]
    show lookupKey (statePhase env config (globalPhase env config w2)).state N = _
    rw [statePhase_state env config _ N hnames, globalPhase_state, hlst, hst1]
  · simp only [sync, hop, hfold]
    show (statePhase env config (globalPhase env config w2)).fs.lookup _ = _
    rw [statePhase_fs, globalPhase_fs env config w2 _ hga1 hga2 hga3, hl4, harc1]

theorem sync_cleanup_complete_witness :
    "old" ∈ detectOrphans envA.home cfgA wOrphan.fs ∧
    (sync envA cfgA wOrphan).1.fs.lookup (sshKeyLoc envA.home "old") = none ∧
    (sync envA cfgA wOrphan).1.fs.lookup (sshPubLoc envA.home "old") = none ∧
    (sync envA cfgA wOrphan).1.fs.lookup (gitCfgLoc envA.home "old") = none ∧
    lookupKey (sync envA cfgA wOrphan).1.state "old" = none ∧
    (sync envA cfgA wOrphan).1.fs.lookup (backupPathOf envA) =
      some ⟨.archive ((collectBackupFiles envA (detectOrphans envA.home cfgA wOrphan.fs)
          wOrphan.fs).map
          (fun f => (baseName f, ((wOrphan.fs.read f).getD (.text "")).bytes))),
        envA.now⟩ ∧
    ((wOrphan.fs.statOk (join3 envA.home ".ssh" ("old" ++ "_key")) = true →
      join3 envA.home ".ssh" ("old" ++ "_key") ∈
        collectBackupFiles envA (detectOrphans envA.home cfgA wOrphan.fs) wOrphan.fs) ∧
     (wOrphan.fs.statOk (join3 envA.home ".ssh" ("old" ++ "_key") ++ ".pub") = true →
      join3 envA.home ".ssh" ("old" ++ "_key") ++ ".pub" ∈
        collectBackupFiles envA (detectOrphans envA.home cfgA wOrphan.fs) wOrphan.fs) ∧
     (wOrphan.fs.statOk (joinPath envA.home (".gitconfig-" ++ "old")) = true →
      joinPath envA.home (".gitconfig-" ++ "old") ∈
        collectBackupFiles envA (detectOrphans envA.home cfgA wOrphan.fs) wOrphan.fs)) :=
  sync_cleanup_complete envA cfgA wOrphan "old" ⟨['h'], rfl, by decide⟩ (by decide)
    (by decide) (by decide) (by decide) (by decide) (by decide) (by decide) (by decide)
    (by decide)

/-! ## C1: idempotence of `Sync` — scan membership infrastructure -/

theorem lookup_isSome_of_mem {fs : FS} {p : String} {e : FileEntry}
    (h : (p, e) ∈ fs.files) : (fs.lookup p).isSome = true := by
  have hex : ∃ x ∈ fs.files, (fun e : String × FileEntry => e.1 == p) x :=
    ⟨(p, e), h, by simp⟩
  rw [← List.find?_isSome] at hex
  unfold FS.lookup
  obtain ⟨x, hx⟩ := Option.isSome_iff_exists.mp hex
  rw [hx]
  rfl

theorem exists_mem_of_lookup_isSome {fs : FS} {p : String}
    (h : (fs.lookup p).isSome = true) : ∃ e, (p, e) ∈ fs.files := by
  unfold FS.lookup at h
  rcases hf : fs.files.find? (fun e => e.1 == p) with _ | x
  · rw [hf] at h
    simp at h
  · have hx := List.mem_of_find?_eq_some hf
    have hp := List.find?_some hf
    simp only [beq_iff_eq] at hp
    exact ⟨x.2, by rwa [← hp, Prod.mk.eta]⟩

theorem mem_scanBases {dir : String} {files : List (String × FileEntry)}
    (f : String → Bool) (b : String) :
    b ∈ sortStrings ((files.filterMap (fun e => childOf dir e.1)).filter f) ↔
      (∃ e ∈ files, childOf dir e.1 = some b) ∧ f b = true := by
  rw [mem_sortStrings, List.mem_filter, List.mem_filterMap]

theorem scanKeysFold_mem (fs : FS) (sshDir : String) (l : List String)
    (acc : List (String × String)) (m : String) :
    m ∈ (l.foldl (fun acc base =>
      match isZZKManagedKey fs (sshDir ++ "/" ++ base) with
      | (true, identityName) =>
        insertReplace acc identityName (goTrimSuffix (sshDir ++ "/" ++ base) ".pub")
      | (false, _) => acc) acc).map Prod.fst ↔
    m ∈ acc.map Prod.fst ∨
      ∃ b ∈ l, isZZKManagedKey fs (sshDir ++ "/" ++ b) = (true, m) := by
  induction l generalizing acc with
  | nil => simp
  | cons b bs ih =>
    simp only [List.foldl_cons]
    rcases hk : isZZKManagedKey fs (sshDir ++ "/" ++ b) with ⟨tf, nm⟩
    cases tf
    · rw [ih]
      constructor
      · rintro (h | ⟨x, hx, hhit⟩)
        · exact Or.inl h
        · exact Or.inr ⟨x, by simp [hx], hhit⟩
      · rintro (h | ⟨x, hx, hhit⟩)
        · exact Or.inl h
        · rcases List.mem_cons.mp hx with rfl | hx2
          · rw [hk] at hhit
            exact absurd hhit (by simp)
          · exact Or.inr ⟨x, hx2, hhit⟩
    · rw [ih]
      rw [mem_keys_insertReplace]
      constructor
      · rintro ((rfl | h) | ⟨x, hx, hhit⟩)
        · exact Or.inr ⟨b, by simp, by rw [hk]⟩
        · exact Or.inl h
        · exact Or.inr ⟨x, by simp [hx], hhit⟩
      · rintro (h | ⟨x, hx, hhit⟩)
        · exact Or.inl (Or.inr h)
        · rcases List.mem_cons.mp hx with rfl | hx2
          · rw [hk] at hhit
            injection hhit with h1 h2
            exact Or.inl (Or.inl h2.symm)
          · exact Or.inr ⟨x, hx2, hhit⟩

theorem findZZKManagedKeys_mem (home : String) (fs : FS) (m : String) :
    m ∈ (findZZKManagedKeys home fs).map Prod.fst ↔
    ∃ b, ((∃ e ∈ fs.files, childOf (home ++ "/.ssh") e.1 = some b) ∧
      goHasSuffix b ".pub" = true) ∧
      isZZKManagedKey fs (home ++ "/.ssh" ++ "/" ++ b) = (true, m) := by
  simp only [findZZKManagedKeys]
  rw [scanKeysFold_mem]
  simp only [List.map_nil, List.not_mem_nil, false_or]
  constructor
  · rintro ⟨b, hb, hhit⟩
    exact ⟨b, (mem_scanBases _ b).mp hb, hhit⟩
  · rintro ⟨b, hb, hhit⟩
    exact ⟨b, (mem_scanBases _ b).mpr hb, hhit⟩

theorem scanCfgFold_mem (home : String) (l : List String)
    (acc : List (String × String)) (m : String) :
    m ∈ (l.foldl (fun acc base =>
      match stripPre ".gitconfig-".data base.data with
      | some nm => insertReplace acc ⟨nm⟩ (home ++ "/" ++ base)
      | none => acc) acc).map Prod.fst ↔
    m ∈ acc.map Prod.fst ∨
      ∃ b ∈ l, stripPre ".gitconfig-".data b.data = some m.data := by
  induction l generalizing acc with
  | nil => simp
  | cons b bs ih =>
    simp only [List.foldl_cons]
    rcases hk : stripPre ".gitconfig-".data b.data with _ | nm
    · rw [ih]
      constructor
      · rintro (h | ⟨x, hx, hhit⟩)
        · exact Or.inl h
        · exact Or.inr ⟨x, by simp [hx], hhit⟩
      · rintro (h | ⟨x, hx, hhit⟩)
        · exact Or.inl h
        · rcases List.mem_cons.mp hx with rfl | hx2
          · rw [hk] at hhit
            exact absurd hhit (by simp)
          · exact Or.inr ⟨x, hx2, hhit⟩
    · rw [ih]
      rw [mem_keys_insertReplace]
      constructor
      · rintro ((rfl | h) | ⟨x, hx, hhit⟩)
        · exact Or.inr ⟨b, by simp, hk⟩
        · exact Or.inl h
        · exact Or.inr ⟨x, by simp [hx], hhit⟩
      · rintro (h | ⟨x, hx, hhit⟩)
        · exact Or.inl (Or.inr h)
        · rcases List.mem_cons.mp hx with rfl | hx2
          · rw [hk] at hhit
            injection hhit with h2
            exact Or.inl (Or.inl (dataEq_ext h2).symm)
          · exact Or.inr ⟨x, hx2, hhit⟩

theorem findZZKManagedGitConfigs_mem (home : String) (fs : FS) (m : String) :
    m ∈ (findZZKManagedGitConfigs home fs).map Prod.fst ↔
    ∃ b, ((∃ e ∈ fs.files, childOf home e.1 = some b) ∧
      (goHasPrefix b ".gitconfig-" && b != ".gitconfig-") = true) ∧
      stripPre ".gitconfig-".data b.data = some m.data := by
  simp only [findZZKManagedGitConfigs]
  rw [scanCfgFold_mem]
  simp only [List.map_nil, List.not_mem_nil, false_or]
  constructor
  · rintro ⟨b, hb, hhit⟩
    exact ⟨b, (mem_scanBases _ b).mp hb, hhit⟩
  · rintro ⟨b, hb, hhit⟩
    exact ⟨b, (mem_scanBases _ b).mpr hb, hhit⟩

theorem detectOrphans_scanned {home : String} {config : Config} {fs : FS} {o : String}
    (h : o ∈ detectOrphans home config fs) :
    o ∈ (findZZKManagedKeys home fs).map Prod.fst ∨
    o ∈ (findZZKManagedGitConfigs home fs).map Prod.fst := by
  simp only [detectOrphans] at h
  rw [orphanLoop1_eq config _ []] at h
  rcases (orphanLoop2_mem config _ _ o).mp h with hacc | ⟨hm, _⟩
  · simp only [List.nil_append, List.mem_filter] at hacc
    exact Or.inl hacc.1
  · exact Or.inr hm

theorem detectOrphans_empty {home : String} {config : Config} {fs : FS}
    (h1 : ∀ m ∈ (findZZKManagedKeys home fs).map Prod.fst,
      config.hasIdentity m = true)
    (h2 : ∀ m ∈ (findZZKManagedGitConfigs home fs).map Prod.fst,
      config.hasIdentity m = true) :
    detectOrphans home config fs = [] := by
  rw [List.eq_nil_iff_forall_not_mem]
  intro o ho
  have hhas := detectOrphans_not_hasIdentity ho
  rcases detectOrphans_scanned ho with h | h
  · rw [h1 o h] at hhas
    exact absurd hhas (by simp)
  · rw [h2 o h] at hhas
    exact absurd hhas (by simp)

/-! ## C1: result-field and key-existence loop invariants -/

theorem generateSSHKey_none (env : Env) (i : Identity) (w : World)
    (hg : env.keygen i.name = none) : (generateSSHKey env i w).2 = false := by
  unfold generateSSHKey
  simp [hg]

theorem processIdentity_created_of_keygen_none (env : Env) (w : World)
    (res : SyncResult) (i : Identity) (hg : env.keygen i.name = none) :
    (processIdentity env (w, res) i).2.created = res.created := by
  by_cases hk : sshKeyExists env (processFolders env i w).fs i
  · simp only [processIdentity, if_pos hk]
    split <;> rfl
  · rcases hgp : generateSSHKey env i (processFolders env i w) with ⟨wg, ok⟩
    have hok : ok = false := by
      have h := generateSSHKey_none env i (processFolders env i w) hg
      rw [hgp] at h
      exact h
    subst hok
    simp only [processIdentity, if_neg hk, hgp, Bool.not_false, if_true]

theorem processIdentity_orphansRemoved (env : Env) (w : World) (res : SyncResult)
    (i : Identity) :
    (processIdentity env (w, res) i).2.orphansRemoved = res.orphansRemoved := by
  by_cases hk : sshKeyExists env (processFolders env i w).fs i
  · simp only [processIdentity, if_pos hk]
    split <;> rfl
  · rcases hgp : generateSSHKey env i (processFolders env i w) with ⟨wg, ok⟩
    cases ok
    · simp only [processIdentity, if_neg hk, hgp, Bool.not_false, if_true]
    · simp only [processIdentity, if_neg hk, hgp, Bool.not_true, Bool.false_eq_true,
        if_false]
      split <;> rfl

theorem processLoop_orphansRemoved (env : Env) (l : List (String × Identity))
    (w : World) (res : SyncResult) :
    (l.foldl (fun acc e => processIdentity env acc e.2) (w, res)).2.orphansRemoved =
      res.orphansRemoved := by
  induction l generalizing w res with
  | nil => rfl
  | cons e rest ih =>
    rcases hp : processIdentity env (w, res) e.2 with ⟨w1, res1⟩
    have h := processIdentity_orphansRemoved env w res e.2
    rw [hp] at h
    simp only [List.foldl_cons, hp]
    rw [ih w1 res1, h]

theorem processIdentity_keys_maintain (env : Env) (w : World) (res : SyncResult)
    (j : Identity) (m : String) (hh : NicePath env.home) (hm : PlainName m)
    (hj : PlainName j.name)
    (h : (((w.fs.lookup (sshKeyLoc env.home m)).isSome = true ∧
      (w.fs.lookup (sshPubLoc env.home m)).isSome = true)) ∨ env.keygen m = none) :
    ((((processIdentity env (w, res) j).1.fs.lookup (sshKeyLoc env.home m)).isSome = true ∧
      ((processIdentity env (w, res) j).1.fs.lookup (sshPubLoc env.home m)).isSome = true)) ∨
      env.keygen m = none := by
  rcases h with ⟨h1, h2⟩ | hg
  · left
    obtain ⟨f1, f2, _, _⟩ := processIdentity_keep env w res j m hh hm hj h1 h2
    exact ⟨by rw [f1]; exact h1, by rw [f2]; exact h2⟩
  · right
    exact hg

theorem processLoop_keys_maintain (env : Env) (l : List (String × Identity))
    (w : World) (res : SyncResult) (m : String) (hh : NicePath env.home)
    (hm : PlainName m) (hpl : ∀ e ∈ l, PlainName e.2.name)
    (h : (((w.fs.lookup (sshKeyLoc env.home m)).isSome = true ∧
      (w.fs.lookup (sshPubLoc env.home m)).isSome = true)) ∨ env.keygen m = none) :
    ((((l.foldl (fun acc e => processIdentity env acc e.2) (w, res)).1.fs.lookup
        (sshKeyLoc env.home m)).isSome = true ∧
      ((l.foldl (fun acc e => processIdentity env acc e.2) (w, res)).1.fs.lookup
        (sshPubLoc env.home m)).isSome = true)) ∨ env.keygen m = none := by
  revert hpl h
  induction l generalizing w res with
  | nil =>
    intro _ h
    exact h
  | cons e rest ih =>
    intro hpl h
    rcases hp : processIdentity env (w, res) e.2 with ⟨w1, res1⟩
    have hstep := processIdentity_keys_maintain env w res e.2 m hh hm
      (hpl e (by simp)) h
    rw [hp] at hstep
    simp only [List.foldl_cons, hp]
    exact ih w1 res1 (fun y hy => hpl y (by simp [hy])) hstep

theorem processIdentity_estab (env : Env) (w : World) (res : SyncResult)
    (j : Identity) (hh : NicePath env.home) (hj : PlainName j.name) :
    ((((processIdentity env (w, res) j).1.fs.lookup
        (sshKeyLoc env.home j.name)).isSome = true ∧
      ((processIdentity env (w, res) j).1.fs.lookup
        (sshPubLoc env.home j.name)).isSome = true)) ∨
      env.keygen j.name = none := by
  by_cases hk : sshKeyExists env (processFolders env j w).fs j
  · left
    have hex := hk
    rw [sshKeyExists_eq env _ j hh hj,
      processFolders_fs env j w (sshKeyLoc env.home j.name),
      processFolders_fs env j w (sshPubLoc env.home j.name)] at hex
    simp only [Bool.and_eq_true] at hex
    obtain ⟨h1, h2⟩ := hex
    obtain ⟨f1, f2, _, _⟩ := processIdentity_keep env w res j j.name hh hj hj h1 h2
    exact ⟨by rw [f1]; exact h1, by rw [f2]; exact h2⟩
  · rcases hg : env.keygen j.name with _ | ⟨pr, pb⟩
    · right
      rfl
    · left
      have hgen : generateSSHKey env j (processFolders env j w) =
          ({ processFolders env j w with
              fs := (((((processFolders env j w).fs.remove
                (expandPath env.home (sshKeyPathOf j))).remove
                  (expandPath env.home (sshPubKeyPathOf j))).mkdir
                    (dirName (expandPath env.home (sshKeyPathOf j)))).write
                      (expandPath env.home (sshKeyPathOf j)) (.text pr) env.now).write
                        (expandPath env.home (sshPubKeyPathOf j)) (.text pb) env.now
              log := (processFolders env j w).log ++
                [.fremove (expandPath env.home (sshKeyPathOf j)),
                 .fremove (expandPath env.home (sshPubKeyPathOf j)), .keygen j.name] },
            true) := by
        simp [generateSSHKey, hg]
      have hne4k : sshKeyLoc env.home j.name ≠ expandPath env.home (gitConfigPathOf j) := by
        rw [expandPath_gitCfg env.home j hh hj]
        exact locOf_ne env.home
          (ne_of_idx1 (sshKeyRest_idx1 j.name) (gitCfgRest_idx1 j.name) (by decide))
      have hne4p : sshPubLoc env.home j.name ≠ expandPath env.home (gitConfigPathOf j) := by
        rw [expandPath_gitCfg env.home j hh hj]
        exact locOf_ne env.home
          (ne_of_idx1 (sshPubRest_idx1 j.name) (gitCfgRest_idx1 j.name) (by decide))
      have hne3k : sshKeyLoc env.home j.name ≠ joinPath env.home (j.name ++ "_key.pub") := by
        rw [joinPath_homePub env.home j.name hh hj]
        exact locOf_ne env.home (ne_homePub_of_dotted hj (sshKeyRest_idx0 j.name))
      have hne3p : sshPubLoc env.home j.name ≠ joinPath env.home (j.name ++ "_key.pub") := by
        rw [joinPath_homePub env.home j.name hh hj]
        exact locOf_ne env.home (ne_homePub_of_dotted hj (sshPubRest_idx0 j.name))
      have hnekp : sshKeyLoc env.home j.name ≠ expandPath env.home (sshPubKeyPathOf j) := by
        rw [expandPath_sshPub env.home j hh hj]
        exact locOf_ne env.home
          (ne_of_last (sshKeyRest_last j.name) (sshPubRest_last j.name) (by decide))
      simp only [processIdentity, if_neg hk, hgen, Bool.not_true, Bool.false_eq_true,
        if_false]
      constructor
      · rw [createIdentityGitConfig_fs, if_neg hne4k,
          copyPublicKeyToHome_fs env j _ _ hne3k]
        rw [FS.lookup_write, if_neg hnekp, FS.lookup_write,
          if_pos (expandPath_sshKey env.home j hh hj).symm]
        rfl
      · rw [createIdentityGitConfig_fs, if_neg hne4p,
          copyPublicKeyToHome_fs env j _ _ hne3p]
        rw [FS.lookup_write, if_pos (expandPath_sshPub env.home j hh hj).symm]
        rfl

theorem processLoop_estab (env : Env) (l : List (String × Identity)) (w : World)
    (res : SyncResult) (hh : NicePath env.home)
    (hpl : ∀ e ∈ l, PlainName e.2.name) :
    ∀ e ∈ l,
      ((((l.foldl (fun acc e => processIdentity env acc e.2) (w, res)).1.fs.lookup
          (sshKeyLoc env.home e.2.name)).isSome = true ∧
        ((l.foldl (fun acc e => processIdentity env acc e.2) (w, res)).1.fs.lookup
          (sshPubLoc env.home e.2.name)).isSome = true)) ∨
      env.keygen e.2.name = none := by
  revert hpl
  induction l generalizing w res with
  | nil =>
    intro _ e he
    cases he
  | cons e rest ih =>
    intro hpl x hx
    rcases hp : processIdentity env (w, res) e.2 with ⟨w1, res1⟩
    rcases List.mem_cons.mp hx with rfl | hx2
    · have h0 := processIdentity_estab env w res x.2 hh (hpl x (by simp))
      rw [hp] at h0
      simp only [List.foldl_cons, hp]
      exact processLoop_keys_maintain env rest w1 res1 x.2.name hh (hpl x (by simp))
        (fun y hy => hpl y (by simp [hy])) h0
    · simp only [List.foldl_cons, hp]
      exact ih w1 res1 (fun y hy => hpl y (by simp [hy])) x hx2

theorem processLoop_no_create (env : Env) (l : List (String × Identity)) (w : World)
    (res : SyncResult) (hh : NicePath env.home)
    (hpl : ∀ e ∈ l, PlainName e.2.name)
    (hinv : ∀ e ∈ l, ((w.fs.lookup (sshKeyLoc env.home e.2.name)).isSome = true ∧
      (w.fs.lookup (sshPubLoc env.home e.2.name)).isSome = true) ∨
      env.keygen e.2.name = none) :
    (l.foldl (fun acc e => processIdentity env acc e.2) (w, res)).2.created =
      res.created := by
  revert hpl hinv
  induction l generalizing w res with
  | nil =>
    intro _ _
    rfl
  | cons e rest ih =>
    intro hpl hinv
    rcases hp : processIdentity env (w, res) e.2 with ⟨w1, res1⟩
    have hc : res1.created = res.created := by
      rcases hinv e (by simp) with ⟨h1, h2⟩ | hg
      · have hk : sshKeyExists env (processFolders env e.2 w).fs e.2 = true := by
          rw [sshKeyExists_eq env _ e.2 hh (hpl e (by simp)),
            processFolders_fs env e.2 w (sshKeyLoc env.home e.2.name),
            processFolders_fs env e.2 w (sshPubLoc env.home e.2.name), h1, h2]
          rfl
        rcases processIdentity_created env w res e.2 with hcr | ⟨hkf, _⟩
        · rw [hp] at hcr
          exact hcr
        · rw [hk] at hkf
          exact absurd hkf (by simp)
      · have hcr := processIdentity_created_of_keygen_none env w res e.2 hg
        rw [hp] at hcr
        exact hcr
    have hinv2 : ∀ x ∈ rest,
        ((w1.fs.lookup (sshKeyLoc env.home x.2.name)).isSome = true ∧
          (w1.fs.lookup (sshPubLoc env.home x.2.name)).isSome = true) ∨
        env.keygen x.2.name = none := by
      intro x hx
      have hm := processIdentity_keys_maintain env w res e.2 x.2.name hh
        (hpl x (by simp [hx])) (hpl e (by simp)) (hinv x (by simp [hx]))
      rw [hp] at hm
      exact hm
    simp only [List.foldl_cons, hp]
    rw [ih w1 res1 (fun x hx => hpl x (by simp [hx])) hinv2, hc]

theorem globalPhase_writes (env : Env) (config : Config) (w : World) :
    (globalPhase env config w).fs.lookup (env.home ++ "/.gitconfig") =
      some ⟨.text (renderGlobalGitConfig config), env.now⟩ ∧
    (globalPhase env config w).fs.lookup (env.home ++ "/.ssh/config") =
      some ⟨.text (renderSSHConfig config), env.now⟩ ∧
    (globalPhase env config w).fs.lookup (env.home ++ "/.ssh/allowed_signers") =
      some ⟨.text (renderAllowedSigners config), env.now⟩ := by
  have h12 : (env.home ++ "/.gitconfig") ≠ env.home ++ "/.ssh/config" := by
    rw [globalGit_norm, sshCfg_norm]
    exact locOf_ne env.home (ne_of_idx1 globalGitRest_idx1 sshCfgRest_idx1 (by decide))
  have h13 : (env.home ++ "/.gitconfig") ≠ env.home ++ "/.ssh/allowed_signers" := by
    rw [globalGit_norm, signers_norm]
    exact locOf_ne env.home (ne_of_idx1 globalGitRest_idx1 signersRest_idx1 (by decide))
  have h23 : (env.home ++ "/.ssh/config") ≠ env.home ++ "/.ssh/allowed_signers" := by
    rw [sshCfg_norm, signers_norm]
    exact locOf_ne env.home (ne_of_last sshCfgRest_last signersRest_last (by decide))
  refine ⟨?_, ?_, ?_⟩
  · show (((w.fs.write (env.home ++ "/.gitconfig") (.text (renderGlobalGitConfig config))
      env.now).write (env.home ++ "/.ssh/config") (.text (renderSSHConfig config))
        env.now).write (env.home ++ "/.ssh/allowed_signers")
          (.text (renderAllowedSigners config)) env.now).lookup
      (env.home ++ "/.gitconfig") = _
    rw [FS.lookup_write, if_neg h13, FS.lookup_write, if_neg h12, FS.lookup_write,
      if_pos rfl]
  · show (((w.fs.write (env.home ++ "/.gitconfig") (.text (renderGlobalGitConfig config))
      env.now).write (env.home ++ "/.ssh/config") (.text (renderSSHConfig config))
        env.now).write (env.home ++ "/.ssh/allowed_signers")
          (.text (renderAllowedSigners config)) env.now).lookup
      (env.home ++ "/.ssh/config") = _
    rw [FS.lookup_write, if_neg h23, FS.lookup_write, if_pos rfl]
  · show (((w.fs.write (env.home ++ "/.gitconfig") (.text (renderGlobalGitConfig config))
      env.now).write (env.home ++ "/.ssh/config") (.text (renderSSHConfig config))
        env.now).write (env.home ++ "/.ssh/allowed_signers")
          (.text (renderAllowedSigners config)) env.now).lookup
      (env.home ++ "/.ssh/allowed_signers") = _
    rw [FS.lookup_write, if_pos rfl]

theorem sync_globals (env : Env) (config : Config) (w : World) :
    (sync env config w).1.fs.lookup (env.home ++ "/.gitconfig") =
      some ⟨.text (renderGlobalGitConfig config), env.now⟩ ∧
    (sync env config w).1.fs.lookup (env.home ++ "/.ssh/config") =
      some ⟨.text (renderSSHConfig config), env.now⟩ ∧
    (sync env config w).1.fs.lookup (env.home ++ "/.ssh/allowed_signers") =
      some ⟨.text (renderAllowedSigners config), env.now⟩ := by
  rcases hop : orphanPhase env (detectOrphans env.home config w.fs) w with ⟨w1, removed⟩
  rcases hfold : config.identities.foldl (fun acc e => processIdentity env acc e.2)
      (w1, (⟨removed, [], [], [], []⟩ : SyncResult)) with ⟨w2, res⟩
  have hg := globalPhase_writes env config w2
  refine ⟨?_, ?_, ?_⟩
  · simp only [sync, hop, hfold]
    show (statePhase env config (globalPhase env config w2)).fs.lookup _ = _
    rw [statePhase_fs]
    exact hg.1
  · simp only [sync, hop, hfold]
    show (statePhase env config (globalPhase env config w2)).fs.lookup _ = _
    rw [statePhase_fs]
    exact hg.2.1
  · simp only [sync, hop, hfold]
    show (statePhase env config (globalPhase env config w2)).fs.lookup _ = _
    rw [statePhase_fs]
    exact hg.2.2

/-! ## C1: scan-candidate path shapes and sync-level frames -/

theorem goHasSuffix_decomp {s suf : String} (h : goHasSuffix s suf = true) :
    ∃ pre, s.data = pre ++ suf.data := by
  unfold goHasSuffix at h
  rw [List.isSuffixOf_iff_suffix] at h
  obtain ⟨t, ht⟩ := h
  exact ⟨t, ht.symm⟩

theorem append_slash_child (dir b : String) :
    dir ++ "/" ++ b = ⟨dir.data ++ '/' :: b.data⟩ := by
  apply String.ext
  simp [String.data_append]

theorem sshChild_norm (home b : String) :
    home ++ "/.ssh" ++ "/" ++ b = locOf home (".ssh".data ++ '/' :: b.data) := by
  apply String.ext
  simp only [String.data_append, locOf]
  simp [List.append_assoc]

theorem childRest_idx0 (b : String) : (".ssh".data ++ '/' :: b.data)[0]? = some '.' := rfl

theorem childRest_idx1 (b : String) : (".ssh".data ++ '/' :: b.data)[1]? = some 's' := rfl

theorem childRest_last_pub {b : String} {pre : List Char}
    (hb : b.data = pre ++ ".pub".data) :
    (".ssh".data ++ '/' :: b.data).getLast? = some 'b' :=
  getLast?_eq_of_concat (X := ".ssh".data ++ '/' :: (pre ++ ('.' :: 'p' :: 'u' :: [])))
    (by
      rw [hb, show (".pub" : String).data = ['.', 'p', 'u', 'b'] from rfl]
      simp [List.append_assoc])

theorem childRest_eq_pubRest {b m : String} (hb : b = m ++ "_key.pub") :
    ".ssh".data ++ '/' :: b.data = sshPubRest m := by
  rw [hb, String.data_append]
  rfl

theorem childPub_cleanup_cases {home n b : String} (hn : PlainName n)
    (hlast : (".ssh".data ++ '/' :: b.data).getLast? = some 'b')
    (h : CleanupPath home n (locOf home (".ssh".data ++ '/' :: b.data))) :
    locOf home (".ssh".data ++ '/' :: b.data) = sshPubLoc home n := by
  rcases h with h | h | h | h
  · exact absurd h (locOf_ne home (ne_of_last hlast (sshKeyRest_last n) (by decide)))
  · exact h
  · exact absurd h (locOf_ne home (ne_homePub_of_dotted hn (childRest_idx0 b)))
  · exact absurd h
      (locOf_ne home (ne_of_idx1 (childRest_idx1 b) (gitCfgRest_idx1 n) (by decide)))

theorem gitCfg_cleanup_cases {home n m : String} (hn : PlainName n)
    (h : CleanupPath home n (gitCfgLoc home m)) : m = n := by
  rcases h with h | h | h | h
  · exact absurd h
      (locOf_ne home (ne_of_idx1 (gitCfgRest_idx1 m) (sshKeyRest_idx1 n) (by decide)))
  · exact absurd h
      (locOf_ne home (ne_of_idx1 (gitCfgRest_idx1 m) (sshPubRest_idx1 n) (by decide)))
  · exact absurd h (locOf_ne home (ne_homePub_of_dotted hn (gitCfgRest_idx0 m)))
  · have h2 := (locEq home ('/' :: gitCfgRest m) ('/' :: gitCfgRest n)).mp h
    injection h2 with h3 h4
    exact gitCfgRest_inj h4

theorem childPub_ne_globals (home b : String)
    (hlast : (".ssh".data ++ '/' :: b.data).getLast? = some 'b') :
    locOf home (".ssh".data ++ '/' :: b.data) ≠ home ++ "/.gitconfig" ∧
    locOf home (".ssh".data ++ '/' :: b.data) ≠ home ++ "/.ssh/config" ∧
    locOf home (".ssh".data ++ '/' :: b.data) ≠ home ++ "/.ssh/allowed_signers" := by
  refine ⟨?_, ?_, ?_⟩
  · rw [globalGit_norm]
    exact locOf_ne home (ne_of_idx1 (childRest_idx1 b) globalGitRest_idx1 (by decide))
  · rw [sshCfg_norm]
    exact locOf_ne home (ne_of_last hlast sshCfgRest_last (by decide))
  · rw [signers_norm]
    exact locOf_ne home (ne_of_last hlast signersRest_last (by decide))

theorem gitCfg_ne_globals (home m : String) :
    gitCfgLoc home m ≠ home ++ "/.gitconfig" ∧
    gitCfgLoc home m ≠ home ++ "/.ssh/config" ∧
    gitCfgLoc home m ≠ home ++ "/.ssh/allowed_signers" := by
  refine ⟨?_, ?_, ?_⟩
  · rw [globalGit_norm]
    refine locOf_ne home (ne_of_getElem? 10 ?_)
    rw [gitCfgRest_idx10, globalGitRest_idx10]
    simp
  · rw [sshCfg_norm]
    exact locOf_ne home (ne_of_idx1 (gitCfgRest_idx1 m) sshCfgRest_idx1 (by decide))
  · rw [signers_norm]
    exact locOf_ne home (ne_of_idx1 (gitCfgRest_idx1 m) signersRest_idx1 (by decide))

theorem childPub_archfree (home b : String) :
    ∀ r, (locOf home (".ssh".data ++ '/' :: b.data)).data ≠
      (backupDirOf home).data ++ "/git-orphans-".data ++ r :=
  loc_ne_archive (by rw [childRest_idx1]; decide) home

theorem gitCfg_archfree (home m : String) :
    ∀ r, (gitCfgLoc home m).data ≠
      (backupDirOf home).data ++ "/git-orphans-".data ++ r :=
  loc_ne_archive (by rw [gitCfgRest_idx1]; decide) home

theorem sync_frame (env : Env) (config : Config) (w0 : World) (q : String)
    (hh : NicePath env.home)
    (horph : ∀ o ∈ detectOrphans env.home config w0.fs, PlainName o)
    (hplain : ∀ e ∈ config.identities, PlainName e.2.name)
    (hcpo : ∀ o ∈ detectOrphans env.home config w0.fs, ¬ CleanupPath env.home o q)
    (hcpc : ∀ e ∈ config.identities, ¬ CleanupPath env.home e.2.name q)
    (hsh : ∀ r, q.data ≠ (backupDirOf env.home).data ++ "/git-orphans-".data ++ r)
    (hg1 : q ≠ env.home ++ "/.gitconfig") (hg2 : q ≠ env.home ++ "/.ssh/config")
    (hg3 : q ≠ env.home ++ "/.ssh/allowed_signers") :
    (sync env config w0).1.fs.lookup q = w0.fs.lookup q := by
  rcases hop : orphanPhase env (detectOrphans env.home config w0.fs) w0 with ⟨w1, removed⟩
  rcases hfold : config.identities.foldl (fun acc e => processIdentity env acc e.2)
      (w1, (⟨removed, [], [], [], []⟩ : SyncResult)) with ⟨w2, res⟩
  have h0 := orphanPhase_keep env _ w0 q hh horph hcpo hsh
  rw [hop] at h0
  have h1 := processLoop_fs env config.identities w1 ⟨removed, [], [], [], []⟩ q hh
    hplain hcpc
  rw [hfold] at h1
  simp only [sync, hop, hfold]
  show (statePhase env config (globalPhase env config w2)).fs.lookup q = _
  rw [statePhase_fs, globalPhase_fs env config w2 q hg1 hg2 hg3, h1, h0]

theorem sync_removed (env : Env) (config : Config) (w0 : World) (q N : String)
    (hh : NicePath env.home)
    (horph : ∀ o ∈ detectOrphans env.home config w0.fs, PlainName o)
    (hplain : ∀ e ∈ config.identities, PlainName e.2.name)
    (hN : N ∈ detectOrphans env.home config w0.fs)
    (hcp : CleanupPath env.home N q)
    (hcpc : ∀ e ∈ config.identities, ¬ CleanupPath env.home e.2.name q)
    (hg1 : q ≠ env.home ++ "/.gitconfig") (hg2 : q ≠ env.home ++ "/.ssh/config")
    (hg3 : q ≠ env.home ++ "/.ssh/allowed_signers") :
    (sync env config w0).1.fs.lookup q = none := by
  rcases hop : orphanPhase env (detectOrphans env.home config w0.fs) w0 with ⟨w1, removed⟩
  rcases hfold : config.identities.foldl (fun acc e => processIdentity env acc e.2)
      (w1, (⟨removed, [], [], [], []⟩ : SyncResult)) with ⟨w2, res⟩
  have h0 := orphanPhase_removes env _ w0 q N hh horph hN hcp
  rw [hop] at h0
  have h1 := processLoop_fs env config.identities w1 ⟨removed, [], [], [], []⟩ q hh
    hplain hcpc
  rw [hfold] at h1
  simp only [sync, hop, hfold]
  show (statePhase env config (globalPhase env config w2)).fs.lookup q = _
  rw [statePhase_fs, globalPhase_fs env config w2 q hg1 hg2 hg3, h1, h0]

theorem processIdentity_pub_step (env : Env) (w : World) (res : SyncResult)
    (j : Identity) (hh : NicePath env.home) (hj : PlainName j.name) :
    (processIdentity env (w, res) j).1.fs.lookup (sshPubLoc env.home j.name) =
      w.fs.lookup (sshPubLoc env.home j.name) ∨
    (∃ pr pb, env.keygen j.name = some (pr, pb) ∧
      (processIdentity env (w, res) j).1.fs.lookup (sshPubLoc env.home j.name) =
        some ⟨.text pb, env.now⟩) ∨
    (processIdentity env (w, res) j).1.fs.lookup (sshPubLoc env.home j.name) = none := by
  have hne4p : sshPubLoc env.home j.name ≠ expandPath env.home (gitConfigPathOf j) := by
    rw [expandPath_gitCfg env.home j hh hj]
    exact locOf_ne env.home
      (ne_of_idx1 (sshPubRest_idx1 j.name) (gitCfgRest_idx1 j.name) (by decide))
  have hne3p : sshPubLoc env.home j.name ≠ joinPath env.home (j.name ++ "_key.pub") := by
    rw [joinPath_homePub env.home j.name hh hj]
    exact locOf_ne env.home (ne_homePub_of_dotted hj (sshPubRest_idx0 j.name))
  by_cases hk : sshKeyExists env (processFolders env j w).fs j
  · left
    simp only [processIdentity, if_pos hk]
    show (createIdentityGitConfig env j (processFolders env j w)).fs.lookup _ = _
    rw [createIdentityGitConfig_fs, if_neg hne4p, processFolders_fs]
  · rcases hg : env.keygen j.name with _ | ⟨pr, pb⟩
    · right
      right
      have hgen : generateSSHKey env j (processFolders env j w) =
          ({ processFolders env j w with
              fs := (((processFolders env j w).fs.remove
                (expandPath env.home (sshKeyPathOf j))).remove
                  (expandPath env.home (sshPubKeyPathOf j))).mkdir
                    (dirName (expandPath env.home (sshKeyPathOf j)))
              log := (processFolders env j w).log ++
                [.fremove (expandPath env.home (sshKeyPathOf j)),
                 .fremove (expandPath env.home (sshPubKeyPathOf j)), .keygen j.name] },
            false) := by
        simp [generateSSHKey, hg]
      simp only [processIdentity, if_neg hk, hgen, Bool.not_false, if_true]
      rw [FS.lookup_mkdir, FS.lookup_remove,
        if_pos (expandPath_sshPub env.home j hh hj).symm]
    · right
      left
      refine ⟨pr, pb, rfl, ?_⟩
      have hgen : generateSSHKey env j (processFolders env j w) =
          ({ processFolders env j w with
              fs := (((((processFolders env j w).fs.remove
                (expandPath env.home (sshKeyPathOf j))).remove
                  (expandPath env.home (sshPubKeyPathOf j))).mkdir
                    (dirName (expandPath env.home (sshKeyPathOf j)))).write
                      (expandPath env.home (sshKeyPathOf j)) (.text pr) env.now).write
                        (expandPath env.home (sshPubKeyPathOf j)) (.text pb) env.now
              log := (processFolders env j w).log ++
                [.fremove (expandPath env.home (sshKeyPathOf j)),
                 .fremove (expandPath env.home (sshPubKeyPathOf j)), .keygen j.name] },
            true) := by
        simp [generateSSHKey, hg]
      simp only [processIdentity, if_neg hk, hgen, Bool.not_true, Bool.false_eq_true,
        if_false]
      rw [createIdentityGitConfig_fs, if_neg hne4p,
        copyPublicKeyToHome_fs env j _ _ hne3p]
      rw [FS.lookup_write, if_pos (expandPath_sshPub env.home j hh hj).symm]

theorem processLoop_pub_cases (env : Env) (l : List (String × Identity)) (w : World)
    (res : SyncResult) (n : String) (hh : NicePath env.home) (hn : PlainName n)
    (hpl : ∀ e ∈ l, PlainName e.2.name) :
    (l.foldl (fun acc e => processIdentity env acc e.2) (w, res)).1.fs.lookup
        (sshPubLoc env.home n) = w.fs.lookup (sshPubLoc env.home n) ∨
    (∃ pr pb, env.keygen n = some (pr, pb) ∧
      (l.foldl (fun acc e => processIdentity env acc e.2) (w, res)).1.fs.lookup
        (sshPubLoc env.home n) = some ⟨.text pb, env.now⟩) ∨
    (l.foldl (fun acc e => processIdentity env acc e.2) (w, res)).1.fs.lookup
      (sshPubLoc env.home n) = none := by
  revert hpl
  induction l generalizing w res with
  | nil =>
    intro _
    left
    rfl
  | cons e rest ih =>
    intro hpl
    rcases hp : processIdentity env (w, res) e.2 with ⟨w1, res1⟩
    have hstep : w1.fs.lookup (sshPubLoc env.home n) =
        w.fs.lookup (sshPubLoc env.home n) ∨
        (∃ pr pb, env.keygen n = some (pr, pb) ∧
          w1.fs.lookup (sshPubLoc env.home n) = some ⟨.text pb, env.now⟩) ∨
        w1.fs.lookup (sshPubLoc env.home n) = none := by
      by_cases hen : e.2.name = n
      · have h := processIdentity_pub_step env w res e.2 hh (hpl e (by simp))
        rw [hp, hen] at h
        exact h
      · left
        have hcp : ¬ CleanupPath env.home e.2.name (sshPubLoc env.home n) :=
          pubLoc_not_cleanupPath hn (hpl e (by simp)) (fun h => hen h.symm)
        have h := processIdentity_fs env w res e.2 (sshPubLoc env.home n) hh
          (hpl e (by simp)) (fun h => hcp (Or.inl h)) (fun h => hcp (Or.inr (Or.inl h)))
          (fun h => hcp (Or.inr (Or.inr (Or.inl h))))
          (fun h => hcp (Or.inr (Or.inr (Or.inr h))))
        rw [hp] at h
        exact h
    have hloop := ih w1 res1 (fun y hy => hpl y (by simp [hy]))
    simp only [List.foldl_cons, hp]
    rcases hloop with h | h | h
    · rcases hstep with h2 | ⟨pr, pb, hkg, h2⟩ | h2
      · left
        rw [h, h2]
      · right
        left
        exact ⟨pr, pb, hkg, by rw [h, h2]⟩
      · right
        right
        rw [h, h2]
    · right
      left
      exact h
    · right
      right
      exact h

theorem sync_pub_value (env : Env) (config : Config) (w0 : World) (n : String)
    (i : Identity) (hh : NicePath env.home)
    (hkeys : ∀ e ∈ config.identities, e.1 = e.2.name)
    (hplain : ∀ e ∈ config.identities, PlainName e.2.name)
    (horph : ∀ o ∈ detectOrphans env.home config w0.fs, PlainName o)
    (hmem : (n, i) ∈ config.identities) :
    (sync env config w0).1.fs.lookup (sshPubLoc env.home i.name) =
      w0.fs.lookup (sshPubLoc env.home i.name) ∨
    (∃ pr pb, env.keygen i.name = some (pr, pb) ∧
      (sync env config w0).1.fs.lookup (sshPubLoc env.home i.name) =
        some ⟨.text pb, env.now⟩) ∨
    (sync env config w0).1.fs.lookup (sshPubLoc env.home i.name) = none := by
  have hni : n = i.name := hkeys (n, i) hmem
  have hN : PlainName i.name := hplain (n, i) hmem
  have hhas : config.hasIdentity i.name = true := by
    unfold Config.hasIdentity
    rw [List.any_eq_true]
    exact ⟨(n, i), hmem, by simp [hni]⟩
  have hneq : ∀ o ∈ detectOrphans env.home config w0.fs, i.name ≠ o := by
    intro o ho he
    have hf := detectOrphans_not_hasIdentity ho
    rw [← he, hhas] at hf
    exact absurd hf (by simp)
  have hcp2 : ∀ o ∈ detectOrphans env.home config w0.fs,
      ¬ CleanupPath env.home o (sshPubLoc env.home i.name) :=
    fun o ho => pubLoc_not_cleanupPath hN (horph o ho) (hneq o ho)
  have hsh2 : ∀ r, (sshPubLoc env.home i.name).data ≠
      (backupDirOf env.home).data ++ "/git-orphans-".data ++ r :=
    loc_ne_archive (by rw [sshPubRest_idx1]; decide) env.home
  rcases hop : orphanPhase env (detectOrphans env.home config w0.fs) w0 with ⟨w1, removed⟩
  have hofs : w1.fs.lookup (sshPubLoc env.home i.name) =
      w0.fs.lookup (sshPubLoc env.home i.name) := by
    have h := orphanPhase_keep env _ w0 _ hh horph hcp2 hsh2
    rw [hop] at h
    exact h
  rcases hfold : config.identities.foldl (fun acc e => processIdentity env acc e.2)
      (w1, (⟨removed, [], [], [], []⟩ : SyncResult)) with ⟨w2, res⟩
  have hloop := processLoop_pub_cases env config.identities w1
    ⟨removed, [], [], [], []⟩ i.name hh hN hplain
  rw [hfold] at hloop
  have hgp1 : sshPubLoc env.home i.name ≠ env.home ++ "/.gitconfig" := by
    rw [globalGit_norm]
    exact locOf_ne env.home (ne_of_idx1 (sshPubRest_idx1 i.name) globalGitRest_idx1
      (by decide))
  have hgp2 : sshPubLoc env.home i.name ≠ env.home ++ "/.ssh/config" := by
    rw [sshCfg_norm]
    exact locOf_ne env.home (ne_of_last (sshPubRest_last i.name) sshCfgRest_last
      (by decide))
  have hgp3 : sshPubLoc env.home i.name ≠ env.home ++ "/.ssh/allowed_signers" := by
    rw [signers_norm]
    exact locOf_ne env.home (ne_of_last (sshPubRest_last i.name) signersRest_last
      (by decide))
  have hfin : (sync env config w0).1.fs.lookup (sshPubLoc env.home i.name) =
      w2.fs.lookup (sshPubLoc env.home i.name) := by
    simp only [sync, hop, hfold]
    show (statePhase env config (globalPhase env config w2)).fs.lookup _ = _
    rw [statePhase_fs, globalPhase_fs env config w2 _ hgp1 hgp2 hgp3]
  rcases hloop with h | ⟨pr, pb, hkg, h⟩ | h
  · left
    rw [hfin, h, hofs]
  · right
    left
    exact ⟨pr, pb, hkg, by rw [hfin, h]⟩
  · right
    right
    rw [hfin, h]

/-! ## C1: second-run scan bounds -/

theorem read_isSome_lookup {fs : FS} {p : String} {d : FileData}
    (h : fs.read p = some d) : (fs.lookup p).isSome = true := by
  unfold FS.read at h
  rcases hl : fs.lookup p with _ | e
  · rw [hl] at h
    simp at h
  · simp

theorem read_of_lookup_eq {fs1 fs2 : FS} {p : String}
    (h : fs1.lookup p = fs2.lookup p) : fs1.read p = fs2.read p := by
  unfold FS.read
  rw [h]

theorem sync_keyscan_bound (env : Env) (config : Config) (w0 : World)
    (hh : NicePath env.home)
    (hkeys : ∀ e ∈ config.identities, e.1 = e.2.name)
    (hplain : ∀ e ∈ config.identities, PlainName e.2.name)
    (horph : ∀ o ∈ detectOrphans env.home config w0.fs, PlainName o)
    (henv : ∀ n pr pb, env.keygen n = some (pr, pb) →
      isZZKManagedContent pb = (true, n))
    (hwf : ∀ b m, goHasSuffix b ".pub" = true →
      isZZKManagedKey w0.fs (env.home ++ "/.ssh" ++ "/" ++ b) = (true, m) →
      b = m ++ "_key.pub") :
    ∀ m ∈ (findZZKManagedKeys env.home (sync env config w0).1.fs).map Prod.fst,
      config.hasIdentity m = true := by
  intro m hm
  rw [findZZKManagedKeys_mem] at hm
  obtain ⟨b, ⟨⟨e, he, hchild⟩, hsuf⟩, hhit⟩ := hm
  obtain ⟨hpd, hbne, hbns⟩ := childOf_some hchild
  have hpnorm : env.home ++ "/.ssh" ++ "/" ++ b =
      locOf env.home (".ssh".data ++ '/' :: b.data) := sshChild_norm env.home b
  have hdata2 : (env.home ++ "/.ssh" ++ "/" ++ b).data =
      (env.home ++ "/.ssh").data ++ '/' :: b.data := by
    simp [String.data_append, List.append_assoc]
  have he1 : e.1 = env.home ++ "/.ssh" ++ "/" ++ b := by
    apply dataEq_ext
    rw [hpd, hdata2]
  have hsome1 : ((sync env config w0).1.fs.lookup
      (env.home ++ "/.ssh" ++ "/" ++ b)).isSome = true := by
    rw [← he1]
    exact lookup_isSome_of_mem (show (e.1, e.2) ∈ _ from by rw [Prod.mk.eta]; exact he)
  have hread1 : ∃ c, (sync env config w0).1.fs.read (env.home ++ "/.ssh" ++ "/" ++ b) =
      some (.text c) ∧ isZZKManagedContent c = (true, m) := by
    unfold isZZKManagedKey at hhit
    rcases hr : (sync env config w0).1.fs.read (env.home ++ "/.ssh" ++ "/" ++ b)
      with _ | d
    · rw [hr] at hhit
      exact absurd hhit (by simp)
    · rcases d with c | ar
      · rw [hr] at hhit
        exact ⟨c, rfl, hhit⟩
      · rw [hr] at hhit
        exact absurd hhit (by simp)
  obtain ⟨c, hrc, hcm⟩ := hread1
  by_cases hhas : config.hasIdentity m = true
  · exact hhas
  exfalso
  obtain ⟨pre, hpre⟩ := goHasSuffix_decomp hsuf
  have hlast := childRest_last_pub hpre
  by_cases hpcfg : ∃ e2 ∈ config.identities,
      locOf env.home (".ssh".data ++ '/' :: b.data) = sshPubLoc env.home e2.2.name
  · obtain ⟨e2, he2, hpe⟩ := hpcfg
    have hmem2 : (e2.1, e2.2) ∈ config.identities := by
      rw [Prod.mk.eta]
      exact he2
    have hpp : env.home ++ "/.ssh" ++ "/" ++ b = sshPubLoc env.home e2.2.name := by
      rw [hpnorm, hpe]
    have hval := sync_pub_value env config w0 e2.1 e2.2 hh hkeys hplain horph hmem2
    have hgetm : m = e2.2.name → config.hasIdentity m = true := by
      intro hmn
      unfold Config.hasIdentity
      rw [List.any_eq_true]
      exact ⟨e2, he2, by simp [hkeys e2 he2, hmn]⟩
    rcases hval with hv | ⟨pr, pb, hkg, hv⟩ | hv
    · have hrr : (sync env config w0).1.fs.read (sshPubLoc env.home e2.2.name) =
          w0.fs.read (sshPubLoc env.home e2.2.name) := read_of_lookup_eq hv
      have hit0 : isZZKManagedKey w0.fs (env.home ++ "/.ssh" ++ "/" ++ b) =
          (true, m) := by
        unfold isZZKManagedKey
        rw [show w0.fs.read (env.home ++ "/.ssh" ++ "/" ++ b) = some (.text c) from by
          rw [hpp, ← hrr, ← hpp]
          exact hrc]
        exact hcm
      have hb := hwf b m hsuf hit0
      have hpm : locOf env.home (".ssh".data ++ '/' :: b.data) =
          sshPubLoc env.home m := by
        rw [childRest_eq_pubRest hb]
        rfl
      have hmn : m = e2.2.name := by
        have heq := hpm.symm.trans hpe
        have h2 := (locEq env.home ('/' :: sshPubRest m)
          ('/' :: sshPubRest e2.2.name)).mp heq
        injection h2 with h3 h4
        exact sshPubRest_inj h4
      exact hhas (hgetm hmn)
    · have h1 : (sync env config w0).1.fs.read (sshPubLoc env.home e2.2.name) =
          some (.text pb) := by
        unfold FS.read
        rw [hv]
        rfl
      rw [← hpp, hrc] at h1
      injection h1 with h1
      injection h1 with h1
      have h2 := henv e2.2.name pr pb hkg
      rw [← h1, hcm] at h2
      injection h2 with h3 h4
      exact hhas (hgetm h4)
    · rw [hpp, hv] at hsome1
      simp at hsome1
  · by_cases hporph : ∃ o ∈ detectOrphans env.home config w0.fs,
        locOf env.home (".ssh".data ++ '/' :: b.data) = sshPubLoc env.home o
    · obtain ⟨o, ho, hpo⟩ := hporph
      have hrem := sync_removed env config w0
        (locOf env.home (".ssh".data ++ '/' :: b.data)) o hh horph hplain ho
        (Or.inr (Or.inl hpo))
        (fun e2 he2 hcp =>
          hpcfg ⟨e2, he2, childPub_cleanup_cases (hplain e2 he2) hlast hcp⟩)
        (childPub_ne_globals env.home b hlast).1
        (childPub_ne_globals env.home b hlast).2.1
        (childPub_ne_globals env.home b hlast).2.2
      rw [← hpnorm] at hrem
      rw [hrem] at hsome1
      simp at hsome1
    · have hfr := sync_frame env config w0
        (locOf env.home (".ssh".data ++ '/' :: b.data)) hh horph hplain
        (fun o ho hcp =>
          hporph ⟨o, ho, childPub_cleanup_cases (horph o ho) hlast hcp⟩)
        (fun e2 he2 hcp =>
          hpcfg ⟨e2, he2, childPub_cleanup_cases (hplain e2 he2) hlast hcp⟩)
        (childPub_archfree env.home b)
        (childPub_ne_globals env.home b hlast).1
        (childPub_ne_globals env.home b hlast).2.1
        (childPub_ne_globals env.home b hlast).2.2
      rw [← hpnorm] at hfr
      have hr0 : w0.fs.read (env.home ++ "/.ssh" ++ "/" ++ b) = some (.text c) := by
        rw [← read_of_lookup_eq hfr]
        exact hrc
      have hit0 : isZZKManagedKey w0.fs (env.home ++ "/.ssh" ++ "/" ++ b) =
          (true, m) := by
        unfold isZZKManagedKey
        rw [hr0]
        exact hcm
      have hb := hwf b m hsuf hit0
      have hpm : locOf env.home (".ssh".data ++ '/' :: b.data) =
          sshPubLoc env.home m := by
        rw [childRest_eq_pubRest hb]
        rfl
      have hm0 : m ∈ (findZZKManagedKeys env.home w0.fs).map Prod.fst := by
        rw [findZZKManagedKeys_mem]
        have hsome0 : (w0.fs.lookup (env.home ++ "/.ssh" ++ "/" ++ b)).isSome = true :=
          read_isSome_lookup hr0
        obtain ⟨e0, he0⟩ := exists_mem_of_lookup_isSome hsome0
        refine ⟨b, ⟨⟨(env.home ++ "/.ssh" ++ "/" ++ b, e0), he0, ?_⟩, hsuf⟩, hit0⟩
        rw [append_slash_child, childOf_under, if_pos ⟨hbne, hbns⟩]
      have hmo : m ∈ detectOrphans env.home config w0.fs :=
        detectOrphans_complete (Or.inl hm0) (by simpa using hhas)
      exact hporph ⟨m, hmo, hpm⟩

theorem sync_cfgscan_bound (env : Env) (config : Config) (w0 : World)
    (hh : NicePath env.home)
    (hkeys : ∀ e ∈ config.identities, e.1 = e.2.name)
    (hplain : ∀ e ∈ config.identities, PlainName e.2.name)
    (horph : ∀ o ∈ detectOrphans env.home config w0.fs, PlainName o) :
    ∀ m ∈ (findZZKManagedGitConfigs env.home (sync env config w0).1.fs).map Prod.fst,
      config.hasIdentity m = true := by
  intro m hm
  rw [findZZKManagedGitConfigs_mem] at hm
  obtain ⟨b, ⟨⟨e, he, hchild⟩, hflt⟩, hstrip⟩ := hm
  obtain ⟨hpd, hbne, hbns⟩ := childOf_some hchild
  have hbdata : b.data = ".gitconfig-".data ++ m.data := stripPre_some hstrip
  have hpg : (⟨env.home.data ++ '/' :: b.data⟩ : String) = gitCfgLoc env.home m := by
    rw [show gitCfgLoc env.home m = locOf env.home (gitCfgRest m) from rfl]
    unfold locOf
    rw [hbdata]
    rfl
  have he1 : e.1 = gitCfgLoc env.home m := by
    apply dataEq_ext
    have hgd : (gitCfgLoc env.home m).data = env.home.data ++ '/' :: b.data := by
      rw [← hpg]
    rw [hpd, hgd]
  have hsome1 : ((sync env config w0).1.fs.lookup (gitCfgLoc env.home m)).isSome =
      true := by
    rw [← he1]
    exact lookup_isSome_of_mem (show (e.1, e.2) ∈ _ from by rw [Prod.mk.eta]; exact he)
  by_cases hhas : config.hasIdentity m = true
  · exact hhas
  exfalso
  have hcpc : ∀ e2 ∈ config.identities,
      ¬ CleanupPath env.home e2.2.name (gitCfgLoc env.home m) := by
    intro e2 he2 hcp
    have hmn := gitCfg_cleanup_cases (hplain e2 he2) hcp
    apply hhas
    unfold Config.hasIdentity
    rw [List.any_eq_true]
    exact ⟨e2, he2, by simp [hkeys e2 he2, hmn]⟩
  by_cases hmo : m ∈ detectOrphans env.home config w0.fs
  · have hrem := sync_removed env config w0 (gitCfgLoc env.home m) m hh horph hplain
      hmo (Or.inr (Or.inr (Or.inr rfl))) hcpc (gitCfg_ne_globals env.home m).1
      (gitCfg_ne_globals env.home m).2.1 (gitCfg_ne_globals env.home m).2.2
    rw [hrem] at hsome1
    simp at hsome1
  · have hcpo : ∀ o ∈ detectOrphans env.home config w0.fs,
        ¬ CleanupPath env.home o (gitCfgLoc env.home m) := by
      intro o ho hcp
      exact hmo ((gitCfg_cleanup_cases (horph o ho) hcp) ▸ ho)
    have hfr := sync_frame env config w0 (gitCfgLoc env.home m) hh horph hplain hcpo
      hcpc (gitCfg_archfree env.home m) (gitCfg_ne_globals env.home m).1
      (gitCfg_ne_globals env.home m).2.1 (gitCfg_ne_globals env.home m).2.2
    rw [hfr] at hsome1
    obtain ⟨e0, he0⟩ := exists_mem_of_lookup_isSome hsome1
    have hm0 : m ∈ (findZZKManagedGitConfigs env.home w0.fs).map Prod.fst := by
      rw [findZZKManagedGitConfigs_mem]
      refine ⟨b, ⟨⟨(gitCfgLoc env.home m, e0), he0, ?_⟩, hflt⟩, hstrip⟩
      rw [← hpg, childOf_under, if_pos ⟨hbne, hbns⟩]
    exact hmo (detectOrphans_complete (Or.inr hm0) (by simpa using hhas))

/-- C1.  Running `Sync` a second time right after a run, with the same
configuration and the same deterministic environment: provided the home
path is well formed, configured and scanned names are plain, generated
public keys embed their own identity's marker, and every marker-tagged
`~/.ssh` public key of the initial world sits at its identity's canonical
path, the second run reports zero created identities and zero removed
orphans, and the global git config, SSH config and allowed-signers files
are byte-identical before and after the second run. -/
theorem sync_idempotent (env : Env) (config : Config) (w0 : World)
    (hh : NicePath env.home)
    (hkeys : ∀ e ∈ config.identities, e.1 = e.2.name)
    (hplain : ∀ e ∈ config.identities, PlainName e.2.name)
    (horph : ∀ o ∈ detectOrphans env.home config w0.fs, PlainName o)
    (henv : ∀ n pr pb, env.keygen n = some (pr, pb) →
      isZZKManagedContent pb = (true, n))
    (hwf : ∀ b m, goHasSuffix b ".pub" = true →
      isZZKManagedKey w0.fs (env.home ++ "/.ssh" ++ "/" ++ b) = (true, m) →
      b = m ++ "_key.pub") :
    (sync env config (sync env config w0).1).2.created = [] ∧
    (sync env config (sync env config w0).1).2.orphansRemoved = [] ∧
    (sync env config (sync env config w0).1).1.fs.lookup
        (env.home ++ "/.gitconfig") =
      (sync env config w0).1.fs.lookup (env.home ++ "/.gitconfig") ∧
    (sync env config (sync env config w0).1).1.fs.lookup
        (env.home ++ "/.ssh/config") =
      (sync env config w0).1.fs.lookup (env.home ++ "/.ssh/config") ∧
    (sync env config (sync env config w0).1).1.fs.lookup
        (env.home ++ "/.ssh/allowed_signers") =
      (sync env config w0).1.fs.lookup (env.home ++ "/.ssh/allowed_signers") := by
  have hempty : detectOrphans env.home config (sync env config w0).1.fs = [] :=
    detectOrphans_empty
      (sync_keyscan_bound env config w0 hh hkeys hplain horph henv hwf)
      (sync_cfgscan_bound env config w0 hh hkeys hplain horph)
  have hinv : ∀ e ∈ config.identities,
      ((((sync env config w0).1.fs.lookup (sshKeyLoc env.home e.2.name)).isSome = true ∧
        ((sync env config w0).1.fs.lookup (sshPubLoc env.home e.2.name)).isSome = true)) ∨
      env.keygen e.2.name = none := by
    intro e he
    rcases hop : orphanPhase env (detectOrphans env.home config w0.fs) w0
      with ⟨w1, removed⟩
    rcases hfold : config.identities.foldl (fun acc e => processIdentity env acc e.2)
        (w1, (⟨removed, [], [], [], []⟩ : SyncResult)) with ⟨w2, res⟩
    have hest := processLoop_estab env config.identities w1 ⟨removed, [], [], [], []⟩
      hh hplain e he
    rw [hfold] at hest
    have hgk1 : sshKeyLoc env.home e.2.name ≠ env.home ++ "/.gitconfig" := by
      rw [globalGit_norm]
      exact locOf_ne env.home
        (ne_of_idx1 (sshKeyRest_idx1 e.2.name) globalGitRest_idx1 (by decide))
    have hgk2 : sshKeyLoc env.home e.2.name ≠ env.home ++ "/.ssh/config" := by
      rw [sshCfg_norm]
      exact locOf_ne env.home
        (ne_of_last (sshKeyRest_last e.2.name) sshCfgRest_last (by decide))
    have hgk3 : sshKeyLoc env.home e.2.name ≠ env.home ++ "/.ssh/allowed_signers" := by
      rw [signers_norm]
      exact locOf_ne env.home
        (ne_of_last (sshKeyRest_last e.2.name) signersRest_last (by decide))
    have hgp1 : sshPubLoc env.home e.2.name ≠ env.home ++ "/.gitconfig" := by
      rw [globalGit_norm]
      exact locOf_ne env.home
        (ne_of_idx1 (sshPubRest_idx1 e.2.name) globalGitRest_idx1 (by decide))
    have hgp2 : sshPubLoc env.home e.2.name ≠ env.home ++ "/.ssh/config" := by
      rw [sshCfg_norm]
      exact locOf_ne env.home
        (ne_of_last (sshPubRest_last e.2.name) sshCfgRest_last (by decide))
    have hgp3 : sshPubLoc env.home e.2.name ≠ env.home ++ "/.ssh/allowed_signers" := by
      rw [signers_norm]
      exact locOf_ne env.home
        (ne_of_last (sshPubRest_last e.2.name) signersRest_last (by decide))
    have hfin1 : (sync env config w0).1.fs.lookup (sshKeyLoc env.home e.2.name) =
        w2.fs.lookup (sshKeyLoc env.home e.2.name) := by
      simp only [sync, hop, hfold]
      show (statePhase env config (globalPhase env config w2)).fs.lookup _ = _
      rw [statePhase_fs, globalPhase_fs env config w2 _ hgk1 hgk2 hgk3]
    have hfin2 : (sync env config w0).1.fs.lookup (sshPubLoc env.home e.2.name) =
        w2.fs.lookup (sshPubLoc env.home e.2.name) := by
      simp only [sync, hop, hfold]
      show (statePhase env config (globalPhase env config w2)).fs.lookup _ = _
      rw [statePhase_fs, globalPhase_fs env config w2 _ hgp1 hgp2 hgp3]
    rcases hest with ⟨h1, h2⟩ | hg
    · exact Or.inl ⟨by rw [hfin1]; exact h1, by rw [hfin2]; exact h2⟩
    · exact Or.inr hg
  have hg1run := sync_globals env config w0
  obtain ⟨r1, hs1⟩ : ∃ r, sync env config w0 = r := ⟨_, rfl⟩
  rw [hs1] at hempty hinv hg1run ⊢
  rcases hs2fold : config.identities.foldl (fun acc e => processIdentity env acc e.2)
      (r1.1, (⟨[], [], [], [], []⟩ : SyncResult)) with ⟨w2b, res2⟩
  have h1 : orphanPhase env (detectOrphans env.home config r1.1.fs) r1.1 =
      (r1.1, []) := by
    rw [hempty]
    simp [orphanPhase]
  have hsync2 : sync env config r1.1 =
      (statePhase env config (globalPhase env config w2b), res2) := by
    simp only [sync, h1, hs2fold]
  have hg2run := sync_globals env config r1.1
  refine ⟨?_, ?_, ?_, ?_, ?_⟩
  · rw [hsync2]
    show res2.created = []
    have hnc := processLoop_no_create env config.identities r1.1
      ⟨[], [], [], [], []⟩ hh hplain hinv
    rw [hs2fold] at hnc
    exact hnc
  · rw [hsync2]
    show res2.orphansRemoved = []
    have hno := processLoop_orphansRemoved env config.identities r1.1
      ⟨[], [], [], [], []⟩
    rw [hs2fold] at hno
    exact hno
  · rw [hg2run.1, hg1run.1]
  · rw [hg2run.2.1, hg1run.2.1]
  · rw [hg2run.2.2, hg1run.2.2]

theorem sync_idempotent_witness :
    (sync envNone cfgA (sync envNone cfgA wEmpty).1).2.created = [] ∧
    (sync envNone cfgA (sync envNone cfgA wEmpty).1).2.orphansRemoved = [] ∧
    (sync envNone cfgA (sync envNone cfgA wEmpty).1).1.fs.lookup
        (envNone.home ++ "/.gitconfig") =
      (sync envNone cfgA wEmpty).1.fs.lookup (envNone.home ++ "/.gitconfig") ∧
    (sync envNone cfgA (sync envNone cfgA wEmpty).1).1.fs.lookup
        (envNone.home ++ "/.ssh/config") =
      (sync envNone cfgA wEmpty).1.fs.lookup (envNone.home ++ "/.ssh/config") ∧
    (sync envNone cfgA (sync envNone cfgA wEmpty).1).1.fs.lookup
        (envNone.home ++ "/.ssh/allowed_signers") =
      (sync envNone cfgA wEmpty).1.fs.lookup
        (envNone.home ++ "/.ssh/allowed_signers") :=
  sync_idempotent envNone cfgA wEmpty ⟨['h'], rfl, by decide⟩ (by decide) (by decide)
    (by decide) (fun n pr pb h => absurd h (by simp [envNone]))
    (fun b m h1 h2 => by simp [isZZKManagedKey, FS.read, FS.lookup, wEmpty] at h2)

end ZZK
